import Mathlib

/-!
Verification of the segregated-list malloc implementation in src/malloc/mm.c.

The development has two layers.

1. A word-level model of the header codec (`pack`, `extract_size`,
   `extract_mini`, `get_size`, and the mini-block predecessor packing done by
   `set_prev_free` / `get_prev_free`), with the 64-bit machine words of the C
   code embedded as natural numbers reduced modulo `2 ^ 64` where overflow is
   possible.

2. A block-level model of the heap: the implicit list of blocks is a `List`
   of (size, allocated-bit, previous-allocated-bit) records in address order,
   and the 15 segregated free lists are lists of block addresses.  Each public
   operation of mm.c (`malloc`, `free`, `realloc`, `calloc`, `mm_init`,
   `extend_heap`, `coalesce_block`, `split_block`, `find_fit`,
   `add_to_free`, `remove_from_free`, `update_next`) is translated function by
   function.  Pointer arithmetic becomes address arithmetic (a block's address
   is 8 plus the sizes of the blocks before it, matching the heap layout where
   the prologue word occupies bytes 0..7); reading a neighbouring block through
   a header or footer becomes an index shift; the doubly-linked bucket surgery
   of `add_to_free` / `remove_from_free` becomes head-insertion into and
   erasure from the bucket list.  The heap-growth primitive `mem_sbrk` is not
   part of src/, so its success or failure is an explicit boolean oracle
   passed to the operations.
-/

set_option maxHeartbeats 1000000

namespace MMAlloc

/-! ## Basic constants (mm.c lines 78-119) -/

/-- Machine word modulus: the C code uses 64-bit `size_t` and `word_t`. -/
def W : Nat := 2 ^ 64

/-- Number of segregated lists (mm.c `seglist_length`). -/
def seglist_length : Nat := 15

/-- Word and header size in bytes (mm.c `wsize`). -/
def wsize : Nat := 8

/-- Double word size in bytes (mm.c `dsize`). -/
def dsize : Nat := 16

/-- Minimum block size in bytes (mm.c `min_block_size`). -/
def min_block_size : Nat := 16

/-- Initial heap increment (mm.c `chunksize`). -/
def chunksize : Nat := 4096

/-- Mask isolating the allocation bit (mm.c `alloc_mask`). -/
def alloc_mask : Nat := 0x1

/-- Mask isolating the previous-allocation bit (mm.c `alloc_prev_mask`). -/
def alloc_prev_mask : Nat := 0x2

/-- Mask isolating the mini-block bit (mm.c `mini_mask`). -/
def mini_mask : Nat := 0x4

/-- Mask extracting the size field: `~(word_t)0xF` on 64 bits (mm.c `size_mask`). -/
def size_mask : Nat := W - 16

/-! ## Header codec (mm.c lines 220-293, 539-604) -/

/-- mm.c `pack`: pack size and status bits into a header word.  The mini bit is
set automatically whenever the size equals the minimum block size. -/
def pack (size : Nat) (alloc prev_alloc : Bool) : Nat :=
  let w0 := size % W
  let w1 := if alloc then w0 ||| alloc_mask else w0
  let w2 := if prev_alloc then w1 ||| alloc_prev_mask else w1
  if size = min_block_size then w2 ||| mini_mask else w2

/-- mm.c `extract_size`: clear the low four bits of a header word. -/
def extract_size (w : Nat) : Nat := w &&& size_mask

/-- mm.c `extract_mini`: the mini-block bit of a header word. -/
def extract_mini (w : Nat) : Bool := (w &&& mini_mask) >>> 2 != 0

/-- mm.c `get_size` on a header word: a header with the mini bit set always
reports the minimum block size, ignoring the size field. -/
def get_size (w : Nat) : Nat :=
  if extract_mini w then min_block_size else extract_size w

/-- mm.c `extract_alloc`: the allocation bit of a header word. -/
def extract_alloc (w : Nat) : Bool := w &&& alloc_mask != 0

/-- mm.c `extract_prev_alloc`: the previous-allocation bit of a header word. -/
def extract_prev_alloc (w : Nat) : Bool := (w &&& alloc_prev_mask) >>> 1 != 0

/-- mm.c `set_prev_free`, mini branch (lines 596-600): the predecessor pointer
is stored in the header bits above the low three,
`header = (header & 0x7) | (size_t) prev`. -/
def set_prev_free_hdr (header prev : Nat) : Nat := (header &&& 0x7) ||| prev

/-- mm.c `get_prev_free`, mini branch (lines 578-580): the predecessor pointer
is read back from the header, `(block_t *) (header & ~0x7)`.  On 64 bits the
mask `~0x7` is `2 ^ 64 - 8`. -/
def get_prev_free_hdr (header : Nat) : Nat := header &&& (W - 8)

/-! ## Segregated-list index (mm.c lines 553-565) -/

/-- The loop `for (i = size >> 4; i != 0; i = i >> 1) count++;` of
mm.c `get_seglist_ind`: count the right shifts until zero, with a fuel bound
(the loop runs at most `i` times since `i` strictly decreases). -/
def countIterGo : Nat → Nat → Nat
  | 0, _ => 0
  | fuel + 1, m => if m = 0 then 0 else countIterGo fuel (m / 2) + 1

/-- The shift count of mm.c `get_seglist_ind`, with fuel `n` (enough: the
loop halves its counter each step). -/
def countIter (n : Nat) : Nat := countIterGo n n

/-- mm.c `get_seglist_ind`: bucket index for a block size. -/
def get_seglist_ind (size : Nat) : Nat :=
  let count := if size ≤ 16 then 1 else countIter (size >>> 4)
  min (count - 1) (seglist_length - 1)

/-! ## Block-level heap model

A block is its header information; the payload bytes and the footer are not
represented (the footer always mirrors the header of a free non-mini block,
and the model reads the previous block positionally, which is what the
footer of mm.c exists to enable).  The heap is the implicit list of real
blocks in address order between the prologue and the epilogue, the epilogue's
previous-allocated bit, and the fifteen segregated bucket lists holding block
addresses. -/

structure Blk where
  size : Nat
  alloc : Bool
  prevAlloc : Bool
deriving DecidableEq, Repr

structure Heap where
  blocks : List Blk
  epiPrev : Bool
  roots : List (List Nat)
deriving DecidableEq, Repr

/-- Reading one block past the end of the implicit list reaches the epilogue:
size zero and allocated (mm.c `write_epilogue`). -/
def epilogueBlk : Blk := ⟨0, true, false⟩

/-- The block at index `i` of the implicit list (the epilogue if `i` is past
the end). -/
def blkAt (s : Heap) (i : Nat) : Blk := s.blocks.getD i epilogueBlk

def sumSizes (l : List Blk) : Nat := (l.map Blk.size).sum

/-- The first block header sits 8 bytes into the heap, right after the
prologue word written by `mm_init`. -/
def heap_start_addr : Nat := 8

/-- The address of block `i`: `heap_start` plus the sizes of all earlier
blocks, exactly how `find_next` walks the implicit list. -/
def addrB (s : Heap) (i : Nat) : Nat := heap_start_addr + sumSizes (s.blocks.take i)

/-- The address of the epilogue header (the end of the block area). -/
def heapEnd (s : Heap) : Nat := heap_start_addr + sumSizes s.blocks

/-- The blocks of a heap area paired with their addresses, starting at `a`. -/
def withAddrs : List Blk → Nat → List (Nat × Blk)
  | [], _ => []
  | b :: r, a => (a, b) :: withAddrs r (a + b.size)

/-- All real blocks of the heap with their addresses. -/
def cells (s : Heap) : List (Nat × Blk) := withAddrs s.blocks heap_start_addr

/-- Walk the block list from address `cur` looking for address `a`,
returning how many blocks are passed (the list length when `a` matches no
block). -/
def idxFrom : List Blk → Nat → Nat → Nat
  | [], _, _ => 0
  | b :: r, cur, a => if cur = a then 0 else idxFrom r (cur + b.size) a + 1

/-- Translate a block address back to its index in the implicit list
(dereferencing a `block_t *`).  Addresses that match no block map to the
list length. -/
def idxOf (s : Heap) (a : Nat) : Nat := idxFrom s.blocks heap_start_addr a

/-- mm.c `get_size(block)` for a block given by its address. -/
def sizeAt (s : Heap) (a : Nat) : Nat := (blkAt s (idxOf s a)).size

/-- The bucket list rooted at `free_root[j]`. -/
def bucket (s : Heap) (j : Nat) : List Nat := s.roots.getD j []

/-- mm.c `payload_to_header`. -/
def payload_to_header (bp : Nat) : Nat := bp - wsize

/-- mm.c `header_to_payload`. -/
def header_to_payload (a : Nat) : Nat := a + wsize

/-- mm.c `round_up`, on unbounded naturals. -/
def round_up (size n : Nat) : Nat := n * ((size + (n - 1)) / n)

/-- mm.c `round_up` as computed on 64-bit `size_t`: the addition and the
final multiplication wrap modulo `2 ^ 64`. -/
def round_up64 (size n : Nat) : Nat := (n * ((size + (n - 1)) % W / n)) % W

/-- mm.c `add_to_free`: insert a free block at the head of the bucket chosen
by its size.  Both branches of the C function (empty and non-empty root)
amount to head insertion; the predecessor/successor pointer writes are
represented by the list order itself. -/
def add_to_free (s : Heap) (a : Nat) : Heap :=
  let ind := get_seglist_ind (sizeAt s a)
  { s with roots := s.roots.set ind (a :: bucket s ind) }

/-- mm.c `remove_from_free`: unlink a block from the bucket chosen by its
size.  The four pointer-surgery cases of the C function (sole element, head,
tail, interior) all remove exactly the one occurrence of the block from its
bucket, which is `List.erase` on the bucket list. -/
def remove_from_free (s : Heap) (a : Nat) : Heap :=
  let ind := get_seglist_ind (sizeAt s a)
  { s with roots := s.roots.set ind ((bucket s ind).erase a) }

/-- mm.c `write_block` at index `i` (the footer mirror for free non-mini
blocks is implicit in the model). -/
def write_block (s : Heap) (i : Nat) (size : Nat) (alloc prev_alloc : Bool) : Heap :=
  { s with blocks := s.blocks.set i ⟨size, alloc, prev_alloc⟩ }

/-- mm.c `update_next`: set the previous-allocated bit of the block after `i`,
or of the epilogue when `i` is the last block.  (The footer refresh it also
performs for free non-mini blocks is implicit in the model.) -/
def update_next (s : Heap) (i : Nat) (alloc : Bool) : Heap :=
  if i + 1 < s.blocks.length then
    { s with blocks := s.blocks.set (i + 1) { blkAt s (i + 1) with prevAlloc := alloc } }
  else
    { s with epiPrev := alloc }

/-- mm.c `coalesce_block` (lines 713-772): merge a free block with its free
neighbours.  `find_prev`/`find_next` become index shifts; writing the merged
header over the lowest participant turns the participating run of the
implicit list into a single block. -/
def coalesce_block (s : Heap) (i : Nat) : Heap × Nat :=
  let prev_alloced := (blkAt s i).prevAlloc
  let next_alloced := (blkAt s (i + 1)).alloc
  if !next_alloced && !prev_alloced then
    let new_size := (blkAt s (i - 1)).size + (blkAt s i).size + (blkAt s (i + 1)).size
    let s1 := remove_from_free s (addrB s (i - 1))
    let s2 := remove_from_free s1 (addrB s (i + 1))
    let s3 := remove_from_free s2 (addrB s i)
    let merged : List Blk :=
      s3.blocks.take (i - 1) ++ ⟨new_size, false, true⟩ :: s3.blocks.drop (i + 2)
    let s4 := { s3 with blocks := merged }
    (add_to_free s4 (addrB s4 (i - 1)), i - 1)
  else if !next_alloced then
    let new_size := (blkAt s (i + 1)).size + (blkAt s i).size
    let s1 := remove_from_free s (addrB s (i + 1))
    let s2 := remove_from_free s1 (addrB s i)
    let merged : List Blk :=
      s2.blocks.take i ++ ⟨new_size, false, true⟩ :: s2.blocks.drop (i + 2)
    let s3 := { s2 with blocks := merged }
    (add_to_free s3 (addrB s3 i), i)
  else if !prev_alloced then
    let new_size := (blkAt s i).size + (blkAt s (i - 1)).size
    let s1 := remove_from_free s (addrB s (i - 1))
    let s2 := remove_from_free s1 (addrB s i)
    let merged : List Blk :=
      s2.blocks.take (i - 1) ++ ⟨new_size, false, true⟩ :: s2.blocks.drop (i + 1)
    let s3 := { s2 with blocks := merged }
    (add_to_free s3 (addrB s3 (i - 1)), i - 1)
  else (s, i)

/-- mm.c `split_block`: carve the tail off a freshly allocated block when the
leftover is at least `min_block_size`.  The C condition uses `size_t`
subtraction; every call site guarantees `asize ≤ block_size`, where natural
subtraction agrees with it. -/
def split_block (s : Heap) (i asize : Nat) : Heap :=
  let block_size := (blkAt s i).size
  if min_block_size ≤ block_size - asize then
    let pieces : List Blk :=
      s.blocks.take i ++ ⟨asize, true, true⟩ :: ⟨block_size - asize, false, true⟩ ::
        s.blocks.drop (i + 1)
    let s1 := { s with blocks := pieces }
    add_to_free s1 (addrB s1 (i + 1))
  else s

/-- The home-bucket scan of mm.c `find_fit` with its bounded best-fit
lookahead (`max_check = 9`). -/
def findFitLoop (s : Heap) (asize : Nat) : List Nat → Option Nat → Nat → Option Nat
  | [], mn, _ => mn
  | a :: rest, mn, checked =>
    if asize ≤ sizeAt s a then
      let mn' := match mn with
        | none => some a
        | some m => if sizeAt s a < sizeAt s m then some a else some m
      if 9 < checked then mn'
      else findFitLoop s asize rest mn' (checked + 1)
    else findFitLoop s asize rest mn (checked + 1)

/-- mm.c `find_fit`: scan the home bucket with bounded lookahead; if nothing
fits there, return the head of the first non-empty larger bucket. -/
def find_fit (s : Heap) (asize : Nat) : Option Nat :=
  let ind := get_seglist_ind asize
  match findFitLoop s asize (bucket s ind) none 0 with
  | some a => some a
  | none =>
      (List.range' (ind + 1) (seglist_length - (ind + 1))).findSome?
        fun j => (bucket s j).head?

/-- mm.c `extend_heap`.  The heap-growth primitive `mem_sbrk` lives in the
course-provided memlib, not in src/, so its outcome is the boolean oracle
`sbrkOk`; on failure the function returns null before touching any state.
On success the new free block is written over the old epilogue with the old
epilogue's previous-allocated bit, added to its bucket, a fresh epilogue is
written (previous-allocated clear), and the block is coalesced with the old
last block. -/
def extend_heap (s : Heap) (size : Nat) (sbrkOk : Bool) : Heap × Option Nat :=
  let rsize := round_up64 size dsize
  if !sbrkOk then (s, none)
  else
    let i := s.blocks.length
    let s1 := { s with blocks := s.blocks ++ [⟨rsize, false, s.epiPrev⟩] }
    let s2 := add_to_free s1 (addrB s1 i)
    let s3 := { s2 with epiPrev := false }
    let p := coalesce_block s3 i
    (p.1, some p.2)

/-- mm.c `malloc` (lines 1268-1327), for a heap that has already been
initialized.  The adjusted size is computed with 64-bit wraparound exactly as
`max(round_up(size + wsize, dsize), min_block_size)` does on `size_t`. -/
def malloc (s : Heap) (size : Nat) (sbrkOk : Bool) : Heap × Option Nat :=
  if size = 0 then (s, none)
  else
    let asize := max (round_up64 ((size + wsize) % W) dsize) min_block_size
    let p :=
      match find_fit s asize with
      | some a => (s, some (idxOf s a))
      | none => extend_heap s (max asize chunksize) sbrkOk
    match p.2 with
    | none => (p.1, none)
    | some i =>
      let s1 := remove_from_free p.1 (addrB p.1 i)
      let block_size := (blkAt s1 i).size
      let s2 := write_block s1 i block_size true true
      let s3 := split_block s2 i asize
      let s4 := update_next s3 i true
      (s4, some (header_to_payload (addrB s4 i)))

/-- mm.c `free` on a non-null payload pointer. -/
def free (s : Heap) (bp : Nat) : Heap :=
  let i := idxOf s (payload_to_header bp)
  let size := (blkAt s i).size
  let prev_alloc := (blkAt s i).prevAlloc
  let s1 := write_block s i size false prev_alloc
  let s2 := add_to_free s1 (addrB s1 i)
  let p := coalesce_block s2 i
  update_next p.1 p.2 false

/-- mm.c `free` including its null-pointer no-op. -/
def release (s : Heap) (ptr : Option Nat) : Heap :=
  match ptr with
  | none => s
  | some bp => free s bp

/-- mm.c `realloc`.  The `memcpy(newptr, ptr, copysize)` call is represented
by its byte count, returned as the third component (`none` when no copy
happens). -/
def realloc (s : Heap) (ptr : Option Nat) (size : Nat) (sbrkOk : Bool) :
    Heap × Option Nat × Option Nat :=
  if size = 0 then (release s ptr, none, none)
  else
    match ptr with
    | none =>
      let p := malloc s size sbrkOk
      (p.1, p.2, none)
    | some bp =>
      let p := malloc s size sbrkOk
      match p.2 with
      | none => (p.1, none, none)
      | some newp =>
        let block := idxOf p.1 (payload_to_header bp)
        let copysize0 := (blkAt p.1 block).size - wsize
        let copysize := if size < copysize0 then size else copysize0
        (free p.1 bp, some newp, some copysize)

/-- Modelled from the spec: memlib's `mem_memset` (aliased to `memset` in
mm.c but implemented outside src/) writes `n` zero bytes at the target;
it is represented by the list of bytes written. -/
def mem_memset_zero (n : Nat) : List Nat := List.replicate n 0

/-- mm.c `calloc`: the element count and size are multiplied on `size_t`
(modulo `2 ^ 64`) and the division check detects wraparound. -/
def calloc (s : Heap) (elements size : Nat) (sbrkOk : Bool) :
    Heap × Option (Nat × List Nat) :=
  let asize := (elements * size) % W
  if elements = 0 then (s, none)
  else if asize / elements != size then (s, none)
  else
    let p := malloc s asize sbrkOk
    match p.2 with
    | none => (p.1, none)
    | some bp => (p.1, some (bp, mem_memset_zero asize))

/-- mm.c `free_root_init`: all buckets empty. -/
def free_root_init : List (List Nat) := List.replicate seglist_length []

/-- The heap right after mm_init's prologue/epilogue writes: no real blocks,
the epilogue's previous-allocated bit set, all buckets empty. -/
def initHeap : Heap := { blocks := [], epiPrev := true, roots := free_root_init }

/-- The heap a successful `mm_init` produces (one free chunk of `chunksize`). -/
def heap0 : Heap := (extend_heap initHeap chunksize true).1

/-- `heap0` after one small allocation (used as a concrete exercised state). -/
def heap1 : Heap := (malloc heap0 10 true).1

/-- mm.c `mm_init`: write prologue and epilogue (both size zero, allocated,
previous-allocated set) and extend the heap by `chunksize`.  Each of the two
`mem_sbrk` calls gets its own oracle. -/
def mm_init (sbrkOk1 sbrkOk2 : Bool) : Option Heap :=
  if !sbrkOk1 then none
  else
    let s0 : Heap := { blocks := [], epiPrev := true, roots := free_root_init }
    let p := extend_heap s0 chunksize sbrkOk2
    match p.2 with
    | none => none
    | some _ => some p.1

/-! ## Public operations and reachability -/

/-- One public call: allocate, release, reallocate or zeroed-allocate, with
the heap-growth oracle for the calls that may grow the heap. -/
inductive Op where
  | alloc (size : Nat) (sbrkOk : Bool)
  | release (bp : Nat)
  | realloc (ptr : Option Nat) (size : Nat) (sbrkOk : Bool)
  | calloc (elements size : Nat) (sbrkOk : Bool)

/-- The call contract of `free`/`realloc`: the pointer is the payload of a
currently allocated block (anything else is undefined behaviour by design,
per the spec, and is not exercised). -/
def validPayload (s : Heap) (bp : Nat) : Bool :=
  (cells s).any fun p => (p.1 + wsize == bp) && p.2.alloc

def applyOp (s : Heap) : Op → Heap
  | .alloc size ok => (malloc s size ok).1
  | .release bp => if validPayload s bp then free s bp else s
  | .realloc ptr size ok =>
      match ptr with
      | none => (realloc s none size ok).1
      | some bp => if validPayload s bp then (realloc s (some bp) size ok).1 else s
  | .calloc elements size ok => (calloc s elements size ok).1

/-- Heap states reachable by sequences of public operations after a
successful `mm_init`. -/
inductive Reachable : Heap → Prop
  | init (ok1 ok2 : Bool) (s : Heap) : mm_init ok1 ok2 = some s → Reachable s
  | step (s : Heap) (op : Op) : Reachable s → Reachable (applyOp s op)

/-! ## Observations used by the claims (mirroring the mm.c heap checker) -/

/-- mm.c `count_free`: free blocks found walking the implicit list. -/
def count_free (s : Heap) : Nat := s.blocks.countP fun b => !b.alloc

/-- The free count of `mm_checkheap` found by walking every bucket. -/
def explicit_count (s : Heap) : Nat := (s.roots.map List.length).sum

/-- All addresses stored in the fifteen buckets. -/
def joinRoots (s : Heap) : List Nat := s.roots.flatten

/-- The addresses of the free blocks of the implicit list, in address order. -/
def freeAddrList (s : Heap) : List Nat :=
  ((cells s).filter fun p => !p.2.alloc).map Prod.fst

/-- The bucket walk and the implicit walk identify the same set of blocks. -/
def sameFreeSet (s : Heap) : Bool :=
  ((joinRoots s).all fun a => (freeAddrList s).contains a) &&
  ((freeAddrList s).all fun a => (joinRoots s).contains a)

/-- Walking the implicit list never finds two consecutive free blocks. -/
def noAdjFree (s : Heap) : Bool :=
  (List.range s.blocks.length).all fun i =>
    (i + 1 == s.blocks.length) || (blkAt s i).alloc || (blkAt s (i + 1)).alloc

/-- The address `a` is a free block of size at least `asize`. -/
def fitFree (s : Heap) (asize a : Nat) : Bool :=
  (cells s).any fun p => (p.1 == a) && (!p.2.alloc) && decide (asize ≤ p.2.size)

/-- No bucket from the home bucket of `asize` upward holds a block of size at
least `asize`. -/
def noFitFrom (s : Heap) (asize : Nat) : Bool :=
  (List.range' (get_seglist_ind asize) (seglist_length - get_seglist_ind asize)).all
    fun j => (bucket s j).all fun a => decide (sizeAt s a < asize)

/-- What mm.c `find_fit` is responsible for: a fitting free block, or `none`
only when nothing from the home bucket upward fits. -/
def find_fit_ok (s : Heap) (asize : Nat) : Bool :=
  match find_fit s asize with
  | some a => fitFree s asize a
  | none => noFitFrom s asize

/-! ## The heap invariant -/

def sizeOkB (b : Blk) : Bool := decide (min_block_size ≤ b.size) && (b.size % dsize == 0)

/-- Every block size is a multiple of 16 and at least the minimum block
size. -/
def sizesOk (s : Heap) : Bool := s.blocks.all sizeOkB

/-- Threading the allocation bit of the previous block (`pa`, starting from
the allocated prologue) through the implicit list: each block's
previous-allocated bit is accurate, and no block and its predecessor are both
free. -/
def chainOk : Bool → List Blk → Bool
  | _, [] => true
  | pa, b :: r => (b.prevAlloc == pa) && (pa || b.alloc) && chainOk b.alloc r

/-- The allocation bit of the last block of the list (`pa` for an empty
list). -/
def lastA : Bool → List Blk → Bool
  | pa, [] => pa
  | _, b :: r => lastA b.alloc r

/-- The header-bit part of the invariant, including the epilogue's
previous-allocated bit. -/
def chainInv (s : Heap) : Bool :=
  chainOk true s.blocks && (s.epiPrev == lastA true s.blocks)

/-- Every address in bucket `j` is a free block whose size classifies to
bucket `j`. -/
def bucketBlocksOk (s : Heap) : Bool :=
  (List.range seglist_length).all fun j =>
    (bucket s j).all fun a =>
      (cells s).any fun p =>
        (p.1 == a) && (!p.2.alloc) && (get_seglist_ind p.2.size == j)

/-- Every free block of the implicit list appears in its bucket. -/
def freeListedOk (s : Heap) : Bool :=
  (cells s).all fun p =>
    p.2.alloc || (bucket s (get_seglist_ind p.2.size)).contains p.1

def rootsNodup (s : Heap) : Bool := s.roots.all fun l => decide l.Nodup

/-- The full heap invariant of the model. -/
def heapInv (s : Heap) : Bool :=
  (s.roots.length == seglist_length) && sizesOk s && chainInv s &&
    bucketBlocksOk s && freeListedOk s && rootsNodup s

/-! ## The invariant restated in proposition form, for the induction -/

/-- List-level version of `blkAt`. -/
def blkL (l : List Blk) (i : Nat) : Blk := l.getD i epilogueBlk

/-- List-level version of `addrB`. -/
def addrL (l : List Blk) (i : Nat) : Nat := heap_start_addr + sumSizes (l.take i)

/-- Every block size is a multiple of 16 and at least `min_block_size`. -/
def SizesOkL (l : List Blk) : Prop :=
  ∀ b ∈ l, min_block_size ≤ b.size ∧ b.size % dsize = 0

/-- The previous-allocated slot at position `i`: block `i`'s header bit, or
the epilogue's bit at position `length`. -/
def slotPA (s : Heap) (i : Nat) : Bool :=
  if i < s.blocks.length then (blkAt s i).prevAlloc else s.epiPrev

/-- The allocation status of the block before position `i` (the prologue,
allocated, at position 0). -/
def paOf (s : Heap) : Nat → Bool
  | 0 => true
  | i + 1 => (blkAt s i).alloc

/-- Every previous-allocated slot except position `e` is accurate. -/
def PrevAccExc (s : Heap) (e : Nat) : Prop :=
  ∀ i, i ≤ s.blocks.length → i ≠ e → slotPA s i = paOf s i

/-- Every previous-allocated slot is accurate. -/
def PrevAcc (s : Heap) : Prop :=
  ∀ i, i ≤ s.blocks.length → slotPA s i = paOf s i

/-- No two adjacent blocks are both free, except possibly pairs touching
block `e`. -/
def NoAdjExc (s : Heap) (e : Nat) : Prop :=
  ∀ i, i + 1 < s.blocks.length → i ≠ e → i + 1 ≠ e →
    (blkAt s i).alloc = true ∨ (blkAt s (i + 1)).alloc = true

/-- No two adjacent blocks are both free. -/
def NoAdj (s : Heap) : Prop :=
  ∀ i, i + 1 < s.blocks.length →
    (blkAt s i).alloc = true ∨ (blkAt s (i + 1)).alloc = true

/-- Every address in bucket `j` is the address of a free block whose size
classifies to bucket `j`. -/
def BucketFine (s : Heap) : Prop :=
  ∀ j, j < seglist_length → ∀ a ∈ bucket s j,
    ∃ i, i < s.blocks.length ∧ addrB s i = a ∧ (blkAt s i).alloc = false ∧
      get_seglist_ind (blkAt s i).size = j

/-- Every free block is listed in the bucket its size classifies to, except
possibly block `e`. -/
def FreeListedExc (s : Heap) (e : Nat) : Prop :=
  ∀ i, i < s.blocks.length → (blkAt s i).alloc = false → i ≠ e →
    addrB s i ∈ bucket s (get_seglist_ind (blkAt s i).size)

/-- Every free block is listed in the bucket its size classifies to. -/
def FreeListed (s : Heap) : Prop :=
  ∀ i, i < s.blocks.length → (blkAt s i).alloc = false →
    addrB s i ∈ bucket s (get_seglist_ind (blkAt s i).size)

/-- Every free block satisfying `P` is listed in the bucket its size
classifies to (used for the transient states between unlink and relink). -/
def FreeListedP (s : Heap) (P : Nat → Prop) : Prop :=
  ∀ i, i < s.blocks.length → (blkAt s i).alloc = false → P i →
    addrB s i ∈ bucket s (get_seglist_ind (blkAt s i).size)

/-- Each bucket list holds no duplicates. -/
def RootsND (s : Heap) : Prop := ∀ j, j < seglist_length → (bucket s j).Nodup

/-- The address `a` appears in no bucket. -/
def NotInRoots (s : Heap) (a : Nat) : Prop := ∀ j, j < seglist_length → a ∉ bucket s j

/-- The heap invariant: bucket array length, block sizes, header-bit
accuracy, the coalescing invariant, and agreement between the implicit list
and the bucket lists. -/
def Inv (s : Heap) : Prop :=
  s.roots.length = seglist_length ∧ SizesOkL s.blocks ∧ PrevAcc s ∧ NoAdj s ∧
    BucketFine s ∧ FreeListed s ∧ RootsND s

/-- The address `a` is the address of an allocated block (the footprint of a
live allocation, which every heap mutation must leave in place). -/
def AllocAt (s : Heap) (a : Nat) : Prop :=
  ∃ t, t < s.blocks.length ∧ addrB s t = a ∧ (blkAt s t).alloc = true

/-- What holds after `coalesce_block s i` (result `r`): the merged block is a
free block with allocated neighbours, every invariant except the accuracy of
the slot just after the merged block is restored, the heap size is unchanged,
allocated blocks survive, and the merged block has grown. -/
def CoalescePost (s : Heap) (i : Nat) (r : Heap × Nat) : Prop :=
  r.1.roots.length = seglist_length ∧
  r.2 < r.1.blocks.length ∧
  (blkAt r.1 r.2).alloc = false ∧
  SizesOkL r.1.blocks ∧
  PrevAccExc r.1 (r.2 + 1) ∧
  NoAdj r.1 ∧
  BucketFine r.1 ∧
  FreeListed r.1 ∧
  RootsND r.1 ∧
  r.1.epiPrev = s.epiPrev ∧
  (blkAt s i).size ≤ (blkAt r.1 r.2).size ∧
  sumSizes r.1.blocks = sumSizes s.blocks ∧
  (i + 1 = s.blocks.length → r.2 + 1 = r.1.blocks.length) ∧
  (∀ a, AllocAt s a → AllocAt r.1 a)

/-! ### Facts about the codec -/

theorem extract_mini_eq_testBit (w : Nat) : extract_mini w = w.testBit 2 := by
  unfold extract_mini mini_mask
  have h4 : (4 : Nat) = 2 ^ 2 := by norm_num
  rw [h4, Nat.and_two_pow]
  cases h : w.testBit 2 <;> simp [h]

theorem extract_alloc_eq_testBit (w : Nat) : extract_alloc w = w.testBit 0 := by
  unfold extract_alloc alloc_mask
  have h1 : (1 : Nat) = 2 ^ 0 := by norm_num
  rw [h1, Nat.and_two_pow]
  cases h : w.testBit 0 <;> simp [h]

theorem extract_prev_alloc_eq_testBit (w : Nat) :
    extract_prev_alloc w = w.testBit 1 := by
  unfold extract_prev_alloc alloc_prev_mask
  have h2 : (2 : Nat) = 2 ^ 1 := by norm_num
  rw [h2, Nat.and_two_pow]
  cases h : w.testBit 1 <;> simp [h]

theorem countIterGo_zero (fuel : Nat) : countIterGo fuel 0 = 0 := by
  cases fuel <;> simp [countIterGo]

theorem countIterGo_fuel : ∀ fuel m, m ≤ fuel → countIterGo fuel m = countIterGo m m := by
  intro fuel
  induction fuel using Nat.strong_induction_on with
  | _ f ih =>
    intro m hm
    cases m with
    | zero => rw [countIterGo_zero, countIterGo_zero]
    | succ j =>
      cases f with
      | zero => omega
      | succ g =>
        show countIterGo (g + 1) (j + 1) = countIterGo (j + 1) (j + 1)
        simp only [countIterGo]
        rw [if_neg (show ¬ j + 1 = 0 from by omega),
          if_neg (show ¬ j + 1 = 0 from by omega)]
        rw [ih g (by omega) ((j + 1) / 2) (by omega),
          ih j (by omega) ((j + 1) / 2) (by omega)]

theorem countIter_eq (n : Nat) :
    countIter n = if n = 0 then 0 else countIter (n / 2) + 1 := by
  cases n with
  | zero => rfl
  | succ j =>
    rw [if_neg (by omega)]
    show countIterGo (j + 1) (j + 1) = countIter ((j + 1) / 2) + 1
    simp only [countIterGo]
    rw [if_neg (show ¬ j + 1 = 0 from by omega)]
    rw [countIterGo_fuel j ((j + 1) / 2) (by omega)]
    rfl

theorem countIter_eq_log2 (n : Nat) (h : 1 ≤ n) :
    countIter n = Nat.log 2 n + 1 := by
  induction n using Nat.strong_induction_on with
  | _ n ih =>
    rw [countIter_eq]
    have hne : n ≠ 0 := by omega
    simp only [hne, if_false]
    by_cases h2 : n < 2
    · have : n = 1 := by omega
      subst this
      norm_num [countIter, countIterGo]
    · push_neg at h2
      have hd : n / 2 < n := Nat.div_lt_self (by omega) one_lt_two
      have hd1 : 1 ≤ n / 2 := by
        have := Nat.div_le_div_right (c := 2) h2
        simpa using this
      rw [ih (n / 2) hd hd1]
      have : Nat.log 2 n = Nat.log 2 (n / 2) + 1 := by
        rw [Nat.log_div_base 2 n]
        have : 1 ≤ Nat.log 2 n := Nat.succ_le_of_lt (Nat.log_pos one_lt_two h2)
        omega
      omega

theorem countIter_mono {m n : Nat} (h : m ≤ n) : countIter m ≤ countIter n := by
  rcases Nat.eq_zero_or_pos m with hm | hm
  · subst hm
    simp [countIter, countIterGo]
  · have hn : 1 ≤ n := le_trans hm h
    rw [countIter_eq_log2 m hm, countIter_eq_log2 n hn]
    exact Nat.succ_le_succ (Nat.log_mono_right h)

/-- The bucket index function is monotone in the size. -/
theorem get_seglist_ind_mono {a b : Nat} (h : a ≤ b) :
    get_seglist_ind a ≤ get_seglist_ind b := by
  unfold get_seglist_ind
  by_cases hb : b ≤ 16
  · have ha : a ≤ 16 := le_trans h hb
    simp [ha, hb]
  · by_cases ha : a ≤ 16
    · simp only [ha, if_true, hb, if_false]
      exact min_le_min (by omega) le_rfl
    · simp only [ha, if_false, hb, if_false]
      refine min_le_min ?_ le_rfl
      have hsh : a >>> 4 ≤ b >>> 4 := by
        simp only [Nat.shiftRight_eq_div_pow]
        exact Nat.div_le_div_right h
      have := countIter_mono hsh
      omega

/-- A block classified strictly above the home bucket of `asize` is at least
as large as `asize`. -/
theorem size_ge_of_seglist_ind_gt {asize sz : Nat}
    (h : get_seglist_ind asize < get_seglist_ind sz) : asize ≤ sz := by
  by_contra hlt
  push_neg at hlt
  exact absurd (get_seglist_ind_mono (le_of_lt hlt)) (by omega)


/-! ### List toolkit -/

@[simp] theorem sumSizes_nil : sumSizes [] = 0 := rfl

@[simp] theorem sumSizes_cons (b : Blk) (l : List Blk) :
    sumSizes (b :: l) = b.size + sumSizes l := by
  simp [sumSizes]

@[simp] theorem sumSizes_append (xs ys : List Blk) :
    sumSizes (xs ++ ys) = sumSizes xs + sumSizes ys := by
  simp [sumSizes]

theorem sumSizes_take_le (l : List Blk) (n : Nat) : sumSizes (l.take n) ≤ sumSizes l := by
  conv_rhs => rw [← List.take_append_drop n l]
  rw [sumSizes_append]
  omega

theorem blkL_of_lt {l : List Blk} {i : Nat} (h : i < l.length) :
    blkL l i = l[i] := by
  simp [blkL, List.getD, List.getElem?_eq_getElem h]

theorem blkL_of_ge {l : List Blk} {i : Nat} (h : l.length ≤ i) :
    blkL l i = epilogueBlk := by
  simp [blkL, List.getD, List.getElem?_eq_none h]

theorem blkAt_eq (s : Heap) (i : Nat) : blkAt s i = blkL s.blocks i := rfl

theorem addrB_eq (s : Heap) (i : Nat) : addrB s i = addrL s.blocks i := rfl

theorem addrL_zero (l : List Blk) : addrL l 0 = heap_start_addr := by
  simp [addrL, sumSizes]

theorem addrL_succ {l : List Blk} {i : Nat} (h : i < l.length) :
    addrL l (i + 1) = addrL l i + (blkL l i).size := by
  simp only [addrL, List.take_succ, sumSizes_append, List.getElem?_eq_getElem h,
    blkL_of_lt h]
  simp [sumSizes]
  omega

theorem addrL_of_ge {l : List Blk} {i : Nat} (h : l.length ≤ i) :
    addrL l i = heap_start_addr + sumSizes l := by
  simp [addrL, List.take_of_length_le h]

theorem addrL_mono {l : List Blk} {i j : Nat} (h : i ≤ j) :
    addrL l i ≤ addrL l j := by
  unfold addrL
  have htk : l.take i = (l.take j).take i := by
    rw [List.take_take, Nat.min_eq_left h]
  rw [htk]
  have := sumSizes_take_le (l.take j) i
  omega

theorem addrL_strict {l : List Blk} (hsz : SizesOkL l) {i j : Nat}
    (hij : i < j) (hj : j ≤ l.length) : addrL l i + min_block_size ≤ addrL l j := by
  have hi : i < l.length := by omega
  have h1 : addrL l (i + 1) = addrL l i + (blkL l i).size := addrL_succ hi
  have h2 : min_block_size ≤ (blkL l i).size := by
    have hmem : blkL l i ∈ l := by
      rw [blkL_of_lt hi]
      exact List.getElem_mem hi
    exact (hsz _ hmem).1
  have h3 : addrL l (i + 1) ≤ addrL l j := addrL_mono (by omega)
  omega

theorem addrL_inj {l : List Blk} (hsz : SizesOkL l) {i j : Nat}
    (hi : i ≤ l.length) (hj : j ≤ l.length) (h : addrL l i = addrL l j) : i = j := by
  rcases Nat.lt_trichotomy i j with hlt | heq | hgt
  · have := addrL_strict hsz hlt hj
    simp [min_block_size] at this
    omega
  · exact heq
  · have := addrL_strict hsz hgt hi
    simp [min_block_size] at this
    omega

theorem idxFrom_spec {l : List Blk} (hpos : ∀ b ∈ l, 0 < b.size) (i : Nat)
    (hi : i < l.length) (cur : Nat) :
    idxFrom l cur (cur + sumSizes (l.take i)) = i := by
  induction l generalizing i cur with
  | nil => simp at hi
  | cons b r ih =>
    cases i with
    | zero => simp [idxFrom]
    | succ i =>
      have hb : 0 < b.size := hpos b (by simp)
      have htake : sumSizes ((b :: r).take (i + 1)) = b.size + sumSizes (r.take i) := by
        simp [List.take_succ_cons]
      have hne : ¬ (cur = cur + sumSizes ((b :: r).take (i + 1))) := by omega
      simp only [idxFrom, hne, if_false]
      have harg : cur + sumSizes ((b :: r).take (i + 1)) =
          cur + b.size + sumSizes (r.take i) := by omega
      rw [harg, ih (fun x hx => hpos x (by simp [hx])) i (by simpa using hi) (cur + b.size)]

theorem idxOf_addrB {s : Heap} (hsz : SizesOkL s.blocks) {i : Nat}
    (hi : i < s.blocks.length) : idxOf s (addrB s i) = i := by
  have hpos : ∀ b ∈ s.blocks, 0 < b.size := by
    intro b hb
    have := (hsz b hb).1
    simp [min_block_size] at this
    omega
  simpa [idxOf, addrB, addrL] using idxFrom_spec hpos i hi heap_start_addr

theorem sizeAt_addrB {s : Heap} (hsz : SizesOkL s.blocks) {i : Nat}
    (hi : i < s.blocks.length) : sizeAt s (addrB s i) = (blkAt s i).size := by
  simp [sizeAt, idxOf_addrB hsz hi]

theorem get_seglist_ind_lt (n : Nat) : get_seglist_ind n < seglist_length := by
  have : get_seglist_ind n ≤ seglist_length - 1 := min_le_right _ _
  simp [seglist_length] at *
  omega


/-! ### Splice toolkit: every block-list mutation of the model has the shape
`l.take k ++ mid ++ l.drop m` with `k ≤ m ≤ l.length`. -/

theorem length_splice {l mid : List Blk} {k m : Nat} (hk : k ≤ m) (hm : m ≤ l.length) :
    (l.take k ++ mid ++ l.drop m).length = k + mid.length + (l.length - m) := by
  simp only [List.length_append, List.length_take, List.length_drop]
  omega

theorem blkL_eq_getElem? (l : List Blk) (j : Nat) :
    blkL l j = (l[j]?).getD epilogueBlk := by
  simp [blkL, List.getD_eq_getElem?_getD]

theorem blkL_splice_lt {l mid : List Blk} {k m j : Nat} (hj : j < k) (hk : k ≤ l.length) :
    blkL (l.take k ++ mid ++ l.drop m) j = blkL l j := by
  have hlen : (l.take k).length = k := by simp [List.length_take]; omega
  rw [blkL_eq_getElem?, blkL_eq_getElem?, List.append_assoc, List.getElem?_append,
    List.getElem?_take, hlen]
  simp [hj]

theorem blkL_splice_mid {l mid : List Blk} {k m j : Nat} (hj : j < mid.length)
    (hk : k ≤ l.length) :
    blkL (l.take k ++ mid ++ l.drop m) (k + j) = blkL mid j := by
  have hlen : (l.take k).length = k := by simp [List.length_take]; omega
  have h1 : ¬ (k + j < k) := by omega
  have h2 : k + j - k = j := by omega
  rw [blkL_eq_getElem?, blkL_eq_getElem?, List.append_assoc, List.getElem?_append, hlen]
  simp only [h1, if_false, h2, List.getElem?_append, hj, if_true]

theorem blkL_splice_ge {l mid : List Blk} {k m t : Nat} (hk : k ≤ l.length) :
    blkL (l.take k ++ mid ++ l.drop m) (k + mid.length + t) = blkL l (m + t) := by
  have hlen : (l.take k).length = k := by simp [List.length_take]; omega
  have h1 : ¬ (k + mid.length + t < k) := by omega
  have h2 : ¬ (k + mid.length + t - k < mid.length) := by omega
  have h3 : k + mid.length + t - k - mid.length = t := by omega
  rw [blkL_eq_getElem?, blkL_eq_getElem?, List.append_assoc, List.getElem?_append, hlen]
  simp only [h1, if_false, List.getElem?_append, h2, h3, List.getElem?_drop]

theorem take_splice_le {l mid : List Blk} {k m j : Nat} (hj : j ≤ k) (hk : k ≤ l.length) :
    (l.take k ++ mid ++ l.drop m).take j = l.take j := by
  have hlen : (l.take k).length = k := by simp [List.length_take]; omega
  rw [List.append_assoc, List.take_append_eq_append_take, hlen]
  have h0 : j - k = 0 := by omega
  rw [h0, List.take_take, Nat.min_eq_left hj]
  simp

theorem addrL_splice_le {l mid : List Blk} {k m j : Nat} (hj : j ≤ k) (hk : k ≤ l.length) :
    addrL (l.take k ++ mid ++ l.drop m) j = addrL l j := by
  unfold addrL
  rw [take_splice_le hj hk]

theorem take_splice_mid {l mid : List Blk} {k m j : Nat} (hj : j ≤ mid.length)
    (hk : k ≤ l.length) :
    (l.take k ++ mid ++ l.drop m).take (k + j) = l.take k ++ mid.take j := by
  have hlen : (l.take k).length = k := by simp [List.length_take]; omega
  rw [List.append_assoc, List.take_append_eq_append_take, hlen]
  have h1 : k + j - k = j := by omega
  rw [List.take_of_length_le (by omega), h1, List.take_append_eq_append_take]
  have h2 : j - mid.length = 0 := by omega
  rw [h2]
  simp

theorem addrL_splice_mid {l mid : List Blk} {k m j : Nat} (hj : j ≤ mid.length)
    (hk : k ≤ l.length) :
    addrL (l.take k ++ mid ++ l.drop m) (k + j) = addrL l k + sumSizes (mid.take j) := by
  unfold addrL
  rw [take_splice_mid hj hk, sumSizes_append]
  omega

theorem take_splice_ge {l mid : List Blk} {k m t : Nat} (hk : k ≤ l.length) :
    (l.take k ++ mid ++ l.drop m).take (k + mid.length + t) =
      l.take k ++ mid ++ (l.drop m).take t := by
  have hlen : (l.take k).length = k := by simp [List.length_take]; omega
  rw [List.append_assoc, List.take_append_eq_append_take, hlen]
  have e1 : (l.take k).take (k + mid.length + t) = l.take k := by
    apply List.take_of_length_le
    rw [hlen]
    omega
  have h1 : k + mid.length + t - k = mid.length + t := by omega
  rw [e1, h1, List.take_append_eq_append_take]
  have e2 : mid.take (mid.length + t) = mid := List.take_of_length_le (by omega)
  have h2 : mid.length + t - mid.length = t := by omega
  rw [e2, h2, List.append_assoc]

theorem addrL_splice_ge {l mid : List Blk} {k m t : Nat} (hk : k ≤ m) (hm : m ≤ l.length)
    (hsz : sumSizes (l.take k) + sumSizes mid = sumSizes (l.take m)) :
    addrL (l.take k ++ mid ++ l.drop m) (k + mid.length + t) = addrL l (m + t) := by
  unfold addrL
  rw [take_splice_ge (by omega), sumSizes_append, sumSizes_append]
  have hadd : l.take (m + t) = l.take m ++ (l.drop m).take t := by
    rw [List.take_add]
  rw [hadd, sumSizes_append]
  omega

theorem sumSizes_splice {l mid : List Blk} {k m : Nat}
    (hsz : sumSizes (l.take k) + sumSizes mid = sumSizes (l.take m)) :
    sumSizes (l.take k ++ mid ++ l.drop m) = sumSizes l := by
  have hdec : l = l.take m ++ l.drop m := (List.take_append_drop m l).symm
  conv_rhs => rw [hdec]
  rw [sumSizes_append, sumSizes_append, sumSizes_append]
  omega

theorem SizesOkL_splice {l mid : List Blk} {k m : Nat} (hl : SizesOkL l)
    (hmid : SizesOkL mid) :
    SizesOkL (l.take k ++ mid ++ l.drop m) := by
  intro b hb
  simp only [List.append_assoc, List.mem_append] at hb
  rcases hb with hb | hb | hb
  · exact hl b (List.mem_of_mem_take hb)
  · exact hmid b hb
  · exact hl b (List.mem_of_mem_drop hb)

/-! ### Bucket toolkit -/

theorem bucketL_set_self (roots : List (List Nat)) {j : Nat} (h : j < roots.length)
    (x : List Nat) : (roots.set j x).getD j [] = x := by
  rw [List.getD_eq_getElem?_getD, List.getElem?_set_self h]
  rfl

theorem bucketL_set_ne (roots : List (List Nat)) {j j' : Nat} (h : j ≠ j')
    (x : List Nat) : (roots.set j x).getD j' [] = roots.getD j' [] := by
  simp [List.getD, List.getElem?_set_ne h]

@[simp] theorem add_to_free_blocks (s : Heap) (a : Nat) :
    (add_to_free s a).blocks = s.blocks := rfl

@[simp] theorem add_to_free_epi (s : Heap) (a : Nat) :
    (add_to_free s a).epiPrev = s.epiPrev := rfl

theorem add_to_free_roots (s : Heap) (a : Nat) :
    (add_to_free s a).roots =
      s.roots.set (get_seglist_ind (sizeAt s a)) (a :: bucket s (get_seglist_ind (sizeAt s a))) := rfl

@[simp] theorem remove_from_free_blocks (s : Heap) (a : Nat) :
    (remove_from_free s a).blocks = s.blocks := rfl

@[simp] theorem remove_from_free_epi (s : Heap) (a : Nat) :
    (remove_from_free s a).epiPrev = s.epiPrev := rfl

theorem remove_from_free_roots (s : Heap) (a : Nat) :
    (remove_from_free s a).roots =
      s.roots.set (get_seglist_ind (sizeAt s a)) ((bucket s (get_seglist_ind (sizeAt s a))).erase a) := rfl

@[simp] theorem write_block_roots (s : Heap) (i size : Nat) (al pa : Bool) :
    (write_block s i size al pa).roots = s.roots := rfl

@[simp] theorem write_block_epi (s : Heap) (i size : Nat) (al pa : Bool) :
    (write_block s i size al pa).epiPrev = s.epiPrev := rfl

theorem write_block_blocks (s : Heap) (i size : Nat) (al pa : Bool) :
    (write_block s i size al pa).blocks = s.blocks.set i ⟨size, al, pa⟩ := rfl

/-- Addresses and blocks only depend on the `blocks` component. -/
theorem addrB_congr {s t : Heap} (h : s.blocks = t.blocks) (i : Nat) :
    addrB s i = addrB t i := by
  simp [addrB, h]

theorem blkAt_congr {s t : Heap} (h : s.blocks = t.blocks) (i : Nat) :
    blkAt s i = blkAt t i := by
  simp [blkAt, h]

theorem sizeAt_congr {s t : Heap} (h : s.blocks = t.blocks) (a : Nat) :
    sizeAt s a = sizeAt t a := by
  simp [sizeAt, idxOf, blkAt, h]

theorem bucket_roots_congr {s t : Heap} (h : s.roots = t.roots) (j : Nat) :
    bucket s j = bucket t j := by
  simp [bucket, h]

/-! ### Preservation lemmas for the bucket operations -/

theorem add_to_free_inv (s : Heap) (k : Nat)
    (hroots : s.roots.length = seglist_length)
    (hsz : SizesOkL s.blocks)
    (hk : k < s.blocks.length)
    (hfree : (blkAt s k).alloc = false)
    (hBF : BucketFine s)
    (hFL : FreeListedExc s k)
    (hND : RootsND s)
    (hNI : NotInRoots s (addrB s k)) :
    (add_to_free s (addrB s k)).roots.length = seglist_length ∧
      BucketFine (add_to_free s (addrB s k)) ∧
      FreeListed (add_to_free s (addrB s k)) ∧
      RootsND (add_to_free s (addrB s k)) := by
  have hsa : sizeAt s (addrB s k) = (blkAt s k).size := sizeAt_addrB hsz hk
  set ind := get_seglist_ind (blkAt s k).size with hind
  have hindlt : ind < seglist_length := get_seglist_ind_lt _
  have hindroots : ind < s.roots.length := by omega
  have hroots' : (add_to_free s (addrB s k)).roots =
      s.roots.set ind (addrB s k :: bucket s ind) := by
    rw [add_to_free_roots, hsa]
  have hbk : ∀ j, j < seglist_length →
      bucket (add_to_free s (addrB s k)) j =
        if j = ind then addrB s k :: bucket s ind else bucket s j := by
    intro j hj
    by_cases hcase : j = ind
    · subst hcase
      simp only [bucket, hroots', if_true, bucketL_set_self s.roots hindroots]
    · simp only [bucket, hroots', if_neg hcase]
      exact bucketL_set_ne s.roots (fun h => hcase h.symm) _
  refine ⟨by rw [hroots']; simp [hroots], ?_, ?_, ?_⟩
  · intro j hj a ha
    rw [hbk j hj] at ha
    by_cases hcase : j = ind
    · subst hcase
      simp only [if_true] at ha
      rcases List.mem_cons.mp ha with rfl | ha
      · exact ⟨k, hk, rfl, hfree, hind.symm⟩
      · obtain ⟨i, hi, hai, hfi, hgi⟩ := hBF ind hj a ha
        exact ⟨i, hi, hai, hfi, hgi⟩
    · rw [if_neg hcase] at ha
      obtain ⟨i, hi, hai, hfi, hgi⟩ := hBF j hj a ha
      exact ⟨i, hi, hai, hfi, hgi⟩
  · intro i hi hfi
    have hji : get_seglist_ind (blkAt (add_to_free s (addrB s k)) i).size =
        get_seglist_ind (blkAt s i).size := rfl
    have haddr : addrB (add_to_free s (addrB s k)) i = addrB s i := rfl
    rw [hji, haddr, hbk _ (get_seglist_ind_lt _)]
    by_cases hcase : i = k
    · subst hcase
      rw [if_pos hind.symm]
      exact List.mem_cons_self _ _
    · have hmem := hFL i hi hfi hcase
      by_cases hcase2 : get_seglist_ind (blkAt s i).size = ind
      · rw [if_pos hcase2]
        exact List.mem_cons_of_mem _ (hcase2 ▸ hmem)
      · rw [if_neg hcase2]
        exact hmem
  · intro j hj
    rw [hbk j hj]
    by_cases hcase : j = ind
    · subst hcase
      simp only [if_true]
      exact List.Nodup.cons (hNI ind hj) (hND ind hj)
    · rw [if_neg hcase]
      exact hND j hj

theorem remove_from_free_inv (s : Heap) (k : Nat)
    (hroots : s.roots.length = seglist_length)
    (hsz : SizesOkL s.blocks)
    (hk : k < s.blocks.length)
    (hBF : BucketFine s)
    (hFL : FreeListed s)
    (hND : RootsND s) :
    (remove_from_free s (addrB s k)).roots.length = seglist_length ∧
      BucketFine (remove_from_free s (addrB s k)) ∧
      FreeListedExc (remove_from_free s (addrB s k)) k ∧
      RootsND (remove_from_free s (addrB s k)) ∧
      NotInRoots (remove_from_free s (addrB s k)) (addrB s k) := by
  have hsa : sizeAt s (addrB s k) = (blkAt s k).size := sizeAt_addrB hsz hk
  set ind := get_seglist_ind (blkAt s k).size with hind
  have hindlt : ind < seglist_length := get_seglist_ind_lt _
  have hindroots : ind < s.roots.length := by omega
  have hroots' : (remove_from_free s (addrB s k)).roots =
      s.roots.set ind ((bucket s ind).erase (addrB s k)) := by
    rw [remove_from_free_roots, hsa]
  have hbk : ∀ j, j < seglist_length →
      bucket (remove_from_free s (addrB s k)) j =
        if j = ind then (bucket s ind).erase (addrB s k) else bucket s j := by
    intro j hj
    by_cases hcase : j = ind
    · subst hcase
      simp only [bucket, hroots', if_true, bucketL_set_self s.roots hindroots]
    · simp only [bucket, hroots', if_neg hcase]
      exact bucketL_set_ne s.roots (fun h => hcase h.symm) _
  refine ⟨by rw [hroots']; simp [hroots], ?_, ?_, ?_, ?_⟩
  · intro j hj a ha
    rw [hbk j hj] at ha
    by_cases hcase : j = ind
    · subst hcase
      simp only [if_true] at ha
      exact hBF ind hj a (List.erase_subset _ _ ha)
    · rw [if_neg hcase] at ha
      exact hBF j hj a ha
  · intro i hi hfi hne
    have hi' : i < s.blocks.length := hi
    have hfi' : (blkAt s i).alloc = false := hfi
    have hji : get_seglist_ind (blkAt (remove_from_free s (addrB s k)) i).size =
        get_seglist_ind (blkAt s i).size := rfl
    have haddr : addrB (remove_from_free s (addrB s k)) i = addrB s i := rfl
    rw [hji, haddr, hbk _ (get_seglist_ind_lt _)]
    have hmem := hFL i hi' hfi'
    have hanead : addrB s i ≠ addrB s k := by
      intro h
      exact hne (addrL_inj hsz (by omega) (by omega) h)
    by_cases hcase2 : get_seglist_ind (blkAt s i).size = ind
    · rw [if_pos hcase2]
      rw [(hND ind hindlt).mem_erase_iff]
      exact ⟨hanead, hcase2 ▸ hmem⟩
    · rw [if_neg hcase2]
      exact hmem
  · intro j hj
    rw [hbk j hj]
    by_cases hcase : j = ind
    · subst hcase
      simp only [if_true]
      exact (hND ind hj).erase _
    · rw [if_neg hcase]
      exact hND j hj
  · intro j hj
    rw [hbk j hj]
    by_cases hcase : j = ind
    · subst hcase
      simp only [if_true]
      exact (hND ind hindlt).not_mem_erase
    · rw [if_neg hcase]
      intro hmem
      obtain ⟨i, hi, hai, hfi, hgi⟩ := hBF j hj _ hmem
      have : i = k := addrL_inj hsz (by omega) (by omega) hai
      subst this
      exact hcase (hind.trans hgi).symm
/-! ### Set toolkit -/

theorem blkL_set_eq {l : List Blk} {i : Nat} (h : i < l.length) (v : Blk) :
    blkL (l.set i v) i = v := by
  rw [blkL_eq_getElem?, List.getElem?_set_self h]
  rfl

theorem blkL_set_ne {l : List Blk} {i j : Nat} (h : i ≠ j) (v : Blk) :
    blkL (l.set i v) j = blkL l j := by
  rw [blkL_eq_getElem?, blkL_eq_getElem?, List.getElem?_set_ne h]

theorem sizesMap_set {l : List Blk} {i : Nat} {v : Blk}
    (hsize : v.size = (blkL l i).size) :
    (l.set i v).map Blk.size = l.map Blk.size := by
  by_cases hi : i < l.length
  · rw [List.map_set]
    apply List.ext_getElem (by simp)
    intro n h1 h2
    by_cases hn : n = i
    · subst hn
      rw [List.getElem_set_self (by simpa using h1)]
      rw [hsize, blkL_of_lt hi]
      simp
    · rw [List.getElem_set_ne (fun he => hn he.symm)]
  · rw [List.set_eq_of_length_le (by omega)]

theorem sumSizes_eq_map_sum (l : List Blk) : sumSizes l = (l.map Blk.size).sum := rfl

theorem sumSizes_set {l : List Blk} {i : Nat} {v : Blk}
    (hsize : v.size = (blkL l i).size) :
    sumSizes (l.set i v) = sumSizes l := by
  rw [sumSizes_eq_map_sum, sumSizes_eq_map_sum, sizesMap_set hsize]

theorem addrL_set {l : List Blk} {i : Nat} {v : Blk}
    (hsize : v.size = (blkL l i).size) (j : Nat) :
    addrL (l.set i v) j = addrL l j := by
  unfold addrL
  congr 1
  rw [sumSizes_eq_map_sum, sumSizes_eq_map_sum, List.map_take, List.map_take,
    sizesMap_set hsize]

/-! ### The update-next step -/

theorem update_next_roots (s : Heap) (i : Nat) (al : Bool) :
    (update_next s i al).roots = s.roots := by
  unfold update_next
  by_cases h : i + 1 < s.blocks.length <;> simp [h]

theorem update_next_length (s : Heap) (i : Nat) (al : Bool) :
    (update_next s i al).blocks.length = s.blocks.length := by
  unfold update_next
  by_cases h : i + 1 < s.blocks.length <;> simp [h]

theorem blkAt_update_next_ne (s : Heap) {i j : Nat} (al : Bool) (h : j ≠ i + 1) :
    blkAt (update_next s i al) j = blkAt s j := by
  unfold update_next
  by_cases hc : i + 1 < s.blocks.length <;> simp only [hc, if_true, if_false]
  · exact blkL_set_ne (fun he => h he.symm) _
  · rfl

theorem blkAt_update_next_eq (s : Heap) {i : Nat} (al : Bool)
    (h : i + 1 < s.blocks.length) :
    blkAt (update_next s i al) (i + 1) = { blkAt s (i + 1) with prevAlloc := al } := by
  unfold update_next
  simp only [h, if_true]
  exact blkL_set_eq h _

theorem blkAt_update_next_out (s : Heap) {i : Nat} (al : Bool)
    (h : ¬ (i + 1 < s.blocks.length)) :
    blkAt (update_next s i al) (i + 1) = blkAt s (i + 1) := by
  unfold update_next
  simp only [h, if_false]
  rfl

theorem blkAt_update_next_size (s : Heap) (i : Nat) (al : Bool) (j : Nat) :
    (blkAt (update_next s i al) j).size = (blkAt s j).size := by
  by_cases h : j = i + 1
  · subst h
    by_cases hc : i + 1 < s.blocks.length
    · rw [blkAt_update_next_eq s al hc]
    · rw [blkAt_update_next_out s al hc]
  · rw [blkAt_update_next_ne s al h]

theorem blkAt_update_next_alloc (s : Heap) (i : Nat) (al : Bool) (j : Nat) :
    (blkAt (update_next s i al) j).alloc = (blkAt s j).alloc := by
  by_cases h : j = i + 1
  · subst h
    by_cases hc : i + 1 < s.blocks.length
    · rw [blkAt_update_next_eq s al hc]
    · rw [blkAt_update_next_out s al hc]
  · rw [blkAt_update_next_ne s al h]

theorem update_next_epi_of_lt {s : Heap} {i : Nat} (al : Bool)
    (hc : i + 1 < s.blocks.length) : (update_next s i al).epiPrev = s.epiPrev := by
  unfold update_next
  simp [hc]

theorem update_next_epi_of_ge {s : Heap} {i : Nat} (al : Bool)
    (hc : ¬ (i + 1 < s.blocks.length)) : (update_next s i al).epiPrev = al := by
  unfold update_next
  simp [hc]

theorem addrB_update_next (s : Heap) (i : Nat) (al : Bool) (j : Nat) :
    addrB (update_next s i al) j = addrB s j := by
  unfold update_next
  by_cases hc : i + 1 < s.blocks.length <;> simp only [hc, if_true, if_false]
  · show addrL (s.blocks.set (i + 1) _) j = addrL s.blocks j
    exact addrL_set (l := s.blocks) (i := i + 1)
      (v := { blkAt s (i + 1) with prevAlloc := al }) rfl j
  · rfl

theorem sumSizes_update_next (s : Heap) (i : Nat) (al : Bool) :
    sumSizes (update_next s i al).blocks = sumSizes s.blocks := by
  unfold update_next
  by_cases hc : i + 1 < s.blocks.length <;> simp only [hc, if_true, if_false]
  exact sumSizes_set (l := s.blocks) (i := i + 1)
    (v := { blkAt s (i + 1) with prevAlloc := al }) rfl

theorem slotPA_update_next (s : Heap) {i : Nat} (al : Bool) (hi : i < s.blocks.length)
    {j : Nat} (hj : j ≤ s.blocks.length) :
    slotPA (update_next s i al) j = if j = i + 1 then al else slotPA s j := by
  unfold slotPA
  rw [update_next_length]
  by_cases hc : i + 1 < s.blocks.length
  · by_cases hji : j = i + 1
    · subst hji
      simp only [hc, if_true, blkAt_update_next_eq s al hc]
    · rw [blkAt_update_next_ne s al hji, if_neg hji, update_next_epi_of_lt al hc]
  · have hlast : i + 1 = s.blocks.length := by omega
    by_cases hji : j = i + 1
    · subst hji
      have hnl : ¬ (i + 1 < s.blocks.length) := by omega
      simp only [hnl, if_false, if_true]
      unfold update_next
      simp [hc]
    · have hjlt : j < s.blocks.length := by omega
      simp only [hjlt, if_true, if_neg hji]
      rw [blkAt_update_next_ne s al hji]

theorem SizesOkL_update_next (s : Heap) (i : Nat) (al : Bool)
    (hsz : SizesOkL s.blocks) : SizesOkL (update_next s i al).blocks := by
  unfold update_next
  by_cases hc : i + 1 < s.blocks.length <;> simp only [hc, if_true, if_false]
  · intro b hb
    rcases List.mem_or_eq_of_mem_set hb with hb | rfl
    · exact hsz b hb
    · show min_block_size ≤ (blkAt s (i + 1)).size ∧ (blkAt s (i + 1)).size % dsize = 0
      have hmem : blkAt s (i + 1) ∈ s.blocks := by
        rw [blkAt_eq, blkL_of_lt hc]
        exact List.getElem_mem hc
      exact hsz _ hmem
  · exact hsz

/-! ### More bucket-operation lemmas -/

theorem blkAt_alloc_of_ge {s : Heap} {j : Nat} (h : s.blocks.length ≤ j) :
    (blkAt s j).alloc = true := by
  rw [blkAt_eq, blkL_of_ge h]
  rfl

theorem bucket_remove_subset (s : Heap) (b : Nat) (j : Nat) :
    bucket (remove_from_free s b) j ⊆ bucket s j := by
  intro x hx
  set ind := get_seglist_ind (sizeAt s b) with hind
  by_cases hj : j < s.roots.length
  · by_cases hji : j = ind
    · subst hji
      rw [bucket, remove_from_free_roots, bucketL_set_self s.roots (hind ▸ hj)] at hx
      exact List.erase_subset _ _ hx
    · rw [bucket, remove_from_free_roots, bucketL_set_ne s.roots (fun h => hji h.symm)] at hx
      exact hx
  · rw [bucket, remove_from_free_roots] at hx
    have : (s.roots.set ind ((bucket s ind).erase b)).getD j [] = [] := by
      rw [List.getD_eq_getElem?_getD, List.getElem?_eq_none (by simp; omega)]
      rfl
    rw [this] at hx
    simp at hx

theorem NotInRoots_remove (s : Heap) (a b : Nat)
    (h : NotInRoots s a) : NotInRoots (remove_from_free s b) a := by
  intro j hj hmem
  exact h j hj (bucket_remove_subset s b j hmem)

theorem remove_from_free_invP (s : Heap) (k : Nat) (P : Nat → Prop)
    (hroots : s.roots.length = seglist_length)
    (hsz : SizesOkL s.blocks)
    (hk : k < s.blocks.length)
    (hBF : BucketFine s)
    (hFL : FreeListedP s P)
    (hND : RootsND s) :
    (remove_from_free s (addrB s k)).roots.length = seglist_length ∧
      BucketFine (remove_from_free s (addrB s k)) ∧
      FreeListedP (remove_from_free s (addrB s k)) (fun j => P j ∧ j ≠ k) ∧
      RootsND (remove_from_free s (addrB s k)) ∧
      NotInRoots (remove_from_free s (addrB s k)) (addrB s k) := by
  have hsa : sizeAt s (addrB s k) = (blkAt s k).size := sizeAt_addrB hsz hk
  set ind := get_seglist_ind (blkAt s k).size with hind
  have hindlt : ind < seglist_length := get_seglist_ind_lt _
  have hindroots : ind < s.roots.length := by omega
  have hroots' : (remove_from_free s (addrB s k)).roots =
      s.roots.set ind ((bucket s ind).erase (addrB s k)) := by
    rw [remove_from_free_roots, hsa]
  have hbk : ∀ j, j < seglist_length →
      bucket (remove_from_free s (addrB s k)) j =
        if j = ind then (bucket s ind).erase (addrB s k) else bucket s j := by
    intro j hj
    by_cases hcase : j = ind
    · subst hcase
      simp only [bucket, hroots', if_true, bucketL_set_self s.roots hindroots]
    · simp only [bucket, hroots', if_neg hcase]
      exact bucketL_set_ne s.roots (fun h => hcase h.symm) _
  refine ⟨by rw [hroots']; simp [hroots], ?_, ?_, ?_, ?_⟩
  · intro j hj a ha
    rw [hbk j hj] at ha
    by_cases hcase : j = ind
    · subst hcase
      simp only [if_true] at ha
      exact hBF ind hj a (List.erase_subset _ _ ha)
    · rw [if_neg hcase] at ha
      exact hBF j hj a ha
  · intro i hi hfi hPi
    have hi' : i < s.blocks.length := hi
    have hfi' : (blkAt s i).alloc = false := hfi
    have hji : get_seglist_ind (blkAt (remove_from_free s (addrB s k)) i).size =
        get_seglist_ind (blkAt s i).size := rfl
    have haddr : addrB (remove_from_free s (addrB s k)) i = addrB s i := rfl
    rw [hji, haddr, hbk _ (get_seglist_ind_lt _)]
    have hmem := hFL i hi' hfi' hPi.1
    have hanead : addrB s i ≠ addrB s k := by
      intro h
      exact hPi.2 (addrL_inj hsz (by omega) (by omega) h)
    by_cases hcase2 : get_seglist_ind (blkAt s i).size = ind
    · rw [if_pos hcase2]
      rw [(hND ind hindlt).mem_erase_iff]
      exact ⟨hanead, hcase2 ▸ hmem⟩
    · rw [if_neg hcase2]
      exact hmem
  · intro j hj
    rw [hbk j hj]
    by_cases hcase : j = ind
    · subst hcase
      simp only [if_true]
      exact (hND ind hj).erase _
    · rw [if_neg hcase]
      exact hND j hj
  · intro j hj
    rw [hbk j hj]
    by_cases hcase : j = ind
    · subst hcase
      simp only [if_true]
      exact (hND ind hindlt).not_mem_erase
    · rw [if_neg hcase]
      intro hmem
      obtain ⟨i, hi, hai, hfi, hgi⟩ := hBF j hj _ hmem
      have : i = k := addrL_inj hsz (by omega) (by omega) hai
      subst this
      exact hcase (hind.trans hgi).symm

/-- Replacing a run of blocks whose addresses are absent from every bucket by
new blocks of the same total size keeps every bucket entry pointing at a
valid free block. -/
theorem BucketFine_splice (s : Heap) {k m : Nat} (mid : List Blk)
    (hk : k ≤ m) (hm : m ≤ s.blocks.length)
    (hsum : sumSizes (s.blocks.take k) + sumSizes mid = sumSizes (s.blocks.take m))
    (hsz : SizesOkL s.blocks)
    (hBF : BucketFine s)
    (hNI : ∀ t, k ≤ t → t < m → NotInRoots s (addrB s t)) :
    BucketFine { s with blocks := s.blocks.take k ++ mid ++ s.blocks.drop m } := by
  intro j hj a ha
  have ha' : a ∈ bucket s j := ha
  obtain ⟨ib, hib, haib, hfib, hgib⟩ := hBF j hj a ha'
  have hout : ib < k ∨ m ≤ ib := by
    by_contra hcon
    push_neg at hcon
    exact hNI ib hcon.1 hcon.2 j hj (haib ▸ ha')
  have hlen : ({ s with blocks := s.blocks.take k ++ mid ++ s.blocks.drop m } :
      Heap).blocks.length = k + mid.length + (s.blocks.length - m) := length_splice hk hm
  rcases hout with hlt | hge
  · refine ⟨ib, ?_, ?_, ?_, ?_⟩
    · rw [hlen]
      omega
    · show addrL (s.blocks.take k ++ mid ++ s.blocks.drop m) ib = a
      rw [addrL_splice_le (by omega) (by omega)]
      exact haib
    · show (blkL (s.blocks.take k ++ mid ++ s.blocks.drop m) ib).alloc = false
      rw [blkL_splice_lt hlt (by omega)]
      exact hfib
    · show get_seglist_ind (blkL (s.blocks.take k ++ mid ++ s.blocks.drop m) ib).size = j
      rw [blkL_splice_lt hlt (by omega)]
      exact hgib
  · refine ⟨k + mid.length + (ib - m), ?_, ?_, ?_, ?_⟩
    · rw [hlen]
      omega
    · show addrL (s.blocks.take k ++ mid ++ s.blocks.drop m) (k + mid.length + (ib - m)) = a
      rw [addrL_splice_ge hk hm hsum]
      have : m + (ib - m) = ib := by omega
      rw [this]
      exact haib
    · show (blkL (s.blocks.take k ++ mid ++ s.blocks.drop m)
        (k + mid.length + (ib - m))).alloc = false
      rw [blkL_splice_ge (by omega)]
      have : m + (ib - m) = ib := by omega
      rw [this]
      exact hfib
    · show get_seglist_ind (blkL (s.blocks.take k ++ mid ++ s.blocks.drop m)
        (k + mid.length + (ib - m))).size = j
      rw [blkL_splice_ge (by omega)]
      have : m + (ib - m) = ib := by omega
      rw [this]
      exact hgib

/-! ### Coalescing -/

theorem sumSizes_take_succ {l : List Blk} {i : Nat} (h : i < l.length) :
    sumSizes (l.take (i + 1)) = sumSizes (l.take i) + (blkL l i).size := by
  have := addrL_succ h
  unfold addrL at this
  omega

@[simp] theorem paOf_zero (s : Heap) : paOf s 0 = true := rfl

@[simp] theorem paOf_succ (s : Heap) (j : Nat) : paOf s (j + 1) = (blkAt s j).alloc := rfl

theorem slotPA_of_lt {s : Heap} {j : Nat} (h : j < s.blocks.length) :
    slotPA s j = (blkAt s j).prevAlloc := by
  unfold slotPA
  rw [if_pos h]

theorem slotPA_of_ge {s : Heap} {j : Nat} (h : ¬ (j < s.blocks.length)) :
    slotPA s j = s.epiPrev := by
  unfold slotPA
  rw [if_neg h]

theorem prevAcc_at {s : Heap} {e j : Nat} (hPA : PrevAccExc s e)
    (hj : j < s.blocks.length) (hne : j ≠ e) :
    (blkAt s j).prevAlloc = paOf s j := by
  have := hPA j (by omega) hne
  rwa [slotPA_of_lt hj] at this

/-- The index of a free block is positive and its predecessor is free when
its previous-allocated bit is clear. -/
theorem prev_free_facts {s : Heap} {i : Nat} (hPA : PrevAccExc s (i + 1))
    (hi : i < s.blocks.length) (hp : (blkAt s i).prevAlloc = false) :
    1 ≤ i ∧ (blkAt s (i - 1)).alloc = false := by
  have hacc := prevAcc_at hPA hi (by omega)
  cases i with
  | zero => simp [paOf] at hacc; rw [hp] at hacc; exact absurd hacc.symm (by simp)
  | succ n =>
    rw [hp] at hacc
    refine ⟨by omega, ?_⟩
    simp only [paOf_succ] at hacc
    simpa using hacc.symm

theorem coalesce_inv_none (s : Heap) (i : Nat)
    (hroots : s.roots.length = seglist_length)
    (hsz : SizesOkL s.blocks)
    (hi : i < s.blocks.length)
    (hfree : (blkAt s i).alloc = false)
    (hPA : PrevAccExc s (i + 1))
    (hNA : NoAdjExc s i)
    (hBF : BucketFine s)
    (hFL : FreeListed s)
    (hND : RootsND s)
    (hn : (blkAt s (i + 1)).alloc = true)
    (hp : (blkAt s i).prevAlloc = true) :
    CoalescePost s i (coalesce_block s i) := by
  have hchar : coalesce_block s i = (s, i) := by
    unfold coalesce_block
    rw [hn, hp]
    rfl
  rw [hchar]
  have hprevtrue : i = 0 ∨ (blkAt s (i - 1)).alloc = true := by
    cases i with
    | zero => exact Or.inl rfl
    | succ n =>
      right
      have hacc := prevAcc_at hPA hi (by omega)
      rw [hp] at hacc
      simpa using hacc.symm
  refine ⟨hroots, hi, hfree, hsz, hPA, ?_, hBF, hFL, hND, rfl, le_rfl, rfl, fun h => h,
    fun a ha => ha⟩
  show NoAdj s
  intro j hj
  by_cases hji : j = i
  · subst hji
    exact Or.inr hn
  · by_cases hji1 : j + 1 = i
    · left
      rcases hprevtrue with h0 | hal
      · omega
      · have hji2 : j = i - 1 := by omega
        rw [hji2]
        exact hal
    · exact hNA j hj hji hji1

/-! ### The merged-block splice shape `l.take k ++ mrg :: l.drop m` -/

theorem merge_as_splice (l : List Blk) (mrg : Blk) (k m : Nat) :
    l.take k ++ mrg :: l.drop m = l.take k ++ [mrg] ++ l.drop m := by
  simp

theorem length_merge {l : List Blk} {k m : Nat} (mrg : Blk) (hk : k ≤ m)
    (hm : m ≤ l.length) :
    (l.take k ++ mrg :: l.drop m).length = k + 1 + (l.length - m) := by
  rw [merge_as_splice]
  have := @length_splice l [mrg] k m hk hm
  simpa using this

theorem blkL_merge_lt {l : List Blk} {k m j : Nat} (mrg : Blk) (hj : j < k)
    (hk : k ≤ l.length) :
    blkL (l.take k ++ mrg :: l.drop m) j = blkL l j := by
  rw [merge_as_splice]
  exact blkL_splice_lt hj hk

theorem blkL_merge_at {l : List Blk} {k m : Nat} (mrg : Blk) (hk : k ≤ l.length) :
    blkL (l.take k ++ mrg :: l.drop m) k = mrg := by
  rw [merge_as_splice]
  have := @blkL_splice_mid l [mrg] k m 0 (by simp) hk
  simpa using this

theorem blkL_merge_gt {l : List Blk} {k m j : Nat} (mrg : Blk) (hk : k ≤ l.length)
    (hj : k < j) :
    blkL (l.take k ++ mrg :: l.drop m) j = blkL l (m + (j - k - 1)) := by
  rw [merge_as_splice]
  have := @blkL_splice_ge l [mrg] k m (j - k - 1) hk
  have harg : k + (List.length [mrg]) + (j - k - 1) = j := by simp; omega
  rwa [harg] at this

theorem addrL_merge_le {l : List Blk} {k m j : Nat} (mrg : Blk) (hj : j ≤ k)
    (hk : k ≤ l.length) :
    addrL (l.take k ++ mrg :: l.drop m) j = addrL l j := by
  rw [merge_as_splice]
  exact addrL_splice_le hj hk

theorem addrL_merge_gt {l : List Blk} {k m j : Nat} {mrg : Blk} (hk : k ≤ m)
    (hm : m ≤ l.length)
    (hsum : sumSizes (l.take k) + mrg.size = sumSizes (l.take m)) (hj : k < j) :
    addrL (l.take k ++ mrg :: l.drop m) j = addrL l (m + (j - k - 1)) := by
  rw [merge_as_splice]
  have := @addrL_splice_ge l [mrg] k m (j - k - 1) hk hm (by simpa using hsum)
  have harg : k + (List.length [mrg]) + (j - k - 1) = j := by simp; omega
  rwa [harg] at this

theorem sumSizes_merge {l : List Blk} {k m : Nat} {mrg : Blk}
    (hsum : sumSizes (l.take k) + mrg.size = sumSizes (l.take m)) :
    sumSizes (l.take k ++ mrg :: l.drop m) = sumSizes l := by
  rw [merge_as_splice]
  exact sumSizes_splice (by simpa using hsum)

theorem SizesOkL_merge {l : List Blk} {k m : Nat} {mrg : Blk} (hl : SizesOkL l)
    (h1 : min_block_size ≤ mrg.size) (h2 : mrg.size % dsize = 0) :
    SizesOkL (l.take k ++ mrg :: l.drop m) := by
  rw [merge_as_splice]
  refine SizesOkL_splice hl ?_
  intro b hb
  simp at hb
  subst hb
  exact ⟨h1, h2⟩

theorem BucketFine_merge (s : Heap) {k m : Nat} (mrg : Blk)
    (hk : k ≤ m) (hm : m ≤ s.blocks.length)
    (hsum : sumSizes (s.blocks.take k) + mrg.size = sumSizes (s.blocks.take m))
    (hsz : SizesOkL s.blocks)
    (hBF : BucketFine s)
    (hNI : ∀ t, k ≤ t → t < m → NotInRoots s (addrB s t)) :
    BucketFine { s with blocks := s.blocks.take k ++ mrg :: s.blocks.drop m } := by
  have h := BucketFine_splice s [mrg] hk hm (by simpa using hsum) hsz hBF hNI
  rw [merge_as_splice]
  exact h

theorem sizesOk_at {s : Heap} (hsz : SizesOkL s.blocks) {i : Nat}
    (hi : i < s.blocks.length) :
    min_block_size ≤ (blkAt s i).size ∧ (blkAt s i).size % dsize = 0 := by
  have hmem : blkAt s i ∈ s.blocks := by
    rw [blkAt_eq, blkL_of_lt hi]
    exact List.getElem_mem hi
  exact hsz _ hmem

theorem coalesce_inv_next (s : Heap) (i : Nat)
    (hroots : s.roots.length = seglist_length)
    (hsz : SizesOkL s.blocks)
    (hi : i < s.blocks.length)
    (hfree : (blkAt s i).alloc = false)
    (hPA : PrevAccExc s (i + 1))
    (hNA : NoAdjExc s i)
    (hBF : BucketFine s)
    (hFL : FreeListed s)
    (hND : RootsND s)
    (hn : (blkAt s (i + 1)).alloc = false)
    (hp : (blkAt s i).prevAlloc = true) :
    CoalescePost s i (coalesce_block s i) := by
  have hi1 : i + 1 < s.blocks.length := by
    by_contra hcon
    push_neg at hcon
    rw [blkAt_alloc_of_ge hcon] at hn
    exact absurd hn (by simp)
  have hszi := sizesOk_at hsz hi
  have hszi1 := sizesOk_at hsz hi1
  have hchar : coalesce_block s i =
      (add_to_free
        { remove_from_free (remove_from_free s (addrB s (i + 1))) (addrB s i) with
            blocks := s.blocks.take i ++
              (⟨(blkAt s (i + 1)).size + (blkAt s i).size, false, true⟩ : Blk) ::
                s.blocks.drop (i + 2) }
        (addrB
          { remove_from_free (remove_from_free s (addrB s (i + 1))) (addrB s i) with
              blocks := s.blocks.take i ++
                (⟨(blkAt s (i + 1)).size + (blkAt s i).size, false, true⟩ : Blk) ::
                  s.blocks.drop (i + 2) } i), i) := by
    unfold coalesce_block
    rw [hn, hp]
    rfl
  rw [hchar]
  -- the two unlink steps
  have hFLP0 : FreeListedP s (fun _ => True) := fun a b c _ => hFL a b c
  obtain ⟨hr1, hBF1, hFL1, hND1, hNI1⟩ :=
    remove_from_free_invP s (i + 1) (fun _ => True) hroots hsz hi1 hBF hFLP0 hND
  have haddr1 : addrB (remove_from_free s (addrB s (i + 1))) i = addrB s i := rfl
  obtain ⟨hr2, hBF2, hFL2, hND2, hNI2⟩ :=
    remove_from_free_invP (remove_from_free s (addrB s (i + 1))) i
      (fun j => True ∧ j ≠ i + 1) hr1 hsz hi hBF1 hFL1 hND1
  rw [haddr1] at hr2 hBF2 hFL2 hND2 hNI2
  have hNI1b : NotInRoots
      (remove_from_free (remove_from_free s (addrB s (i + 1))) (addrB s i))
      (addrB s (i + 1)) :=
    NotInRoots_remove _ _ _ hNI1
  -- abbreviations
  set mrg : Blk := (⟨(blkAt s (i + 1)).size + (blkAt s i).size, false, true⟩ : Blk)
    with hmrg
  set s2 := remove_from_free (remove_from_free s (addrB s (i + 1))) (addrB s i)
    with hs2
  set bl := s.blocks.take i ++ mrg :: s.blocks.drop (i + 2) with hbl
  set s3 : Heap := { s2 with blocks := bl } with hs3
  -- basic component facts
  have hs2b : s2.blocks = s.blocks := by rw [hs2]; rfl
  have hs2e : s2.epiPrev = s.epiPrev := by rw [hs2]; rfl
  have hs3b : s3.blocks = bl := by rw [hs3]
  have hs3e : s3.epiPrev = s.epiPrev := by rw [hs3]; exact hs2e
  have hs3r : s3.roots = s2.roots := by rw [hs3]
  have hmrgsize : mrg.size = (blkAt s (i + 1)).size + (blkAt s i).size := by rw [hmrg]
  have hmrgalloc : mrg.alloc = false := by rw [hmrg]
  have hmrgprev : mrg.prevAlloc = true := by rw [hmrg]
  have hsum : sumSizes (s.blocks.take i) + mrg.size = sumSizes (s.blocks.take (i + 2)) := by
    rw [hmrgsize]
    have t1 := sumSizes_take_succ (l := s.blocks) hi
    have t2 := sumSizes_take_succ (l := s.blocks) hi1
    rw [← blkAt_eq] at t1 t2
    have t2' : sumSizes (s.blocks.take (i + 2)) =
        sumSizes (s.blocks.take (i + 1)) + (blkAt s (i + 1)).size := t2
    omega
  have hlen3 : s3.blocks.length = i + 1 + (s.blocks.length - (i + 2)) := by
    rw [hs3b, hbl]
    exact length_merge mrg (by omega) (by omega)
  have hblk3_lt : ∀ j, j < i → blkAt s3 j = blkAt s j := by
    intro j hj
    rw [blkAt_eq, hs3b, hbl, blkL_merge_lt mrg hj (by omega), ← blkAt_eq]
  have hblk3_at : blkAt s3 i = mrg := by
    rw [blkAt_eq, hs3b, hbl, blkL_merge_at mrg (by omega)]
  have hblk3_gt : ∀ j, i < j → blkAt s3 j = blkAt s (i + 2 + (j - i - 1)) := by
    intro j hj
    rw [blkAt_eq, hs3b, hbl, blkL_merge_gt mrg (by omega) hj, ← blkAt_eq]
  have haddr3_le : ∀ j, j ≤ i → addrB s3 j = addrB s j := by
    intro j hj
    rw [addrB_eq, hs3b, hbl, addrL_merge_le mrg hj (by omega), ← addrB_eq]
  have haddr3_gt : ∀ j, i < j → addrB s3 j = addrB s (i + 2 + (j - i - 1)) := by
    intro j hj
    rw [addrB_eq, hs3b, hbl, addrL_merge_gt (by omega) (by omega) hsum hj, ← addrB_eq]
  have hsum3 : sumSizes s3.blocks = sumSizes s.blocks := by
    rw [hs3b, hbl]
    exact sumSizes_merge hsum
  have hbuck3 : ∀ j, bucket s3 j = bucket s2 j := by
    intro j
    rw [bucket, bucket, hs3r]
  have hroots3 : s3.roots.length = seglist_length := by
    rw [hs3r]
    exact hr2
  -- bucket invariants of the merged state
  have hBF3 : BucketFine s3 := by
    have hNIrange : ∀ t, i ≤ t → t < i + 2 → NotInRoots s2 (addrB s2 t) := by
      intro t ht1 ht2
      have haddr2 : ∀ u, addrB s2 u = addrB s u := by
        intro u
        rw [addrB_eq, addrB_eq, hs2b]
      rcases Nat.eq_or_lt_of_le ht1 with rfl | hlt
      · rw [haddr2]
        exact hNI2
      · have : t = i + 1 := by omega
        subst this
        rw [haddr2]
        exact hNI1b
    have hsum2 : sumSizes (s2.blocks.take i) + mrg.size = sumSizes (s2.blocks.take (i + 2)) := by
      rw [hs2b]
      exact hsum
    have hsz2 : SizesOkL s2.blocks := by
      rw [hs2b]
      exact hsz
    have h := BucketFine_merge s2 mrg (by omega) (by rw [hs2b]; omega) hsum2 hsz2 hBF2 hNIrange
    have hrec : ({ s2 with blocks := s2.blocks.take i ++ mrg :: s2.blocks.drop (i + 2) } :
        Heap) = s3 := by
      rw [hs3, hbl, hs2b]
    rwa [hrec] at h
  have hblk2 : ∀ j, blkAt s2 j = blkAt s j := by
    intro j
    rw [blkAt_eq, blkAt_eq, hs2b]
  have haddr2 : ∀ j, addrB s2 j = addrB s j := by
    intro j
    rw [addrB_eq, addrB_eq, hs2b]
  have hFL3 : FreeListedExc s3 i := by
    intro jn hjn hfjn hne
    have hjn' : jn < s3.blocks.length := hjn
    rcases Nat.lt_or_ge jn i with hlt | hge
    · have hb := hblk3_lt jn hlt
      have hmem := hFL2 jn (by rw [hs2b]; omega) (by rw [hblk2]; rw [hb] at hfjn; exact hfjn)
        ⟨⟨trivial, by omega⟩, by omega⟩
      rw [haddr3_le jn (by omega), hb]
      rw [haddr2, hblk2] at hmem
      rw [hbuck3]
      exact hmem
    · have hgt : i < jn := by omega
      have hb := hblk3_gt jn hgt
      have hjo : i + 2 + (jn - i - 1) < s.blocks.length := by
        rw [hlen3] at hjn'
        omega
      have hmem := hFL2 (i + 2 + (jn - i - 1)) (by rw [hs2b]; omega)
        (by rw [hblk2]; rw [hb] at hfjn; exact hfjn) ⟨⟨trivial, by omega⟩, by omega⟩
      rw [haddr3_gt jn hgt, hb]
      rw [haddr2, hblk2] at hmem
      rw [hbuck3]
      exact hmem
  have hND3 : RootsND s3 := by
    intro j hj
    rw [hbuck3]
    exact hND2 j hj
  have hNI3 : NotInRoots s3 (addrB s3 i) := by
    rw [haddr3_le i le_rfl]
    intro j hj
    rw [hbuck3]
    exact hNI2 j hj
  have hsz3 : SizesOkL s3.blocks := by
    rw [hs3b, hbl]
    refine SizesOkL_merge hsz ?_ ?_
    · rw [hmrgsize]
      simp only [min_block_size] at *
      omega
    · rw [hmrgsize]
      simp only [dsize] at *
      omega
  have hfree3 : (blkAt s3 i).alloc = false := by
    rw [hblk3_at]
  have hk3 : i < s3.blocks.length := by
    rw [hlen3]
    omega
  obtain ⟨hrF, hBFF, hFLF, hNDF⟩ :=
    add_to_free_inv s3 i hroots3 hsz3 hk3 hfree3 hBF3 hFL3 hND3 hNI3
  -- chain facts about s3 (and hence about the final state, whose blocks and
  -- epilogue bit are definitionally those of s3)
  have hPA3 : PrevAccExc s3 (i + 1) := by
    intro j hj hne
    rcases Nat.lt_or_ge j i with hlt | hge
    · rw [slotPA_of_lt (by omega), hblk3_lt j hlt]
      cases j with
      | zero =>
        rw [paOf_zero]
        have h0 := prevAcc_at hPA (j := 0) (by omega) (by omega)
        rw [paOf_zero] at h0
        exact h0
      | succ n =>
        rw [paOf_succ, hblk3_lt n (by omega)]
        have := prevAcc_at hPA (j := n + 1) (by omega) (by omega)
        rw [this, paOf_succ]
    · rcases Nat.eq_or_lt_of_le hge with rfl | hgt
      · -- j = i : the merged block's own slot
        rw [slotPA_of_lt (by omega), hblk3_at, hmrgprev]
        cases i with
        | zero => simp [paOf]
        | succ n =>
          rw [paOf_succ, hblk3_lt n (by omega)]
          have hacc := prevAcc_at hPA (j := n + 1) (by omega) (by omega)
          rw [hp] at hacc
          rw [paOf_succ] at hacc
          exact hacc
      · -- j ≥ i + 2 (j = i + 1 is the exception)
        have hj2 : i + 2 ≤ j := by omega
        have hpa : paOf s3 j = (blkAt s j).alloc := by
          have hj1 : j - 1 ≥ i + 1 := by omega
          cases j with
          | zero => omega
          | succ n =>
            rw [paOf_succ, hblk3_gt n (by omega)]
            have : i + 2 + (n - i - 1) = n + 1 := by omega
            rw [this]
        rw [hpa]
        rcases Nat.lt_or_ge j s3.blocks.length with hjlt | hjge
        · rw [slotPA_of_lt hjlt, hblk3_gt j (by omega)]
          have hjmap : i + 2 + (j - i - 1) = j + 1 := by omega
          rw [hjmap]
          have hacc := prevAcc_at hPA (j := j + 1) (by rw [hlen3] at hjlt; omega) (by omega)
          rw [hacc, paOf_succ]
        · have hjeq : j = s3.blocks.length := by omega
          rw [slotPA_of_ge (by omega), hs3e]
          have hlast : j = i + 1 + (s.blocks.length - (i + 2)) := by rw [← hlen3, hjeq]
          have hLj : j + 1 = s.blocks.length := by omega
          have hepi := hPA s.blocks.length le_rfl (by omega)
          rw [slotPA_of_ge (by omega)] at hepi
          rw [hepi]
          have hL1 : s.blocks.length = (s.blocks.length - 1) + 1 := by omega
          rw [hL1, paOf_succ]
          have : s.blocks.length - 1 = j := by omega
          rw [this]
  have hNA3 : NoAdj s3 := by
    intro j hj
    rcases Nat.lt_or_ge (j + 1) i with hlt | hge
    · rw [hblk3_lt j (by omega), hblk3_lt (j + 1) hlt]
      exact hNA j (by omega) (by omega) (by omega)
    · rcases Nat.eq_or_lt_of_le hge with heq | hgt
      · -- j + 1 = i
        left
        rw [hblk3_lt j (by omega)]
        have hip : 1 ≤ i := by omega
        have hacc := prevAcc_at hPA (j := i) (by omega) (by omega)
        rw [hp] at hacc
        have hi1' : i = (i - 1) + 1 := by omega
        rw [hi1', paOf_succ] at hacc
        have : j = i - 1 := by omega
        rw [this]
        exact hacc.symm
      · rcases Nat.eq_or_lt_of_le hgt with heq2 | hgt2
        · -- j = i : merged block and its new right neighbour
          right
          rw [hblk3_gt (j + 1) (by omega)]
          have : i + 2 + (j + 1 - i - 1) = i + 2 := by omega
          rw [this]
          have hcond : i + 2 < s.blocks.length := by
            rw [hlen3] at hj
            omega
          have := hNA (i + 1) (by omega) (by omega) (by omega)
          rcases this with hl | hr
          · rw [hn] at hl
            exact absurd hl (by simp)
          · exact hr
        · -- j > i
          have h1 := hblk3_gt j (by omega)
          have h2 := hblk3_gt (j + 1) (by omega)
          have hm1 : i + 2 + (j - i - 1) = j + 1 := by omega
          have hm2 : i + 2 + (j + 1 - i - 1) = j + 2 := by omega
          rw [h1, h2, hm1, hm2]
          have hcond : j + 2 < s.blocks.length := by
            rw [hlen3] at hj
            omega
          exact hNA (j + 1) (by omega) (by omega) (by omega)
  refine ⟨hrF, hk3, hfree3, hsz3, hPA3, hNA3, hBFF, hFLF, hNDF, hs3e, ?_, hsum3, ?_, ?_⟩
  · show (blkAt s i).size ≤ (blkAt s3 i).size
    rw [hblk3_at, hmrgsize]
    omega
  · intro hlast
    exact absurd hlast (by omega)
  · rintro a ⟨t, ht, haddr, hal⟩
    have hti : t ≠ i := by
      intro he
      rw [he, hfree] at hal
      exact absurd hal (by simp)
    have hti1 : t ≠ i + 1 := by
      intro he
      rw [he, hn] at hal
      exact absurd hal (by simp)
    rcases Nat.lt_or_ge t i with hlt | hge
    · refine ⟨t, ?_, ?_, ?_⟩
      · show t < s3.blocks.length
        rw [hlen3]
        omega
      · show addrB s3 t = a
        rw [haddr3_le t (by omega)]
        exact haddr
      · show (blkAt s3 t).alloc = true
        rw [hblk3_lt t hlt]
        exact hal
    · have hge2 : i + 2 ≤ t := by omega
      refine ⟨t - 1, ?_, ?_, ?_⟩
      · show t - 1 < s3.blocks.length
        rw [hlen3]
        omega
      · show addrB s3 (t - 1) = a
        rw [haddr3_gt (t - 1) (by omega),
          show i + 2 + (t - 1 - i - 1) = t from by omega]
        exact haddr
      · show (blkAt s3 (t - 1)).alloc = true
        rw [hblk3_gt (t - 1) (by omega),
          show i + 2 + (t - 1 - i - 1) = t from by omega]
        exact hal

theorem coalesce_inv_prev (s : Heap) (i : Nat)
    (hroots : s.roots.length = seglist_length)
    (hsz : SizesOkL s.blocks)
    (hi : i < s.blocks.length)
    (hfree : (blkAt s i).alloc = false)
    (hPA : PrevAccExc s (i + 1))
    (hNA : NoAdjExc s i)
    (hBF : BucketFine s)
    (hFL : FreeListed s)
    (hND : RootsND s)
    (hn : (blkAt s (i + 1)).alloc = true)
    (hp : (blkAt s i).prevAlloc = false) :
    CoalescePost s i (coalesce_block s i) := by
  obtain ⟨hip, hfprev⟩ := prev_free_facts hPA hi hp
  have hipl : i - 1 < s.blocks.length := by omega
  have hszi := sizesOk_at hsz hi
  have hszip := sizesOk_at hsz hipl
  have hchar : coalesce_block s i =
      (add_to_free
        { remove_from_free (remove_from_free s (addrB s (i - 1))) (addrB s i) with
            blocks := s.blocks.take (i - 1) ++
              (⟨(blkAt s i).size + (blkAt s (i - 1)).size, false, true⟩ : Blk) ::
                s.blocks.drop (i + 1) }
        (addrB
          { remove_from_free (remove_from_free s (addrB s (i - 1))) (addrB s i) with
              blocks := s.blocks.take (i - 1) ++
                (⟨(blkAt s i).size + (blkAt s (i - 1)).size, false, true⟩ : Blk) ::
                  s.blocks.drop (i + 1) } (i - 1)), i - 1) := by
    unfold coalesce_block
    rw [hn, hp]
    rfl
  rw [hchar]
  -- the two unlink steps
  have hFLP0 : FreeListedP s (fun _ => True) := fun a b c _ => hFL a b c
  obtain ⟨hr1, hBF1, hFL1, hND1, hNI1⟩ :=
    remove_from_free_invP s (i - 1) (fun _ => True) hroots hsz hipl hBF hFLP0 hND
  have haddr1 : addrB (remove_from_free s (addrB s (i - 1))) i = addrB s i := rfl
  obtain ⟨hr2, hBF2, hFL2, hND2, hNI2⟩ :=
    remove_from_free_invP (remove_from_free s (addrB s (i - 1))) i
      (fun j => True ∧ j ≠ i - 1) hr1 hsz hi hBF1 hFL1 hND1
  rw [haddr1] at hr2 hBF2 hFL2 hND2 hNI2
  have hNI1b : NotInRoots
      (remove_from_free (remove_from_free s (addrB s (i - 1))) (addrB s i))
      (addrB s (i - 1)) :=
    NotInRoots_remove _ _ _ hNI1
  -- abbreviations
  set mrg : Blk := (⟨(blkAt s i).size + (blkAt s (i - 1)).size, false, true⟩ : Blk)
    with hmrg
  set s2 := remove_from_free (remove_from_free s (addrB s (i - 1))) (addrB s i)
    with hs2
  set bl := s.blocks.take (i - 1) ++ mrg :: s.blocks.drop (i + 1) with hbl
  set s3 : Heap := { s2 with blocks := bl } with hs3
  have hs2b : s2.blocks = s.blocks := by rw [hs2]; rfl
  have hs2e : s2.epiPrev = s.epiPrev := by rw [hs2]; rfl
  have hs3b : s3.blocks = bl := by rw [hs3]
  have hs3e : s3.epiPrev = s.epiPrev := by rw [hs3]; exact hs2e
  have hs3r : s3.roots = s2.roots := by rw [hs3]
  have hmrgsize : mrg.size = (blkAt s i).size + (blkAt s (i - 1)).size := by rw [hmrg]
  have hmrgalloc : mrg.alloc = false := by rw [hmrg]
  have hmrgprev : mrg.prevAlloc = true := by rw [hmrg]
  have hsum : sumSizes (s.blocks.take (i - 1)) + mrg.size =
      sumSizes (s.blocks.take (i + 1)) := by
    rw [hmrgsize]
    have t1 := sumSizes_take_succ (l := s.blocks) hipl
    have t2 := sumSizes_take_succ (l := s.blocks) hi
    rw [← blkAt_eq] at t1 t2
    have e1 : i - 1 + 1 = i := by omega
    rw [e1] at t1
    omega
  have hlen3 : s3.blocks.length = i - 1 + 1 + (s.blocks.length - (i + 1)) := by
    rw [hs3b, hbl]
    exact length_merge mrg (by omega) (by omega)
  have hblk3_lt : ∀ j, j < i - 1 → blkAt s3 j = blkAt s j := by
    intro j hj
    rw [blkAt_eq, hs3b, hbl, blkL_merge_lt mrg hj (by omega), ← blkAt_eq]
  have hblk3_at : blkAt s3 (i - 1) = mrg := by
    rw [blkAt_eq, hs3b, hbl, blkL_merge_at mrg (by omega)]
  have hblk3_gt : ∀ j, i - 1 < j → blkAt s3 j = blkAt s (j + 1) := by
    intro j hj
    rw [blkAt_eq, hs3b, hbl, blkL_merge_gt mrg (by omega) hj, ← blkAt_eq]
    have : i + 1 + (j - (i - 1) - 1) = j + 1 := by omega
    rw [this]
  have haddr3_le : ∀ j, j ≤ i - 1 → addrB s3 j = addrB s j := by
    intro j hj
    rw [addrB_eq, hs3b, hbl, addrL_merge_le mrg hj (by omega), ← addrB_eq]
  have haddr3_gt : ∀ j, i - 1 < j → addrB s3 j = addrB s (j + 1) := by
    intro j hj
    rw [addrB_eq, hs3b, hbl, addrL_merge_gt (by omega) (by omega) hsum hj, ← addrB_eq]
    have : i + 1 + (j - (i - 1) - 1) = j + 1 := by omega
    rw [this]
  have hsum3 : sumSizes s3.blocks = sumSizes s.blocks := by
    rw [hs3b, hbl]
    exact sumSizes_merge hsum
  have hbuck3 : ∀ j, bucket s3 j = bucket s2 j := by
    intro j
    rw [bucket, bucket, hs3r]
  have hroots3 : s3.roots.length = seglist_length := by
    rw [hs3r]
    exact hr2
  have hblk2 : ∀ j, blkAt s2 j = blkAt s j := by
    intro j
    rw [blkAt_eq, blkAt_eq, hs2b]
  have haddr2 : ∀ j, addrB s2 j = addrB s j := by
    intro j
    rw [addrB_eq, addrB_eq, hs2b]
  have hBF3 : BucketFine s3 := by
    have hNIrange : ∀ t, i - 1 ≤ t → t < i + 1 → NotInRoots s2 (addrB s2 t) := by
      intro t ht1 ht2
      by_cases hteq : t = i - 1
      · subst hteq
        rw [haddr2]
        exact hNI1b
      · have : t = i := by omega
        subst this
        rw [haddr2]
        exact hNI2
    have hsum2 : sumSizes (s2.blocks.take (i - 1)) + mrg.size =
        sumSizes (s2.blocks.take (i + 1)) := by
      rw [hs2b]
      exact hsum
    have hsz2 : SizesOkL s2.blocks := by
      rw [hs2b]
      exact hsz
    have h := BucketFine_merge s2 mrg (by omega) (by rw [hs2b]; omega) hsum2 hsz2 hBF2 hNIrange
    have hrec : ({ s2 with blocks := s2.blocks.take (i - 1) ++ mrg :: s2.blocks.drop (i + 1) } : Heap) = s3 := by
      rw [hs3, hbl, hs2b]
    rwa [hrec] at h
  have hFL3 : FreeListedExc s3 (i - 1) := by
    intro jn hjn hfjn hne
    have hjn' : jn < s3.blocks.length := hjn
    rcases Nat.lt_or_ge jn (i - 1) with hlt | hge
    · have hb := hblk3_lt jn hlt
      have hmem := hFL2 jn (by rw [hs2b]; omega) (by rw [hblk2]; rw [hb] at hfjn; exact hfjn)
        ⟨⟨trivial, by omega⟩, by omega⟩
      rw [haddr3_le jn (by omega), hb]
      rw [haddr2, hblk2] at hmem
      rw [hbuck3]
      exact hmem
    · have hgt : i - 1 < jn := by omega
      have hb := hblk3_gt jn hgt
      have hjo : jn + 1 < s.blocks.length := by
        rw [hlen3] at hjn'
        omega
      have hmem := hFL2 (jn + 1) (by rw [hs2b]; omega)
        (by rw [hblk2]; rw [hb] at hfjn; exact hfjn) ⟨⟨trivial, by omega⟩, by omega⟩
      rw [haddr3_gt jn hgt, hb]
      rw [haddr2, hblk2] at hmem
      rw [hbuck3]
      exact hmem
  have hND3 : RootsND s3 := by
    intro j hj
    rw [hbuck3]
    exact hND2 j hj
  have hNI3 : NotInRoots s3 (addrB s3 (i - 1)) := by
    rw [haddr3_le (i - 1) le_rfl]
    intro j hj
    rw [hbuck3]
    exact hNI1b j hj
  have hsz3 : SizesOkL s3.blocks := by
    rw [hs3b, hbl]
    refine SizesOkL_merge hsz ?_ ?_
    · rw [hmrgsize]
      simp only [min_block_size] at *
      omega
    · rw [hmrgsize]
      simp only [dsize] at *
      omega
  have hfree3 : (blkAt s3 (i - 1)).alloc = false := by
    rw [hblk3_at]
  have hk3 : i - 1 < s3.blocks.length := by
    rw [hlen3]
    omega
  obtain ⟨hrF, hBFF, hFLF, hNDF⟩ :=
    add_to_free_inv s3 (i - 1) hroots3 hsz3 hk3 hfree3 hBF3 hFL3 hND3 hNI3
  have hprevm : i - 1 = 0 ∨ (2 ≤ i ∧ (blkAt s (i - 2)).alloc = true) := by
    cases Nat.eq_or_lt_of_le hip with
    | inl h1 => exact Or.inl (by omega)
    | inr h2 =>
      right
      refine ⟨by omega, ?_⟩
      have := hNA (i - 2) (by omega) (by omega) (by omega)
      rcases this with hl | hr
      · exact hl
      · have : i - 2 + 1 = i - 1 := by omega
        rw [this] at hr
        rw [hr] at hfprev
        exact absurd hfprev (by simp)
  have hPA3 : PrevAccExc s3 (i - 1 + 1) := by
    intro j hj hne
    rcases Nat.lt_or_ge j (i - 1) with hlt | hge
    · rw [slotPA_of_lt (by omega), hblk3_lt j hlt]
      cases j with
      | zero =>
        rw [paOf_zero]
        have h0 := prevAcc_at hPA (j := 0) (by omega) (by omega)
        rw [paOf_zero] at h0
        exact h0
      | succ n =>
        rw [paOf_succ, hblk3_lt n (by omega)]
        have := prevAcc_at hPA (j := n + 1) (by omega) (by omega)
        rw [this, paOf_succ]
    · rcases Nat.eq_or_lt_of_le hge with heq | hgt
      · -- j = i - 1 : the merged block's own slot
        subst heq
        rw [slotPA_of_lt (by omega), hblk3_at, hmrgprev]
        rcases hprevm with h0 | hal
        · rw [h0, paOf_zero]
        · obtain ⟨hi2, hal⟩ := hal
          have hj1 : i - 1 = (i - 2) + 1 := by omega
          rw [hj1, paOf_succ, hblk3_lt (i - 2) (by omega), hal]
      · -- j ≥ i + 1 (j = i is the exception)
        have hj2 : i + 1 ≤ j := by omega
        have hpa : paOf s3 j = (blkAt s j).alloc := by
          cases j with
          | zero => omega
          | succ n =>
            rw [paOf_succ, hblk3_gt n (by omega)]
        rw [hpa]
        rcases Nat.lt_or_ge j s3.blocks.length with hjlt | hjge
        · rw [slotPA_of_lt hjlt, hblk3_gt j (by omega)]
          have hacc := prevAcc_at hPA (j := j + 1) (by rw [hlen3] at hjlt; omega) (by omega)
          rw [hacc, paOf_succ]
        · have hjeq : j = s3.blocks.length := by omega
          rw [slotPA_of_ge (by omega), hs3e]
          have hLj : j + 1 = s.blocks.length := by
            rw [hlen3] at hjeq
            omega
          have hepi := hPA s.blocks.length le_rfl (by omega)
          rw [slotPA_of_ge (by omega)] at hepi
          rw [hepi]
          have hL1 : s.blocks.length = j + 1 := hLj.symm
          rw [hL1, paOf_succ]
  have hNA3 : NoAdj s3 := by
    intro j hj
    rcases Nat.lt_or_ge (j + 1) (i - 1) with hlt | hge
    · rw [hblk3_lt j (by omega), hblk3_lt (j + 1) hlt]
      exact hNA j (by omega) (by omega) (by omega)
    · rcases Nat.eq_or_lt_of_le hge with heq | hgt
      · -- j + 1 = i - 1
        left
        rw [hblk3_lt j (by omega)]
        rcases hprevm with h0 | hal
        · omega
        · obtain ⟨hi2, hal⟩ := hal
          have : j = i - 2 := by omega
          rw [this]
          exact hal
      · rcases Nat.eq_or_lt_of_le hgt with heq2 | hgt2
        · -- j = i - 1 : merged block and its right neighbour
          right
          rw [hblk3_gt (j + 1) (by omega)]
          have : j + 1 + 1 = i + 1 := by omega
          rw [this]
          exact hn
        · -- j > i - 1
          have h1 := hblk3_gt j (by omega)
          have h2 := hblk3_gt (j + 1) (by omega)
          rw [h1, h2]
          have hcond : j + 2 < s.blocks.length := by
            rw [hlen3] at hj
            omega
          exact hNA (j + 1) (by omega) (by omega) (by omega)
  refine ⟨hrF, hk3, hfree3, hsz3, hPA3, hNA3, hBFF, hFLF, hNDF, hs3e, ?_, hsum3, ?_, ?_⟩
  · show (blkAt s i).size ≤ (blkAt s3 (i - 1)).size
    rw [hblk3_at, hmrgsize]
    omega
  · intro hlast
    show i - 1 + 1 = s3.blocks.length
    rw [hlen3]
    omega
  · rintro a ⟨t, ht, haddr, hal⟩
    have hti : t ≠ i := by
      intro he
      rw [he, hfree] at hal
      exact absurd hal (by simp)
    have htip : t ≠ i - 1 := by
      intro he
      rw [he, hfprev] at hal
      exact absurd hal (by simp)
    rcases Nat.lt_or_ge t (i - 1) with hlt | hge
    · refine ⟨t, ?_, ?_, ?_⟩
      · show t < s3.blocks.length
        rw [hlen3]
        omega
      · show addrB s3 t = a
        rw [haddr3_le t (by omega)]
        exact haddr
      · show (blkAt s3 t).alloc = true
        rw [hblk3_lt t hlt]
        exact hal
    · have hge2 : i + 1 ≤ t := by omega
      refine ⟨t - 1, ?_, ?_, ?_⟩
      · show t - 1 < s3.blocks.length
        rw [hlen3]
        omega
      · show addrB s3 (t - 1) = a
        rw [haddr3_gt (t - 1) (by omega), show t - 1 + 1 = t from by omega]
        exact haddr
      · show (blkAt s3 (t - 1)).alloc = true
        rw [hblk3_gt (t - 1) (by omega), show t - 1 + 1 = t from by omega]
        exact hal

theorem coalesce_inv_both (s : Heap) (i : Nat)
    (hroots : s.roots.length = seglist_length)
    (hsz : SizesOkL s.blocks)
    (hi : i < s.blocks.length)
    (hfree : (blkAt s i).alloc = false)
    (hPA : PrevAccExc s (i + 1))
    (hNA : NoAdjExc s i)
    (hBF : BucketFine s)
    (hFL : FreeListed s)
    (hND : RootsND s)
    (hn : (blkAt s (i + 1)).alloc = false)
    (hp : (blkAt s i).prevAlloc = false) :
    CoalescePost s i (coalesce_block s i) := by
  obtain ⟨hip, hfprev⟩ := prev_free_facts hPA hi hp
  have hipl : i - 1 < s.blocks.length := by omega
  have hi1 : i + 1 < s.blocks.length := by
    by_contra hcon
    push_neg at hcon
    rw [blkAt_alloc_of_ge hcon] at hn
    exact absurd hn (by simp)
  have hszi := sizesOk_at hsz hi
  have hszip := sizesOk_at hsz hipl
  have hszi1 := sizesOk_at hsz hi1
  have hchar : coalesce_block s i =
      (add_to_free
        { remove_from_free
            (remove_from_free (remove_from_free s (addrB s (i - 1))) (addrB s (i + 1)))
            (addrB s i) with
            blocks := s.blocks.take (i - 1) ++
              (⟨(blkAt s (i - 1)).size + (blkAt s i).size + (blkAt s (i + 1)).size,
                false, true⟩ : Blk) :: s.blocks.drop (i + 2) }
        (addrB
          { remove_from_free
              (remove_from_free (remove_from_free s (addrB s (i - 1))) (addrB s (i + 1)))
              (addrB s i) with
              blocks := s.blocks.take (i - 1) ++
                (⟨(blkAt s (i - 1)).size + (blkAt s i).size + (blkAt s (i + 1)).size,
                  false, true⟩ : Blk) :: s.blocks.drop (i + 2) } (i - 1)), i - 1) := by
    unfold coalesce_block
    rw [hn, hp]
    rfl
  rw [hchar]
  -- the three unlink steps
  have hFLP0 : FreeListedP s (fun _ => True) := fun a b c _ => hFL a b c
  obtain ⟨hr1, hBF1, hFL1, hND1, hNI1⟩ :=
    remove_from_free_invP s (i - 1) (fun _ => True) hroots hsz hipl hBF hFLP0 hND
  have haddr1a : addrB (remove_from_free s (addrB s (i - 1))) (i + 1) = addrB s (i + 1) := rfl
  obtain ⟨hr2, hBF2, hFL2, hND2, hNI2⟩ :=
    remove_from_free_invP (remove_from_free s (addrB s (i - 1))) (i + 1)
      (fun j => True ∧ j ≠ i - 1) hr1 hsz hi1 hBF1 hFL1 hND1
  rw [haddr1a] at hr2 hBF2 hFL2 hND2 hNI2
  have haddr2a : addrB
      (remove_from_free (remove_from_free s (addrB s (i - 1))) (addrB s (i + 1))) i =
      addrB s i := rfl
  obtain ⟨hr3, hBF3p, hFL3p, hND3p, hNI3p⟩ :=
    remove_from_free_invP
      (remove_from_free (remove_from_free s (addrB s (i - 1))) (addrB s (i + 1))) i
      (fun j => (True ∧ j ≠ i - 1) ∧ j ≠ i + 1) hr2 hsz hi hBF2 hFL2 hND2
  rw [haddr2a] at hr3 hBF3p hFL3p hND3p hNI3p
  have hNIprev : NotInRoots
      (remove_from_free
        (remove_from_free (remove_from_free s (addrB s (i - 1))) (addrB s (i + 1)))
        (addrB s i)) (addrB s (i - 1)) :=
    NotInRoots_remove _ _ _ (NotInRoots_remove _ _ _ hNI1)
  have hNInext : NotInRoots
      (remove_from_free
        (remove_from_free (remove_from_free s (addrB s (i - 1))) (addrB s (i + 1)))
        (addrB s i)) (addrB s (i + 1)) :=
    NotInRoots_remove _ _ _ hNI2
  -- abbreviations
  set mrg : Blk := (⟨(blkAt s (i - 1)).size + (blkAt s i).size + (blkAt s (i + 1)).size,
    false, true⟩ : Blk) with hmrg
  set s2 := remove_from_free
      (remove_from_free (remove_from_free s (addrB s (i - 1))) (addrB s (i + 1)))
      (addrB s i) with hs2
  set bl := s.blocks.take (i - 1) ++ mrg :: s.blocks.drop (i + 2) with hbl
  set s3 : Heap := { s2 with blocks := bl } with hs3
  have hs2b : s2.blocks = s.blocks := by rw [hs2]; rfl
  have hs2e : s2.epiPrev = s.epiPrev := by rw [hs2]; rfl
  have hs3b : s3.blocks = bl := by rw [hs3]
  have hs3e : s3.epiPrev = s.epiPrev := by rw [hs3]; exact hs2e
  have hs3r : s3.roots = s2.roots := by rw [hs3]
  have hmrgsize : mrg.size =
      (blkAt s (i - 1)).size + (blkAt s i).size + (blkAt s (i + 1)).size := by rw [hmrg]
  have hmrgprev : mrg.prevAlloc = true := by rw [hmrg]
  have hsum : sumSizes (s.blocks.take (i - 1)) + mrg.size =
      sumSizes (s.blocks.take (i + 2)) := by
    rw [hmrgsize]
    have t1 := sumSizes_take_succ (l := s.blocks) hipl
    have t2 := sumSizes_take_succ (l := s.blocks) hi
    have t3 := sumSizes_take_succ (l := s.blocks) hi1
    rw [← blkAt_eq] at t1 t2 t3
    have e1 : i - 1 + 1 = i := by omega
    rw [e1] at t1
    have t3' : sumSizes (s.blocks.take (i + 2)) =
        sumSizes (s.blocks.take (i + 1)) + (blkAt s (i + 1)).size := t3
    omega
  have hlen3 : s3.blocks.length = i - 1 + 1 + (s.blocks.length - (i + 2)) := by
    rw [hs3b, hbl]
    exact length_merge mrg (by omega) (by omega)
  have hblk3_lt : ∀ j, j < i - 1 → blkAt s3 j = blkAt s j := by
    intro j hj
    rw [blkAt_eq, hs3b, hbl, blkL_merge_lt mrg hj (by omega), ← blkAt_eq]
  have hblk3_at : blkAt s3 (i - 1) = mrg := by
    rw [blkAt_eq, hs3b, hbl, blkL_merge_at mrg (by omega)]
  have hblk3_gt : ∀ j, i - 1 < j → blkAt s3 j = blkAt s (j + 2) := by
    intro j hj
    rw [blkAt_eq, hs3b, hbl, blkL_merge_gt mrg (by omega) hj, ← blkAt_eq]
    have : i + 2 + (j - (i - 1) - 1) = j + 2 := by omega
    rw [this]
  have haddr3_le : ∀ j, j ≤ i - 1 → addrB s3 j = addrB s j := by
    intro j hj
    rw [addrB_eq, hs3b, hbl, addrL_merge_le mrg hj (by omega), ← addrB_eq]
  have haddr3_gt : ∀ j, i - 1 < j → addrB s3 j = addrB s (j + 2) := by
    intro j hj
    rw [addrB_eq, hs3b, hbl, addrL_merge_gt (by omega) (by omega) hsum hj, ← addrB_eq]
    have : i + 2 + (j - (i - 1) - 1) = j + 2 := by omega
    rw [this]
  have hsum3 : sumSizes s3.blocks = sumSizes s.blocks := by
    rw [hs3b, hbl]
    exact sumSizes_merge hsum
  have hbuck3 : ∀ j, bucket s3 j = bucket s2 j := by
    intro j
    rw [bucket, bucket, hs3r]
  have hroots3 : s3.roots.length = seglist_length := by
    rw [hs3r]
    exact hr3
  have hblk2 : ∀ j, blkAt s2 j = blkAt s j := by
    intro j
    rw [blkAt_eq, blkAt_eq, hs2b]
  have haddr2 : ∀ j, addrB s2 j = addrB s j := by
    intro j
    rw [addrB_eq, addrB_eq, hs2b]
  have hBF3 : BucketFine s3 := by
    have hNIrange : ∀ t, i - 1 ≤ t → t < i + 2 → NotInRoots s2 (addrB s2 t) := by
      intro t ht1 ht2
      by_cases h1 : t = i - 1
      · subst h1
        rw [haddr2]
        exact hNIprev
      · by_cases h2 : t = i
        · subst h2
          rw [haddr2]
          exact hNI3p
        · have : t = i + 1 := by omega
          subst this
          rw [haddr2]
          exact hNInext
    have hsum2 : sumSizes (s2.blocks.take (i - 1)) + mrg.size =
        sumSizes (s2.blocks.take (i + 2)) := by
      rw [hs2b]
      exact hsum
    have hsz2 : SizesOkL s2.blocks := by
      rw [hs2b]
      exact hsz
    have h := BucketFine_merge s2 mrg (by omega) (by rw [hs2b]; omega) hsum2 hsz2 hBF3p hNIrange
    have hrec : ({ s2 with blocks := s2.blocks.take (i - 1) ++ mrg :: s2.blocks.drop (i + 2) } : Heap) = s3 := by
      rw [hs3, hbl, hs2b]
    rwa [hrec] at h
  have hFL3 : FreeListedExc s3 (i - 1) := by
    intro jn hjn hfjn hne
    have hjn' : jn < s3.blocks.length := hjn
    rcases Nat.lt_or_ge jn (i - 1) with hlt | hge
    · have hb := hblk3_lt jn hlt
      have hmem := hFL3p jn (by rw [hs2b]; omega) (by rw [hblk2]; rw [hb] at hfjn; exact hfjn)
        ⟨⟨⟨trivial, by omega⟩, by omega⟩, by omega⟩
      rw [haddr3_le jn (by omega), hb]
      rw [haddr2, hblk2] at hmem
      rw [hbuck3]
      exact hmem
    · have hgt : i - 1 < jn := by omega
      have hb := hblk3_gt jn hgt
      have hjo : jn + 2 < s.blocks.length := by
        rw [hlen3] at hjn'
        omega
      have hmem := hFL3p (jn + 2) (by rw [hs2b]; omega)
        (by rw [hblk2]; rw [hb] at hfjn; exact hfjn) ⟨⟨⟨trivial, by omega⟩, by omega⟩, by omega⟩
      rw [haddr3_gt jn hgt, hb]
      rw [haddr2, hblk2] at hmem
      rw [hbuck3]
      exact hmem
  have hND3 : RootsND s3 := by
    intro j hj
    rw [hbuck3]
    exact hND3p j hj
  have hNI3 : NotInRoots s3 (addrB s3 (i - 1)) := by
    rw [haddr3_le (i - 1) le_rfl]
    intro j hj
    rw [hbuck3]
    exact hNIprev j hj
  have hsz3 : SizesOkL s3.blocks := by
    rw [hs3b, hbl]
    refine SizesOkL_merge hsz ?_ ?_
    · rw [hmrgsize]
      simp only [min_block_size] at *
      omega
    · rw [hmrgsize]
      simp only [dsize] at *
      omega
  have hfree3 : (blkAt s3 (i - 1)).alloc = false := by
    rw [hblk3_at]
  have hk3 : i - 1 < s3.blocks.length := by
    rw [hlen3]
    omega
  obtain ⟨hrF, hBFF, hFLF, hNDF⟩ :=
    add_to_free_inv s3 (i - 1) hroots3 hsz3 hk3 hfree3 hBF3 hFL3 hND3 hNI3
  have hprevm : i - 1 = 0 ∨ (2 ≤ i ∧ (blkAt s (i - 2)).alloc = true) := by
    cases Nat.eq_or_lt_of_le hip with
    | inl h1 => exact Or.inl (by omega)
    | inr h2 =>
      right
      refine ⟨by omega, ?_⟩
      have := hNA (i - 2) (by omega) (by omega) (by omega)
      rcases this with hl | hr
      · exact hl
      · have : i - 2 + 1 = i - 1 := by omega
        rw [this] at hr
        rw [hr] at hfprev
        exact absurd hfprev (by simp)
  have hPA3 : PrevAccExc s3 (i - 1 + 1) := by
    intro j hj hne
    rcases Nat.lt_or_ge j (i - 1) with hlt | hge
    · rw [slotPA_of_lt (by omega), hblk3_lt j hlt]
      cases j with
      | zero =>
        rw [paOf_zero]
        have h0 := prevAcc_at hPA (j := 0) (by omega) (by omega)
        rw [paOf_zero] at h0
        exact h0
      | succ n =>
        rw [paOf_succ, hblk3_lt n (by omega)]
        have := prevAcc_at hPA (j := n + 1) (by omega) (by omega)
        rw [this, paOf_succ]
    · rcases Nat.eq_or_lt_of_le hge with heq | hgt
      · -- j = i - 1 : the merged block's own slot
        subst heq
        rw [slotPA_of_lt (by omega), hblk3_at, hmrgprev]
        rcases hprevm with h0 | hal
        · rw [h0, paOf_zero]
        · obtain ⟨hi2, hal⟩ := hal
          have hj1 : i - 1 = (i - 2) + 1 := by omega
          rw [hj1, paOf_succ, hblk3_lt (i - 2) (by omega), hal]
      · -- j ≥ i + 1 (j = i is the exception)
        have hj2 : i + 1 ≤ j := by omega
        have hpa : paOf s3 j = (blkAt s (j + 1)).alloc := by
          cases j with
          | zero => omega
          | succ n =>
            rw [paOf_succ, hblk3_gt n (by omega)]
        rw [hpa]
        rcases Nat.lt_or_ge j s3.blocks.length with hjlt | hjge
        · rw [slotPA_of_lt hjlt, hblk3_gt j (by omega)]
          have hacc := prevAcc_at hPA (j := j + 2) (by rw [hlen3] at hjlt; omega) (by omega)
          rw [hacc, paOf_succ]
        · have hjeq : j = s3.blocks.length := by omega
          rw [slotPA_of_ge (by omega), hs3e]
          have hLj : j + 2 = s.blocks.length := by
            rw [hlen3] at hjeq
            omega
          have hepi := hPA s.blocks.length le_rfl (by omega)
          rw [slotPA_of_ge (by omega)] at hepi
          rw [hepi]
          have hL1 : s.blocks.length = (j + 1) + 1 := by omega
          rw [hL1, paOf_succ]
  have hNA3 : NoAdj s3 := by
    intro j hj
    rcases Nat.lt_or_ge (j + 1) (i - 1) with hlt | hge
    · rw [hblk3_lt j (by omega), hblk3_lt (j + 1) hlt]
      exact hNA j (by omega) (by omega) (by omega)
    · rcases Nat.eq_or_lt_of_le hge with heq | hgt
      · -- j + 1 = i - 1
        left
        rw [hblk3_lt j (by omega)]
        rcases hprevm with h0 | hal
        · omega
        · obtain ⟨hi2, hal⟩ := hal
          have : j = i - 2 := by omega
          rw [this]
          exact hal
      · rcases Nat.eq_or_lt_of_le hgt with heq2 | hgt2
        · -- j = i - 1 : merged block and its right neighbour
          right
          rw [hblk3_gt (j + 1) (by omega)]
          have : j + 1 + 2 = i + 2 := by omega
          rw [this]
          have hcond : i + 2 < s.blocks.length := by
            rw [hlen3] at hj
            omega
          have := hNA (i + 1) (by omega) (by omega) (by omega)
          rcases this with hl | hr
          · rw [hn] at hl
            exact absurd hl (by simp)
          · exact hr
        · -- j > i - 1
          have h1 := hblk3_gt j (by omega)
          have h2 := hblk3_gt (j + 1) (by omega)
          rw [h1, h2]
          have : j + 1 + 2 = j + 2 + 1 := rfl
          rw [this]
          have hcond : j + 2 + 1 < s.blocks.length := by
            rw [hlen3] at hj
            omega
          exact hNA (j + 2) (by omega) (by omega) (by omega)
  refine ⟨hrF, hk3, hfree3, hsz3, hPA3, hNA3, hBFF, hFLF, hNDF, hs3e, ?_, hsum3, ?_, ?_⟩
  · show (blkAt s i).size ≤ (blkAt s3 (i - 1)).size
    rw [hblk3_at, hmrgsize]
    omega
  · intro hlast
    exact absurd hlast (by omega)
  · rintro a ⟨t, ht, haddr, hal⟩
    have hti : t ≠ i := by
      intro he
      rw [he, hfree] at hal
      exact absurd hal (by simp)
    have htip : t ≠ i - 1 := by
      intro he
      rw [he, hfprev] at hal
      exact absurd hal (by simp)
    have hti1 : t ≠ i + 1 := by
      intro he
      rw [he, hn] at hal
      exact absurd hal (by simp)
    rcases Nat.lt_or_ge t (i - 1) with hlt | hge
    · refine ⟨t, ?_, ?_, ?_⟩
      · show t < s3.blocks.length
        rw [hlen3]
        omega
      · show addrB s3 t = a
        rw [haddr3_le t (by omega)]
        exact haddr
      · show (blkAt s3 t).alloc = true
        rw [hblk3_lt t hlt]
        exact hal
    · have hge2 : i + 2 ≤ t := by omega
      refine ⟨t - 2, ?_, ?_, ?_⟩
      · show t - 2 < s3.blocks.length
        rw [hlen3]
        omega
      · show addrB s3 (t - 2) = a
        rw [haddr3_gt (t - 2) (by omega), show t - 2 + 2 = t from by omega]
        exact haddr
      · show (blkAt s3 (t - 2)).alloc = true
        rw [hblk3_gt (t - 2) (by omega), show t - 2 + 2 = t from by omega]
        exact hal

theorem coalesce_inv (s : Heap) (i : Nat)
    (hroots : s.roots.length = seglist_length)
    (hsz : SizesOkL s.blocks)
    (hi : i < s.blocks.length)
    (hfree : (blkAt s i).alloc = false)
    (hPA : PrevAccExc s (i + 1))
    (hNA : NoAdjExc s i)
    (hBF : BucketFine s)
    (hFL : FreeListed s)
    (hND : RootsND s) :
    CoalescePost s i (coalesce_block s i) := by
  by_cases hn : (blkAt s (i + 1)).alloc = false
  · by_cases hp : (blkAt s i).prevAlloc = false
    · exact coalesce_inv_both s i hroots hsz hi hfree hPA hNA hBF hFL hND hn hp
    · exact coalesce_inv_next s i hroots hsz hi hfree hPA hNA hBF hFL hND hn
        (by revert hp; cases (blkAt s i).prevAlloc <;> simp)
  · by_cases hp : (blkAt s i).prevAlloc = false
    · exact coalesce_inv_prev s i hroots hsz hi hfree hPA hNA hBF hFL hND
        (by revert hn; cases (blkAt s (i + 1)).alloc <;> simp) hp
    · exact coalesce_inv_none s i hroots hsz hi hfree hPA hNA hBF hFL hND
        (by revert hn; cases (blkAt s (i + 1)).alloc <;> simp)
        (by revert hp; cases (blkAt s i).prevAlloc <;> simp)

theorem update_next_inv (s : Heap) (k : Nat) (b : Bool)
    (hroots : s.roots.length = seglist_length)
    (hsz : SizesOkL s.blocks)
    (hk : k < s.blocks.length)
    (hPA : PrevAccExc s (k + 1))
    (hNA : NoAdj s)
    (hBF : BucketFine s)
    (hFL : FreeListed s)
    (hND : RootsND s)
    (hb : b = (blkAt s k).alloc) :
    Inv (update_next s k b) := by
  have hr : (update_next s k b).roots = s.roots := update_next_roots s k b
  have hlen : (update_next s k b).blocks.length = s.blocks.length :=
    update_next_length s k b
  have hbuck : ∀ j, bucket (update_next s k b) j = bucket s j := fun j =>
    bucket_roots_congr hr j
  refine ⟨by rw [hr]; exact hroots, SizesOkL_update_next s k b hsz, ?_, ?_, ?_, ?_, ?_⟩
  · intro j hj
    rw [hlen] at hj
    rw [slotPA_update_next s b hk hj]
    by_cases hj1 : j = k + 1
    · subst hj1
      rw [if_pos rfl, paOf_succ, blkAt_update_next_alloc]
      exact hb
    · rw [if_neg hj1, hPA j hj hj1]
      cases j with
      | zero => rfl
      | succ n =>
        rw [paOf_succ, paOf_succ, blkAt_update_next_alloc]
  · intro j hj
    rw [hlen] at hj
    rw [blkAt_update_next_alloc, blkAt_update_next_alloc]
    exact hNA j hj
  · intro j hj a ha
    rw [hbuck] at ha
    obtain ⟨t, ht, haddr, hfree, hind⟩ := hBF j hj a ha
    exact ⟨t, by rw [hlen]; exact ht,
      by rw [addrB_update_next]; exact haddr,
      by rw [blkAt_update_next_alloc]; exact hfree,
      by rw [blkAt_update_next_size]; exact hind⟩
  · intro j hj hfree
    rw [hlen] at hj
    rw [blkAt_update_next_alloc] at hfree
    have := hFL j hj hfree
    rw [addrB_update_next, blkAt_update_next_size, hbuck]
    exact this
  · intro j hj
    rw [hbuck]
    exact hND j hj

/-! ### Address/index bridge for `cells` and `validPayload` -/

theorem mem_withAddrs {p : Nat × Blk} : ∀ (l : List Blk) (a : Nat),
    p ∈ withAddrs l a ↔
      ∃ j, j < l.length ∧ p.1 = a + sumSizes (l.take j) ∧ p.2 = blkL l j := by
  intro l
  induction l with
  | nil =>
    intro a
    simp [withAddrs]
  | cons b r ih =>
    intro a
    constructor
    · intro h
      rcases List.mem_cons.mp h with heq | hmem
      · refine ⟨0, by simp, ?_, ?_⟩
        · rw [heq]
          simp [sumSizes]
        · rw [heq]
          rfl
      · obtain ⟨j, hj, h1, h2⟩ := (ih (a + b.size)).mp hmem
        refine ⟨j + 1, by simpa using Nat.succ_lt_succ hj, ?_, ?_⟩
        · rw [h1, List.take_succ_cons]
          show a + b.size + sumSizes (r.take j) = a + sumSizes (b :: r.take j)
          simp [sumSizes]
          omega
        · rw [h2]
          rfl
    · rintro ⟨j, hj, h1, h2⟩
      cases j with
      | zero =>
        apply List.mem_cons.mpr
        left
        have hp1 : p.1 = a := by
          rw [h1]
          simp [sumSizes]
        have hp2 : p.2 = b := h2
        calc p = (p.1, p.2) := rfl
          _ = (a, b) := by rw [hp1, hp2]
      | succ j =>
        apply List.mem_cons.mpr
        right
        apply (ih (a + b.size)).mpr
        refine ⟨j, by simpa using hj, ?_, h2⟩
        rw [h1, List.take_succ_cons]
        show a + sumSizes (b :: r.take j) = a + b.size + sumSizes (r.take j)
        simp [sumSizes]
        omega

theorem mem_cells {s : Heap} {p : Nat × Blk} :
    p ∈ cells s ↔
      ∃ j, j < s.blocks.length ∧ p.1 = addrB s j ∧ p.2 = blkAt s j :=
  mem_withAddrs s.blocks heap_start_addr

theorem validPayload_iff {s : Heap} {bp : Nat} :
    validPayload s bp = true ↔
      ∃ j, j < s.blocks.length ∧ addrB s j + wsize = bp ∧
        (blkAt s j).alloc = true := by
  unfold validPayload
  rw [List.any_eq_true]
  constructor
  · rintro ⟨p, hp, hcond⟩
    obtain ⟨j, hj, h1, h2⟩ := mem_cells.mp hp
    rw [Bool.and_eq_true, beq_iff_eq] at hcond
    exact ⟨j, hj, by rw [← h1]; exact hcond.1, by rw [← h2]; exact hcond.2⟩
  · rintro ⟨j, hj, h1, h2⟩
    refine ⟨(addrB s j, blkAt s j), mem_cells.mpr ⟨j, hj, rfl, rfl⟩, ?_⟩
    rw [Bool.and_eq_true, beq_iff_eq]
    exact ⟨h1, h2⟩

/-! ### The `free` path preserves the invariant -/

theorem free_eq_at (s : Heap) (bp : Nat) {i : Nat}
    (h : idxOf s (payload_to_header bp) = i) :
    free s bp =
      update_next
        (coalesce_block
          (add_to_free
            (write_block s i (blkAt s i).size false (blkAt s i).prevAlloc)
            (addrB (write_block s i (blkAt s i).size false (blkAt s i).prevAlloc) i))
          i).1
        (coalesce_block
          (add_to_free
            (write_block s i (blkAt s i).size false (blkAt s i).prevAlloc)
            (addrB (write_block s i (blkAt s i).size false (blkAt s i).prevAlloc) i))
          i).2
        false := by
  subst h
  rfl

theorem free_inv (s : Heap) (bp : Nat)
    (hInv : Inv s) (hvp : validPayload s bp = true) :
    Inv (free s bp) := by
  obtain ⟨hroots, hsz, hPA, hNA, hBF, hFL, hND⟩ := hInv
  obtain ⟨i, hi, haddr, hal⟩ := validPayload_iff.mp hvp
  have hpth : payload_to_header bp = addrB s i := by
    unfold payload_to_header
    omega
  have hidx : idxOf s (payload_to_header bp) = i := by
    rw [hpth]
    exact idxOf_addrB hsz hi
  rw [free_eq_at s bp hidx]
  set v : Blk := ⟨(blkAt s i).size, false, (blkAt s i).prevAlloc⟩ with hv
  set s1 := write_block s i (blkAt s i).size false (blkAt s i).prevAlloc with hs1
  have hs1b : s1.blocks = s.blocks.set i v := rfl
  have hs1r : s1.roots = s.roots := rfl
  have hs1e : s1.epiPrev = s.epiPrev := rfl
  have hvsz : v.size = (blkL s.blocks i).size := rfl
  have hlen1 : s1.blocks.length = s.blocks.length := by
    rw [hs1b, List.length_set]
  have hblk1_ne : ∀ j, j ≠ i → blkAt s1 j = blkAt s j := by
    intro j hj
    rw [blkAt_eq, hs1b, blkL_set_ne (fun he => hj he.symm) v, ← blkAt_eq]
  have hblk1_eq : blkAt s1 i = v := by
    rw [blkAt_eq, hs1b, blkL_set_eq hi v]
  have haddr1 : ∀ j, addrB s1 j = addrB s j := by
    intro j
    rw [addrB_eq, hs1b, addrL_set hvsz j, ← addrB_eq]
  have hbuck1 : ∀ j, bucket s1 j = bucket s j := fun j => bucket_roots_congr hs1r j
  have hroots1 : s1.roots.length = seglist_length := by
    rw [hs1r]
    exact hroots
  have hsz1 : SizesOkL s1.blocks := by
    rw [hs1b]
    intro b hb
    rcases List.mem_or_eq_of_mem_set hb with hb | rfl
    · exact hsz b hb
    · have hmem : blkAt s i ∈ s.blocks := by
        rw [blkAt_eq, blkL_of_lt hi]
        exact List.getElem_mem hi
      show min_block_size ≤ (blkAt s i).size ∧ (blkAt s i).size % dsize = 0
      exact hsz _ hmem
  have hi1 : i < s1.blocks.length := by
    rw [hlen1]
    exact hi
  have hfree1 : (blkAt s1 i).alloc = false := by
    rw [hblk1_eq]
  have hBF1 : BucketFine s1 := by
    intro j hj a ha
    rw [hbuck1] at ha
    obtain ⟨t, ht, ha1, ha2, ha3⟩ := hBF j hj a ha
    have hti : t ≠ i := by
      intro he
      rw [he, hal] at ha2
      exact absurd ha2 (by simp)
    exact ⟨t, by rw [hlen1]; exact ht, by rw [haddr1]; exact ha1,
      by rw [hblk1_ne t hti]; exact ha2, by rw [hblk1_ne t hti]; exact ha3⟩
  have hFL1 : FreeListedExc s1 i := by
    intro j hj hfj hne
    rw [hlen1] at hj
    rw [hblk1_ne j hne] at hfj
    have := hFL j hj hfj
    rw [haddr1, hblk1_ne j hne, hbuck1]
    exact this
  have hND1 : RootsND s1 := by
    intro j hj
    rw [hbuck1]
    exact hND j hj
  have hNI1 : NotInRoots s1 (addrB s1 i) := by
    rw [haddr1]
    intro j hj hmem
    rw [hbuck1] at hmem
    obtain ⟨t, ht, ha1, ha2, _⟩ := hBF j hj _ hmem
    have hti : t = i :=
      addrL_inj hsz (by omega) (by omega) ha1
    rw [hti, hal] at ha2
    exact absurd ha2 (by simp)
  obtain ⟨hroots2, hBF2, hFL2, hND2⟩ :=
    add_to_free_inv s1 i hroots1 hsz1 hi1 hfree1 hBF1 hFL1 hND1 hNI1
  set s2 := add_to_free s1 (addrB s1 i) with hs2
  have hs2b : s2.blocks = s1.blocks := add_to_free_blocks s1 _
  have hs2e : s2.epiPrev = s1.epiPrev := add_to_free_epi s1 _
  have hblk2 : ∀ j, blkAt s2 j = blkAt s1 j := by
    intro j
    rw [blkAt_eq, blkAt_eq, hs2b]
  have hsz2 : SizesOkL s2.blocks := by
    rw [hs2b]
    exact hsz1
  have hi2 : i < s2.blocks.length := by
    rw [hs2b]
    exact hi1
  have hfree2 : (blkAt s2 i).alloc = false := by
    rw [hblk2]
    exact hfree1
  have hPA2 : PrevAccExc s2 (i + 1) := by
    intro j hj hne
    have hj' : j ≤ s.blocks.length := by
      rw [hs2b, hlen1] at hj
      exact hj
    have hslot : slotPA s2 j = slotPA s j := by
      unfold slotPA
      rw [hs2b, hlen1]
      by_cases hc : j < s.blocks.length
      · simp only [hc, if_true]
        rw [hblk2]
        by_cases hji : j = i
        · subst hji
          rw [hblk1_eq]
        · rw [hblk1_ne j hji]
      · simp only [hc, if_false]
        rw [hs2e, hs1e]
    have hpa : paOf s2 j = paOf s j := by
      cases j with
      | zero => rfl
      | succ n =>
        rw [paOf_succ, paOf_succ, hblk2, hblk1_ne n (by omega)]
    rw [hslot, hpa]
    exact hPA j hj'
  have hNA2 : NoAdjExc s2 i := by
    intro j hj hne1 hne2
    rw [hs2b, hlen1] at hj
    rw [hblk2, hblk2, hblk1_ne j hne1, hblk1_ne (j + 1) hne2]
    exact hNA j hj
  have hpost := coalesce_inv s2 i hroots2 hsz2 hi2 hfree2 hPA2 hNA2 hBF2 hFL2 hND2
  obtain ⟨hcr, hclt, hcfree, hcsz, hcPA, hcNA, hcBF, hcFL, hcND, _, _, _, _, _⟩ := hpost
  exact update_next_inv (coalesce_block s2 i).1 (coalesce_block s2 i).2 false
    hcr hcsz hclt hcPA hcNA hcBF hcFL hcND (by rw [hcfree])

theorem alloc_at_inv (s : Heap) (i asize : Nat)
    (hInv : Inv s)
    (hi : i < s.blocks.length)
    (hfree : (blkAt s i).alloc = false)
    (hasz : min_block_size ≤ asize)
    (hmod : asize % dsize = 0)
    (hfit : asize ≤ (blkAt s i).size) :
    Inv (update_next
      (split_block
        (write_block (remove_from_free s (addrB s i)) i
          (blkAt (remove_from_free s (addrB s i)) i).size true true)
        i asize)
      i true) ∧
    (∀ a, AllocAt s a → AllocAt
      (update_next
        (split_block
          (write_block (remove_from_free s (addrB s i)) i
            (blkAt (remove_from_free s (addrB s i)) i).size true true)
          i asize)
        i true) a) := by
  obtain ⟨hroots, hsz, hPA, hNA, hBF, hFL, hND⟩ := hInv
  obtain ⟨hr1, hBF1, hFL1, hND1, hNI1⟩ :=
    remove_from_free_inv s i hroots hsz hi hBF hFL hND
  set s1 := remove_from_free s (addrB s i) with hs1
  set v2 : Blk := ⟨(blkAt s i).size, true, true⟩ with hv2
  set s2 := write_block s1 i (blkAt s1 i).size true true with hs2
  have hs2b : s2.blocks = s.blocks.set i v2 := rfl
  have hs2r : s2.roots = s1.roots := rfl
  have hs2e : s2.epiPrev = s.epiPrev := rfl
  have hlen1 : s2.blocks.length = s.blocks.length := by
    rw [hs2b, List.length_set]
  have hblk2_ne : ∀ j, j ≠ i → blkAt s2 j = blkAt s j := by
    intro j hj
    rw [blkAt_eq, hs2b, blkL_set_ne (fun he => hj he.symm) v2, ← blkAt_eq]
  have hblk2_eq : blkAt s2 i = v2 := by
    rw [blkAt_eq, hs2b, blkL_set_eq hi v2]
  have hv2sz : v2.size = (blkL s.blocks i).size := rfl
  have haddr2 : ∀ j, addrB s2 j = addrB s j := by
    intro j
    rw [addrB_eq, hs2b, addrL_set hv2sz j, ← addrB_eq]
  have hbuck2 : ∀ j, bucket s2 j = bucket s1 j := fun j => bucket_roots_congr hs2r j
  have hroots2 : s2.roots.length = seglist_length := by
    rw [hs2r]
    exact hr1
  have hsz2 : SizesOkL s2.blocks := by
    rw [hs2b]
    intro b hb
    rcases List.mem_or_eq_of_mem_set hb with hb | rfl
    · exact hsz b hb
    · show min_block_size ≤ (blkAt s i).size ∧ (blkAt s i).size % dsize = 0
      exact sizesOk_at hsz hi
  have hi2 : i < s2.blocks.length := by
    rw [hlen1]
    exact hi
  have hs2S : (blkAt s2 i).size = (blkAt s i).size := by rw [hblk2_eq]
  have hprevpa : paOf s i = true := by
    rcases Nat.eq_zero_or_pos i with h0 | hpos
    · rw [h0, paOf_zero]
    · have e : i = (i - 1) + 1 := by omega
      rw [e, paOf_succ]
      rcases hNA (i - 1) (by omega) with hl | hr
      · exact hl
      · rw [← e, hfree] at hr
        exact absurd hr (by simp)
  have hslot2 : ∀ j, j ≤ s.blocks.length → j ≠ i → slotPA s2 j = slotPA s j := by
    intro j hj hne
    unfold slotPA
    rw [hlen1]
    by_cases hcj : j < s.blocks.length
    · simp only [hcj, if_true]
      rw [hblk2_ne j hne]
    · simp only [hcj, if_false]
      rw [hs2e]
  have hPA2 : PrevAccExc s2 (i + 1) := by
    intro j hj hne
    rw [hlen1] at hj
    have hpa2 : paOf s2 j = paOf s j := by
      cases j with
      | zero => rfl
      | succ n =>
        rw [paOf_succ, paOf_succ, hblk2_ne n (by omega)]
    by_cases hji : j = i
    · subst hji
      rw [slotPA_of_lt hi2, hblk2_eq, hpa2, hprevpa]
    · rw [hslot2 j hj hji, hpa2]
      exact hPA j hj
  have hNA2 : NoAdj s2 := by
    intro j hj
    rw [hlen1] at hj
    by_cases hji : j = i
    · left
      rw [hji, hblk2_eq]
    · by_cases hji1 : j + 1 = i
      · right
        rw [hji1, hblk2_eq]
      · rw [hblk2_ne j hji, hblk2_ne (j + 1) hji1]
        exact hNA j hj
  have hBF2 : BucketFine s2 := by
    intro j hj a ha
    rw [hbuck2] at ha
    obtain ⟨t, ht, ha1, ha2, ha3⟩ := hBF1 j hj a ha
    have hti : t ≠ i := by
      intro he
      have he2 : a = addrB s i := by
        rw [← ha1, he]
        rfl
      rw [he2] at ha
      exact hNI1 j hj ha
    refine ⟨t, by rw [hlen1]; exact ht, ?_, ?_, ?_⟩
    · rw [haddr2 t]
      exact ha1
    · rw [hblk2_ne t hti]
      exact ha2
    · rw [hblk2_ne t hti]
      exact ha3
  have hFL2 : FreeListed s2 := by
    intro j hj hfj
    rw [hlen1] at hj
    have hji : j ≠ i := by
      intro he
      rw [he, hblk2_eq] at hfj
      exact absurd hfj (by simp [hv2])
    rw [hblk2_ne j hji] at hfj
    have hm := hFL1 j hj hfj hji
    rw [haddr2 j, hblk2_ne j hji, hbuck2]
    exact hm
  have hND2 : RootsND s2 := by
    intro j hj
    rw [hbuck2]
    exact hND1 j hj
  have hNI2 : NotInRoots s2 (addrB s2 i) := by
    rw [haddr2 i]
    intro j hj hmem
    rw [hbuck2] at hmem
    exact hNI1 j hj hmem
  by_cases hc : min_block_size ≤ (blkAt s2 i).size - asize
  · have hchar : split_block s2 i asize =
        add_to_free
          { s2 with blocks := s2.blocks.take i ++
              (⟨asize, true, true⟩ : Blk) ::
                (⟨(blkAt s2 i).size - asize, false, true⟩ : Blk) ::
                s2.blocks.drop (i + 1) }
          (addrB
            { s2 with blocks := s2.blocks.take i ++
                (⟨asize, true, true⟩ : Blk) ::
                  (⟨(blkAt s2 i).size - asize, false, true⟩ : Blk) ::
                  s2.blocks.drop (i + 1) } (i + 1)) := by
      unfold split_block
      rw [if_pos hc]
    rw [hchar]
    set p1 : Blk := ⟨asize, true, true⟩ with hp1
    set p2 : Blk := ⟨(blkAt s2 i).size - asize, false, true⟩ with hp2
    have hshape : s2.blocks.take i ++ p1 :: p2 :: s2.blocks.drop (i + 1) =
        s2.blocks.take i ++ [p1, p2] ++ s2.blocks.drop (i + 1) := by
      simp
    rw [hshape]
    set bl := s2.blocks.take i ++ [p1, p2] ++ s2.blocks.drop (i + 1) with hbl
    set spl : Heap := { s2 with blocks := bl } with hspl
    have hmidlen : ([p1, p2] : List Blk).length = 2 := rfl
    have hmidsum : sumSizes (s2.blocks.take i) + sumSizes [p1, p2] =
        sumSizes (s2.blocks.take (i + 1)) := by
      have t := sumSizes_take_succ (l := s2.blocks) hi2
      have hbs : (blkL s2.blocks i).size = (blkAt s i).size := hs2S
      have hsum12 : sumSizes [p1, p2] = asize + ((blkAt s2 i).size - asize) := rfl
      rw [hsum12, t, hbs, hs2S]
      omega
    have hsplb : spl.blocks = bl := rfl
    have hsplr : spl.roots = s2.roots := rfl
    have hsple : spl.epiPrev = s.epiPrev := hs2e
    have hbuckS : ∀ j, bucket spl j = bucket s2 j := fun j => bucket_roots_congr hsplr j
    have hrootsS : spl.roots.length = seglist_length := by
      rw [hsplr]
      exact hroots2
    have hlenS : spl.blocks.length = s.blocks.length + 1 := by
      show bl.length = s.blocks.length + 1
      rw [hbl, length_splice (by omega) (by omega), hmidlen]
      rw [hlen1]
      omega
    have hblkS_lt : ∀ j, j < i → blkAt spl j = blkAt s2 j := by
      intro j hj
      show blkL bl j = blkAt s2 j
      rw [hbl, blkL_splice_lt hj (by omega), ← blkAt_eq]
    have hblkS_i : blkAt spl i = p1 := by
      show blkL bl i = p1
      rw [hbl]
      have h := @blkL_splice_mid s2.blocks [p1, p2] i (i + 1) 0 (by simp) (by omega)
      have e0 : i + 0 = i := rfl
      rw [e0] at h
      rw [h]
      rfl
    have hblkS_i1 : blkAt spl (i + 1) = p2 := by
      show blkL bl (i + 1) = p2
      rw [hbl]
      have h := @blkL_splice_mid s2.blocks [p1, p2] i (i + 1) 1 (by simp) (by omega)
      rw [h]
      rfl
    have hblkS_gt : ∀ j, i + 2 ≤ j → blkAt spl j = blkAt s2 (j - 1) := by
      intro j hj
      show blkL bl j = blkAt s2 (j - 1)
      rw [hbl]
      have h := @blkL_splice_ge s2.blocks [p1, p2] i (i + 1) (j - (i + 2)) (by omega)
      have e1 : i + ([p1, p2] : List Blk).length + (j - (i + 2)) = j := by
        rw [hmidlen]
        omega
      have e2 : i + 1 + (j - (i + 2)) = j - 1 := by omega
      rw [e1, e2] at h
      rw [h, ← blkAt_eq]
    have haddrS_le : ∀ j, j ≤ i → addrB spl j = addrB s2 j := by
      intro j hj
      show addrL bl j = addrB s2 j
      rw [hbl, addrL_splice_le hj (by omega), ← addrB_eq]
    have haddrS_i1 : addrB spl (i + 1) = addrB s2 i + asize := by
      show addrL bl (i + 1) = addrB s2 i + asize
      rw [hbl]
      have h := @addrL_splice_mid s2.blocks [p1, p2] i (i + 1) 1 (by simp) (by omega)
      have e : sumSizes (([p1, p2] : List Blk).take 1) = asize := rfl
      rw [e] at h
      rw [h, ← addrB_eq]
    have haddrS_gt : ∀ j, i + 2 ≤ j → addrB spl j = addrB s2 (j - 1) := by
      intro j hj
      show addrL bl j = addrB s2 (j - 1)
      rw [hbl]
      have h := @addrL_splice_ge s2.blocks [p1, p2] i (i + 1) (j - (i + 2))
        (by omega) (by omega) hmidsum
      have e1 : i + ([p1, p2] : List Blk).length + (j - (i + 2)) = j := by
        rw [hmidlen]
        omega
      have e2 : i + 1 + (j - (i + 2)) = j - 1 := by omega
      rw [e1, e2] at h
      rw [h, ← addrB_eq]
    have hszS : SizesOkL spl.blocks := by
      show SizesOkL bl
      rw [hbl]
      refine SizesOkL_splice hsz2 ?_
      intro b hb
      rcases List.mem_cons.mp hb with rfl | hb
      · exact ⟨hasz, hmod⟩
      rcases List.mem_cons.mp hb with rfl | hb
      · refine ⟨hc, ?_⟩
        show ((blkAt s2 i).size - asize) % dsize = 0
        have h1 : (blkAt s2 i).size % dsize = 0 := by
          rw [hs2S]
          exact (sizesOk_at hsz hi).2
        have h2 : asize ≤ (blkAt s2 i).size := by
          rw [hs2S]
          exact hfit
        simp only [dsize] at h1 hmod ⊢
        omega
      · simp at hb
    have hBFS : BucketFine spl := by
      have hNIr : ∀ t, i ≤ t → t < i + 1 → NotInRoots s2 (addrB s2 t) := by
        intro t ht1 ht2
        have he : t = i := by omega
        rw [he]
        exact hNI2
      exact BucketFine_splice s2 [p1, p2] (by omega) (by omega) hmidsum hsz2 hBF2 hNIr
    have hPAS : PrevAcc spl := by
      intro j hj
      rw [hlenS] at hj
      by_cases hj0 : j < i
      · rw [slotPA_of_lt (by rw [hlenS]; omega), hblkS_lt j hj0,
          ← slotPA_of_lt (show j < s2.blocks.length by omega),
          hPA2 j (by omega) (by omega)]
        cases j with
        | zero => rfl
        | succ n => rw [paOf_succ, paOf_succ, hblkS_lt n (by omega)]
      by_cases hj1 : j = i
      · rw [hj1, slotPA_of_lt (by rw [hlenS]; omega), hblkS_i]
        have hpp : p1.prevAlloc = true := rfl
        rw [hpp]
        rcases Nat.eq_zero_or_pos i with h0 | hpos
        · rw [h0, paOf_zero]
        · have e : i = (i - 1) + 1 := by omega
          rw [e, paOf_succ, hblkS_lt (i - 1) (by omega), hblk2_ne (i - 1) (by omega)]
          have hh := hprevpa
          rw [e, paOf_succ] at hh
          rw [hh]
      by_cases hj2 : j = i + 1
      · rw [hj2, slotPA_of_lt (by rw [hlenS]; omega), hblkS_i1, paOf_succ, hblkS_i]
      by_cases hj3 : j = i + 2
      · rw [hj3]
        have hrhs : paOf spl (i + 2) = false := by
          rw [paOf_succ, hblkS_i1]
        rw [hrhs]
        by_cases hcond : i + 1 < s.blocks.length
        · rw [slotPA_of_lt (by rw [hlenS]; omega)]
          have hb := hblkS_gt (i + 2) (by omega)
          rw [show i + 2 - 1 = i + 1 from by omega] at hb
          rw [hb, hblk2_ne (i + 1) (by omega)]
          have hh := hPA (i + 1) (by omega)
          rw [slotPA_of_lt (by omega), paOf_succ, hfree] at hh
          exact hh
        · rw [slotPA_of_ge (by rw [hlenS]; omega), hsple]
          have hh := hPA s.blocks.length le_rfl
          rw [slotPA_of_ge (by omega)] at hh
          have hL : s.blocks.length = i + 1 := by omega
          rw [hL, paOf_succ, hfree] at hh
          exact hh
      have hge3 : i + 3 ≤ j := by omega
      have hrhs : paOf spl j = (blkAt s (j - 2)).alloc := by
        have e : j = (j - 1) + 1 := by omega
        rw [e, paOf_succ]
        have hb := hblkS_gt (j - 1) (by omega)
        rw [show j - 1 - 1 = j - 2 from by omega] at hb
        rw [hb, hblk2_ne (j - 2) (by omega)]
        rw [show j - 1 + 1 - 2 = j - 2 from by omega]
      rw [hrhs]
      by_cases hcond : j < s.blocks.length + 1
      · rw [slotPA_of_lt (by rw [hlenS]; omega)]
        have hb := hblkS_gt j (by omega)
        rw [hb, hblk2_ne (j - 1) (by omega)]
        have hh := hPA (j - 1) (by omega)
        rw [slotPA_of_lt (by omega)] at hh
        have e : j - 1 = (j - 2) + 1 := by omega
        rw [e, paOf_succ] at hh
        rw [show j - 2 + 1 = j - 1 from by omega] at hh
        exact hh
      · rw [slotPA_of_ge (by rw [hlenS]; omega), hsple]
        have hh := hPA s.blocks.length le_rfl
        rw [slotPA_of_ge (by omega)] at hh
        have hL : s.blocks.length = (j - 2) + 1 := by omega
        rw [hL, paOf_succ] at hh
        exact hh
    have hNAS : NoAdj spl := by
      intro j hj
      rw [hlenS] at hj
      by_cases hj1 : j + 1 < i
      · rw [hblkS_lt j (by omega), hblkS_lt (j + 1) hj1]
        exact hNA2 j (by omega)
      by_cases hj2 : j + 1 = i
      · right
        rw [hj2, hblkS_i]
      by_cases hj3 : j = i
      · left
        rw [hj3, hblkS_i]
      by_cases hj4 : j = i + 1
      · right
        rw [hj4]
        have hb := hblkS_gt (i + 1 + 1) (by omega)
        rw [show i + 1 + 1 - 1 = i + 1 from by omega] at hb
        rw [hb, hblk2_ne (i + 1) (by omega)]
        have hcond : i + 1 < s.blocks.length := by omega
        rcases hNA i (by omega) with hl | hr
        · rw [hfree] at hl
          exact absurd hl (by simp)
        · exact hr
      have hge2 : i + 2 ≤ j := by omega
      have hb1 := hblkS_gt j (by omega)
      have hb2 := hblkS_gt (j + 1) (by omega)
      rw [show j + 1 - 1 = j from by omega] at hb2
      rw [hb1, hb2, hblk2_ne (j - 1) (by omega), hblk2_ne j (by omega)]
      have hh := hNA (j - 1) (by omega)
      rw [show j - 1 + 1 = j from by omega] at hh
      exact hh
    have hFLS : FreeListedExc spl (i + 1) := by
      intro jn hjn hfjn hne
      have hjn' : jn < s.blocks.length + 1 := by
        rw [← hlenS]
        exact hjn
      by_cases hlt : jn < i
      · have hb := hblkS_lt jn hlt
        rw [hb] at hfjn
        have hm := hFL2 jn (by omega) hfjn
        rw [haddrS_le jn (by omega), hb, hbuckS]
        exact hm
      by_cases heq : jn = i
      · exfalso
        rw [heq, hblkS_i] at hfjn
        exact absurd hfjn (by simp [hp1])
      have hge2 : i + 2 ≤ jn := by omega
      have hb := hblkS_gt jn hge2
      rw [hb] at hfjn
      have hm := hFL2 (jn - 1) (by rw [hlen1]; omega) hfjn
      rw [haddrS_gt jn hge2, hb, hbuckS]
      exact hm
    have hNDS : RootsND spl := by
      intro j hj
      rw [hbuckS]
      exact hND2 j hj
    have hNIS : NotInRoots spl (addrB spl (i + 1)) := by
      rw [haddrS_i1]
      intro j hj hmem
      rw [hbuckS] at hmem
      obtain ⟨t, ht, ha1, ha2, _⟩ := hBF2 j hj _ hmem
      have hSge : asize + min_block_size ≤ (blkAt s2 i).size := by
        have h2 : asize ≤ (blkAt s2 i).size := by
          rw [hs2S]
          exact hfit
        omega
      simp only [min_block_size] at hSge
      have htne : t ≠ i := by
        intro he
        rw [he, hblk2_eq] at ha2
        exact absurd ha2 (by simp [hv2])
      rcases Nat.lt_or_ge t i with hti | hti
      · have h1 : addrB s2 t ≤ addrB s2 i := by
          rw [addrB_eq, addrB_eq]
          exact addrL_mono (by omega)
        have hpos : 0 < asize := by
          have hh := hasz
          simp [min_block_size] at hh
          omega
        omega
      · have hti1 : i + 1 ≤ t := by omega
        have h1 : addrB s2 (i + 1) ≤ addrB s2 t := by
          rw [addrB_eq, addrB_eq]
          exact addrL_mono hti1
        have h2 : addrB s2 (i + 1) = addrB s2 i + (blkL s2.blocks i).size := by
          rw [addrB_eq, addrB_eq]
          exact addrL_succ hi2
        have h3 : (blkL s2.blocks i).size = (blkAt s2 i).size := rfl
        omega
    have hkS : i + 1 < spl.blocks.length := by
      rw [hlenS]
      omega
    have hfreeS : (blkAt spl (i + 1)).alloc = false := by
      rw [hblkS_i1]
    obtain ⟨hrF, hBFF, hFLF, hNDF⟩ :=
      add_to_free_inv spl (i + 1) hrootsS hszS hkS hfreeS hBFS hFLS hNDS hNIS
    set s3 := add_to_free spl (addrB spl (i + 1)) with hs3
    have hs3b : s3.blocks = spl.blocks := add_to_free_blocks spl _
    have hs3e : s3.epiPrev = spl.epiPrev := add_to_free_epi spl _
    have hbeq3 : ∀ t, blkAt s3 t = blkAt spl t := by
      intro t
      rw [blkAt_eq, blkAt_eq, hs3b]
    have hsz3 : SizesOkL s3.blocks := by
      rw [hs3b]
      exact hszS
    have hi3 : i < s3.blocks.length := by
      rw [hs3b, hlenS]
      omega
    have hPA3 : PrevAccExc s3 (i + 1) := by
      intro j hj hne
      rw [hs3b] at hj
      have hslot : slotPA s3 j = slotPA spl j := by
        unfold slotPA
        rw [hs3b, hbeq3 j, hs3e]
      have hpa : paOf s3 j = paOf spl j := by
        cases j with
        | zero => rfl
        | succ n => rw [paOf_succ, paOf_succ, hbeq3 n]
      rw [hslot, hpa]
      exact hPAS j hj
    have hNA3 : NoAdj s3 := by
      intro j hj
      rw [hs3b] at hj
      rw [hbeq3 j, hbeq3 (j + 1)]
      exact hNAS j hj
    have hb3 : true = (blkAt s3 i).alloc := by
      rw [hbeq3 i, hblkS_i]
    refine ⟨update_next_inv s3 i true hrF hsz3 hi3 hPA3 hNA3 hBFF hFLF hNDF hb3, ?_⟩
    rintro a ⟨t, ht, haddr, hal⟩
    have hti : t ≠ i := by
      intro he
      rw [he, hfree] at hal
      exact absurd hal (by simp)
    have haddr3 : ∀ u, addrB s3 u = addrB spl u := fun u => addrB_congr hs3b u
    rcases Nat.lt_or_ge t i with hlt | hge
    · refine ⟨t, ?_, ?_, ?_⟩
      · show t < (update_next s3 i true).blocks.length
        rw [update_next_length, hs3b, hlenS]
        omega
      · show addrB (update_next s3 i true) t = a
        rw [addrB_update_next, haddr3 t, haddrS_le t (by omega), haddr2 t]
        exact haddr
      · show (blkAt (update_next s3 i true) t).alloc = true
        rw [blkAt_update_next_alloc, hbeq3 t, hblkS_lt t hlt, hblk2_ne t hti]
        exact hal
    · have hgt : i < t := by omega
      refine ⟨t + 1, ?_, ?_, ?_⟩
      · show t + 1 < (update_next s3 i true).blocks.length
        rw [update_next_length, hs3b, hlenS]
        omega
      · show addrB (update_next s3 i true) (t + 1) = a
        rw [addrB_update_next, haddr3 (t + 1), haddrS_gt (t + 1) (by omega),
          show t + 1 - 1 = t from rfl, haddr2 t]
        exact haddr
      · show (blkAt (update_next s3 i true) (t + 1)).alloc = true
        rw [blkAt_update_next_alloc, hbeq3 (t + 1), hblkS_gt (t + 1) (by omega),
          show t + 1 - 1 = t from rfl, hblk2_ne t hti]
        exact hal
  · have hsn : split_block s2 i asize = s2 := by
      unfold split_block
      rw [if_neg hc]
    rw [hsn]
    refine ⟨update_next_inv s2 i true hroots2 hsz2 hi2 hPA2 hNA2 hBF2 hFL2 hND2
      (by rw [hblk2_eq]), ?_⟩
    rintro a ⟨t, ht, haddr, hal⟩
    have hti : t ≠ i := by
      intro he
      rw [he, hfree] at hal
      exact absurd hal (by simp)
    refine ⟨t, ?_, ?_, ?_⟩
    · show t < (update_next s2 i true).blocks.length
      rw [update_next_length, hlen1]
      exact ht
    · show addrB (update_next s2 i true) t = a
      rw [addrB_update_next, haddr2 t]
      exact haddr
    · show (blkAt (update_next s2 i true) t).alloc = true
      rw [blkAt_update_next_alloc, hblk2_ne t hti]
      exact hal

/-! ### Extending the heap -/

theorem round_up64_facts (n : Nat) (hlo : chunksize ≤ n) (hhi : n ≤ W - 16) :
    min_block_size ≤ round_up64 n dsize ∧ round_up64 n dsize % dsize = 0 ∧
      n ≤ round_up64 n dsize ∧ round_up64 n dsize ≤ W - 16 := by
  have hW : W = 18446744073709551616 := by norm_num [W]
  simp only [round_up64, dsize, chunksize, min_block_size, hW] at hlo hhi ⊢
  omega

theorem blkL_append_lt {l : List Blk} {j : Nat} (b : Blk) (hj : j < l.length) :
    blkL (l ++ [b]) j = blkL l j := by
  rw [blkL_eq_getElem?, blkL_eq_getElem?, List.getElem?_append]
  simp only [hj, if_true]

theorem blkL_append_len {l : List Blk} (b : Blk) :
    blkL (l ++ [b]) l.length = b := by
  rw [blkL_eq_getElem?, List.getElem?_concat_length]
  rfl

theorem addrL_append_le {l : List Blk} {j : Nat} (b : Blk) (hj : j ≤ l.length) :
    addrL (l ++ [b]) j = addrL l j := by
  unfold addrL
  rw [List.take_append_eq_append_take, show j - l.length = 0 from by omega]
  simp

theorem extend_heap_fail (s : Heap) (size : Nat) :
    extend_heap s size false = (s, none) := rfl

theorem extend_heap_inv (s : Heap) (size : Nat)
    (hInv : Inv s) (hlo : chunksize ≤ size) (hhi : size ≤ W - 16) :
    Inv (extend_heap s size true).1 ∧
    ∃ k, (extend_heap s size true).2 = some k ∧
      k < (extend_heap s size true).1.blocks.length ∧
      (blkAt (extend_heap s size true).1 k).alloc = false ∧
      size ≤ (blkAt (extend_heap s size true).1 k).size ∧
      (∀ a, AllocAt s a → AllocAt (extend_heap s size true).1 a) ∧
      heapEnd (extend_heap s size true).1 = heapEnd s + round_up64 size dsize := by
  obtain ⟨hroots, hsz, hPA, hNA, hBF, hFL, hND⟩ := hInv
  obtain ⟨hr16, hrmod, hrge, hrub⟩ := round_up64_facts size hlo hhi
  set i := s.blocks.length with hiL
  set newb : Blk := ⟨round_up64 size dsize, false, s.epiPrev⟩ with hnb
  set s1 : Heap := { s with blocks := s.blocks ++ [newb] } with hs1
  have hchar : extend_heap s size true =
      ((coalesce_block { add_to_free s1 (addrB s1 i) with epiPrev := false } i).1,
        some (coalesce_block { add_to_free s1 (addrB s1 i) with epiPrev := false } i).2) :=
    rfl
  rw [hchar]
  set s2 := add_to_free s1 (addrB s1 i) with hs2
  set s3 : Heap := { s2 with epiPrev := false } with hs3
  have hs1b : s1.blocks = s.blocks ++ [newb] := rfl
  have hlen1 : s1.blocks.length = i + 1 := by
    rw [hs1b]
    simp
  have hblk1_lt : ∀ j, j < i → blkAt s1 j = blkAt s j := by
    intro j hj
    rw [blkAt_eq, blkAt_eq, hs1b, blkL_append_lt newb hj]
  have hblk1_at : blkAt s1 i = newb := by
    rw [blkAt_eq, hs1b]
    exact blkL_append_len newb
  have haddr1 : ∀ j, j ≤ i → addrB s1 j = addrB s j := by
    intro j hj
    rw [addrB_eq, addrB_eq, hs1b, addrL_append_le newb hj]
  have hroots1 : s1.roots.length = seglist_length := hroots
  have hsz1 : SizesOkL s1.blocks := by
    rw [hs1b]
    intro b hb
    rcases List.mem_append.mp hb with hb | hb
    · exact hsz b hb
    · rcases List.mem_cons.mp hb with rfl | hb
      · exact ⟨hr16, hrmod⟩
      · simp at hb
  have hi1 : i < s1.blocks.length := by
    rw [hlen1]
    omega
  have hfree1 : (blkAt s1 i).alloc = false := by
    rw [hblk1_at]
  have hBF1 : BucketFine s1 := by
    intro j hj a ha
    obtain ⟨t, ht, ha1, ha2, ha3⟩ := hBF j hj a ha
    exact ⟨t, by rw [hlen1]; omega, by rw [haddr1 t (by omega)]; exact ha1,
      by rw [hblk1_lt t ht]; exact ha2, by rw [hblk1_lt t ht]; exact ha3⟩
  have hFL1 : FreeListedExc s1 i := by
    intro j hj hfj hne
    rw [hlen1] at hj
    have hjlt : j < i := by omega
    rw [hblk1_lt j hjlt] at hfj
    have hm := hFL j hjlt hfj
    rw [haddr1 j (by omega), hblk1_lt j hjlt]
    exact hm
  have hND1 : RootsND s1 := hND
  have hNI1 : NotInRoots s1 (addrB s1 i) := by
    intro j hj hmem
    obtain ⟨t, ht, ha1, _, _⟩ := hBF j hj _ hmem
    have he : addrB s1 i = addrB s i := haddr1 i le_rfl
    rw [he] at ha1
    have hstr := addrL_strict hsz (show t < i from by omega)
      (show i ≤ s.blocks.length from by omega)
    rw [← addrB_eq, ← addrB_eq] at hstr
    simp only [min_block_size] at hstr
    omega
  obtain ⟨hroots2, hBF2, hFL2, hND2⟩ :=
    add_to_free_inv s1 i hroots1 hsz1 hi1 hfree1 hBF1 hFL1 hND1 hNI1
  have hroots3 : s3.roots.length = seglist_length := hroots2
  have hsz3 : SizesOkL s3.blocks := hsz1
  have hi3 : i < s3.blocks.length := hi1
  have hfree3 : (blkAt s3 i).alloc = false := hfree1
  have hBF3 : BucketFine s3 := hBF2
  have hFL3 : FreeListed s3 := hFL2
  have hND3 : RootsND s3 := hND2
  have hlen3 : s3.blocks.length = i + 1 := hlen1
  have hblk3_lt : ∀ j, j < i → blkAt s3 j = blkAt s j := hblk1_lt
  have hblk3_at : blkAt s3 i = newb := hblk1_at
  have haddr3 : ∀ j, j ≤ i → addrB s3 j = addrB s j := haddr1
  have hPA3 : PrevAccExc s3 (i + 1) := by
    intro j hj hne
    rw [hlen3] at hj
    have hji : j ≤ i := by omega
    have hpa : paOf s3 j = paOf s j := by
      cases j with
      | zero => rfl
      | succ n => rw [paOf_succ, paOf_succ, hblk3_lt n (by omega)]
    rcases Nat.eq_or_lt_of_le hji with heq | hlt
    · rw [heq] at hpa ⊢
      rw [slotPA_of_lt (by omega), hblk3_at, hpa]
      show s.epiPrev = paOf s i
      have hh := hPA i le_rfl
      rw [slotPA_of_ge (by omega)] at hh
      exact hh
    · rw [slotPA_of_lt (by omega), hblk3_lt j hlt, hpa]
      have hh := hPA j (by omega)
      rw [slotPA_of_lt (by omega)] at hh
      exact hh
  have hNA3 : NoAdjExc s3 i := by
    intro j hj hne1 hne2
    rw [hlen3] at hj
    have hj1 : j + 1 < i := by omega
    rw [hblk3_lt j (by omega), hblk3_lt (j + 1) hj1]
    exact hNA j (by omega)
  have hpost := coalesce_inv s3 i hroots3 hsz3 hi3 hfree3 hPA3 hNA3 hBF3 hFL3 hND3
  obtain ⟨hcr, hclt, hcfree, hcsz, hcPA, hcNA, hcBF, hcFL, hcND, hcepi, hcsize, hcsum,
    hclast, hcpres⟩ := hpost
  have hlastq : (coalesce_block s3 i).2 + 1 = (coalesce_block s3 i).1.blocks.length :=
    hclast (by rw [hlen3])
  have hPAfull : PrevAcc (coalesce_block s3 i).1 := by
    intro j hj
    by_cases hje : j = (coalesce_block s3 i).2 + 1
    · rw [hje, slotPA_of_ge (by omega), hcepi, paOf_succ, hcfree]
    · exact hcPA j hj hje
  refine ⟨⟨hcr, hcsz, hPAfull, hcNA, hcBF, hcFL, hcND⟩,
    (coalesce_block s3 i).2, rfl, hclt, hcfree, ?_, ?_, ?_⟩
  · show size ≤ (blkAt (coalesce_block s3 i).1 (coalesce_block s3 i).2).size
    have hnewsz : (blkAt s3 i).size = round_up64 size dsize := by
      rw [hblk3_at]
    rw [hnewsz] at hcsize
    omega
  · intro a ha
    apply hcpres
    obtain ⟨t, ht, haddr, hal⟩ := ha
    exact ⟨t, by rw [hlen3]; omega, by rw [haddr3 t (by omega)]; exact haddr,
      by rw [hblk3_lt t ht]; exact hal⟩
  · show heapEnd (coalesce_block s3 i).1 = heapEnd s + round_up64 size dsize
    unfold heapEnd
    rw [hcsum]
    have hs3sum : sumSizes s3.blocks = sumSizes s.blocks + round_up64 size dsize := by
      show sumSizes s1.blocks = _
      rw [hs1b, sumSizes_append]
      have he : sumSizes [newb] = round_up64 size dsize := rfl
      rw [he]
    rw [hs3sum]
    omega

/-! ### Soundness of the fit search -/

theorem findFitLoop_sound (s : Heap) (asize : Nat) (L : List Nat) :
    ∀ (lst : List Nat) (mn : Option Nat) (checked : Nat) (a : Nat),
      findFitLoop s asize lst mn checked = some a →
      (∀ m, mn = some m → m ∈ L ∧ asize ≤ sizeAt s m) →
      (∀ x ∈ lst, x ∈ L) →
      a ∈ L ∧ asize ≤ sizeAt s a := by
  intro lst
  induction lst with
  | nil =>
    intro mn checked a hres hmn _
    exact hmn a hres
  | cons x rest ih =>
    intro mn checked a hres hmn hsub
    have hstep : ∀ (v : Option Nat),
        (∀ m, v = some m → m ∈ L ∧ asize ≤ sizeAt s m) →
        (if 9 < checked then v else findFitLoop s asize rest v (checked + 1)) = some a →
        a ∈ L ∧ asize ≤ sizeAt s a := by
      intro v hv hres'
      by_cases hchk : 9 < checked
      · rw [if_pos hchk] at hres'
        exact hv a hres'
      · rw [if_neg hchk] at hres'
        exact ih v (checked + 1) a hres' hv
          (fun y hy => hsub y (List.mem_cons_of_mem x hy))
    cases mn with
    | none =>
      have hres' : (if asize ≤ sizeAt s x then
          (if 9 < checked then some x else findFitLoop s asize rest (some x) (checked + 1))
          else findFitLoop s asize rest none (checked + 1)) = some a := hres
      by_cases hfit : asize ≤ sizeAt s x
      · rw [if_pos hfit] at hres'
        exact hstep (some x)
          (fun m hm => by
            injection hm with h
            exact h ▸ ⟨hsub x (by simp), hfit⟩) hres'
      · rw [if_neg hfit] at hres'
        exact ih none (checked + 1) a hres' (fun m hm => by simp at hm)
          (fun y hy => hsub y (List.mem_cons_of_mem x hy))
    | some m0 =>
      have hres' : (if asize ≤ sizeAt s x then
          (if 9 < checked then (if sizeAt s x < sizeAt s m0 then some x else some m0)
            else findFitLoop s asize rest
              (if sizeAt s x < sizeAt s m0 then some x else some m0) (checked + 1))
          else findFitLoop s asize rest (some m0) (checked + 1)) = some a := hres
      by_cases hfit : asize ≤ sizeAt s x
      · rw [if_pos hfit] at hres'
        by_cases hlt : sizeAt s x < sizeAt s m0
        · rw [if_pos hlt] at hres'
          exact hstep (some x)
            (fun m hm => by
              injection hm with h
              exact h ▸ ⟨hsub x (by simp), hfit⟩) hres'
        · rw [if_neg hlt] at hres'
          exact hstep (some m0)
            (fun m hm => by
              injection hm with h
              exact h ▸ hmn m0 rfl) hres'
      · rw [if_neg hfit] at hres'
        exact ih (some m0) (checked + 1) a hres' hmn
          (fun y hy => hsub y (List.mem_cons_of_mem x hy))

theorem find_fit_sound {s : Heap} {asize a : Nat}
    (hsz : SizesOkL s.blocks) (hBF : BucketFine s)
    (hf : find_fit s asize = some a) :
    ∃ t, t < s.blocks.length ∧ addrB s t = a ∧ (blkAt s t).alloc = false ∧
      asize ≤ (blkAt s t).size := by
  have hf0 : (match findFitLoop s asize (bucket s (get_seglist_ind asize)) none 0 with
      | some a0 => some a0
      | none => (List.range' (get_seglist_ind asize + 1)
          (seglist_length - (get_seglist_ind asize + 1))).findSome?
          (fun j => (bucket s j).head?)) = some a := hf
  cases hloop : findFitLoop s asize (bucket s (get_seglist_ind asize)) none 0 with
  | some b =>
    rw [hloop] at hf0
    have hf2 : some b = some a := hf0
    have hab : b = a := by
      injection hf2
    obtain ⟨hmem, hfit⟩ := findFitLoop_sound s asize (bucket s (get_seglist_ind asize))
      (bucket s (get_seglist_ind asize)) none 0 b hloop
      (fun m hm => by simp at hm) (fun x hx => hx)
    obtain ⟨t, ht, ha1, ha2, ha3⟩ := hBF (get_seglist_ind asize)
      (get_seglist_ind_lt _) b hmem
    refine ⟨t, ht, by rw [ha1, hab], ha2, ?_⟩
    rw [← ha1, sizeAt_addrB hsz ht] at hfit
    exact hfit
  | none =>
    rw [hloop] at hf0
    have hf2 : (List.range' (get_seglist_ind asize + 1)
        (seglist_length - (get_seglist_ind asize + 1))).findSome?
        (fun j => (bucket s j).head?) = some a := hf0
    obtain ⟨j, hjmem, hjhead⟩ := List.exists_of_findSome?_eq_some hf2
    rw [List.mem_range'_1] at hjmem
    have hjlt : j < seglist_length := by
      have := get_seglist_ind_lt asize
      omega
    have hjgt : get_seglist_ind asize < j := by omega
    have hmem : a ∈ bucket s j := by
      cases hbj : bucket s j with
      | nil =>
        rw [hbj] at hjhead
        simp at hjhead
      | cons y ys =>
        rw [hbj] at hjhead
        have hy : y = a := by
          injection hjhead
        rw [hy]
        exact List.mem_cons_self a ys
    obtain ⟨t, ht, ha1, ha2, ha3⟩ := hBF j hjlt a hmem
    refine ⟨t, ht, ha1, ha2, ?_⟩
    exact size_ge_of_seglist_ind_gt (by rw [ha3]; exact hjgt)

/-! ### `malloc` preserves the invariant -/

theorem asize_facts (size : Nat) :
    min_block_size ≤ max (round_up64 ((size + wsize) % W) dsize) min_block_size ∧
    max (round_up64 ((size + wsize) % W) dsize) min_block_size % dsize = 0 ∧
    max (round_up64 ((size + wsize) % W) dsize) min_block_size ≤ W - 16 := by
  have hW : W = 18446744073709551616 := by norm_num [W]
  have hr : round_up64 ((size + wsize) % W) dsize % dsize = 0 ∧
      round_up64 ((size + wsize) % W) dsize ≤ W - 16 := by
    simp only [round_up64, dsize, hW]
    omega
  have hmin : min_block_size % dsize = 0 := by
    norm_num [min_block_size, dsize]
  have hminub : min_block_size ≤ W - 16 := by
    rw [hW]
    norm_num [min_block_size]
  rcases Nat.le_total (round_up64 ((size + wsize) % W) dsize) min_block_size with h | h
  · rw [Nat.max_eq_right h]
    exact ⟨le_rfl, hmin, hminub⟩
  · rw [Nat.max_eq_left h]
    exact ⟨h, hr.1, hr.2⟩

theorem chunksize_ub : chunksize ≤ W - 16 := by
  norm_num [chunksize, W]

theorem payload_aligned {s : Heap} (hsz : SizesOkL s.blocks) (i : Nat) :
    header_to_payload (addrB s i) % dsize = 0 := by
  unfold header_to_payload addrB heap_start_addr wsize
  have hdvd : (16 : Nat) ∣ sumSizes (s.blocks.take i) := by
    rw [sumSizes_eq_map_sum]
    apply List.dvd_sum
    intro x hx
    rw [List.mem_map] at hx
    obtain ⟨b, hb, rfl⟩ := hx
    have := hsz b (List.mem_of_mem_take hb)
    simp only [dsize] at this
    omega
  simp only [dsize]
  omega

theorem malloc_inv (s : Heap) (size : Nat) (ok : Bool) (hInv : Inv s) :
    Inv (malloc s size ok).1 ∧ (∀ a, AllocAt s a → AllocAt (malloc s size ok).1 a) ∧
    ∀ bp, (malloc s size ok).2 = some bp → bp % dsize = 0 := by
  by_cases hs0 : size = 0
  · have hch : malloc s size ok = (s, none) := by
      unfold malloc
      rw [if_pos hs0]
    refine ⟨by rw [hch]; exact hInv, fun a ha => by rw [hch]; exact ha, ?_⟩
    intro bp hbp
    rw [hch] at hbp
    exact absurd hbp (by simp)
  · obtain ⟨hA16, hAmod, hAub⟩ := asize_facts size
    have hsz := hInv.2.1
    cases hff : find_fit s (max (round_up64 ((size + wsize) % W) dsize) min_block_size) with
    | some b =>
      obtain ⟨t, ht, haddr, hfreet, hfitt⟩ := find_fit_sound hsz hInv.2.2.2.2.1 hff
      have hidx : idxOf s b = t := by
        rw [← haddr]
        exact idxOf_addrB hsz ht
      have hchar : malloc s size ok =
          (update_next
            (split_block
              (write_block (remove_from_free s (addrB s (idxOf s b))) (idxOf s b)
                (blkAt (remove_from_free s (addrB s (idxOf s b))) (idxOf s b)).size
                true true)
              (idxOf s b)
              (max (round_up64 ((size + wsize) % W) dsize) min_block_size))
            (idxOf s b) true,
          some (header_to_payload (addrB
            (update_next
              (split_block
                (write_block (remove_from_free s (addrB s (idxOf s b))) (idxOf s b)
                  (blkAt (remove_from_free s (addrB s (idxOf s b))) (idxOf s b)).size
                  true true)
                (idxOf s b)
                (max (round_up64 ((size + wsize) % W) dsize) min_block_size))
              (idxOf s b) true) (idxOf s b)))) := by
        simp only [malloc]
        rw [if_neg hs0, hff]
      rw [hidx] at hchar
      obtain ⟨hinv4, hpres4⟩ := alloc_at_inv s t
        (max (round_up64 ((size + wsize) % W) dsize) min_block_size)
        hInv ht hfreet hA16 hAmod hfitt
      refine ⟨by rw [hchar]; exact hinv4, fun a ha => by rw [hchar]; exact hpres4 a ha, ?_⟩
      intro bp hbp
      rw [hchar] at hbp
      injection hbp with hbp2
      rw [← hbp2]
      exact payload_aligned hinv4.2.1 t
    | none =>
      cases ok with
      | false =>
        have hchar : malloc s size false = (s, none) := by
          simp only [malloc]
          rw [if_neg hs0, hff, extend_heap_fail]
        refine ⟨by rw [hchar]; exact hInv, fun a ha => by rw [hchar]; exact ha, ?_⟩
        intro bp hbp
        rw [hchar] at hbp
        exact absurd hbp (by simp)
      | true =>
        obtain ⟨hinvE, k, hk2, hklt, hkfree, hksz, hkpres, _⟩ :=
          extend_heap_inv s
            (max (max (round_up64 ((size + wsize) % W) dsize) min_block_size) chunksize)
            hInv (le_max_right _ _) (max_le hAub chunksize_ub)
        have hchar : malloc s size true =
            (update_next
              (split_block
                (write_block
                  (remove_from_free
                    (extend_heap s
                      (max (max (round_up64 ((size + wsize) % W) dsize) min_block_size)
                        chunksize) true).1
                    (addrB
                      (extend_heap s
                        (max (max (round_up64 ((size + wsize) % W) dsize) min_block_size)
                          chunksize) true).1 k))
                  k
                  (blkAt
                    (remove_from_free
                      (extend_heap s
                        (max (max (round_up64 ((size + wsize) % W) dsize) min_block_size)
                          chunksize) true).1
                      (addrB
                        (extend_heap s
                          (max (max (round_up64 ((size + wsize) % W) dsize)
                            min_block_size) chunksize) true).1 k))
                    k).size
                  true true)
                k
                (max (round_up64 ((size + wsize) % W) dsize) min_block_size))
              k true,
            some (header_to_payload (addrB
              (update_next
                (split_block
                  (write_block
                    (remove_from_free
                      (extend_heap s
                        (max (max (round_up64 ((size + wsize) % W) dsize) min_block_size)
                          chunksize) true).1
                      (addrB
                        (extend_heap s
                          (max (max (round_up64 ((size + wsize) % W) dsize)
                            min_block_size) chunksize) true).1 k))
                    k
                    (blkAt
                      (remove_from_free
                        (extend_heap s
                          (max (max (round_up64 ((size + wsize) % W) dsize)
                            min_block_size) chunksize) true).1
                        (addrB
                          (extend_heap s
                            (max (max (round_up64 ((size + wsize) % W) dsize)
                              min_block_size) chunksize) true).1 k))
                      k).size
                    true true)
                  k
                  (max (round_up64 ((size + wsize) % W) dsize) min_block_size))
                k true) k))) := by
          simp only [malloc]
          rw [if_neg hs0, hff, hk2]
        obtain ⟨hinv4, hpres4⟩ := alloc_at_inv
          (extend_heap s
            (max (max (round_up64 ((size + wsize) % W) dsize) min_block_size)
              chunksize) true).1 k
          (max (round_up64 ((size + wsize) % W) dsize) min_block_size)
          hinvE hklt hkfree hA16 hAmod (le_trans (le_max_left _ _) hksz)
        refine ⟨by rw [hchar]; exact hinv4,
          fun a ha => by rw [hchar]; exact hpres4 a (hkpres a ha), ?_⟩
        intro bp hbp
        rw [hchar] at hbp
        injection hbp with hbp2
        rw [← hbp2]
        exact payload_aligned hinv4.2.1 k

/-! ### Initialization and the reachable-state invariant -/

theorem init_state_inv :
    Inv { blocks := [], epiPrev := true, roots := free_root_init } := by
  have hbuck0 : ∀ j,
      bucket { blocks := [], epiPrev := true, roots := free_root_init } j = [] := by
    intro j
    show (free_root_init.getD j []) = []
    rw [free_root_init, List.getD_eq_getElem?_getD, List.getElem?_replicate]
    by_cases h : j < seglist_length <;> simp [h]
  refine ⟨rfl, ?_, ?_, ?_, ?_, ?_, ?_⟩
  · intro b hb
    simp at hb
  · intro j hj
    have hj0 : j = 0 := by
      simpa using hj
    rw [hj0]
    rfl
  · intro j hj
    simp at hj
  · intro j hj a ha
    rw [hbuck0 j] at ha
    simp at ha
  · intro j hj
    simp at hj
  · intro j hj
    rw [hbuck0 j]
    exact List.nodup_nil

theorem mm_init_inv (ok1 ok2 : Bool) (s : Heap) (h : mm_init ok1 ok2 = some s) :
    Inv s := by
  cases ok1 with
  | false =>
    have hch : mm_init false ok2 = none := rfl
    rw [hch] at h
    exact absurd h (by simp)
  | true =>
    cases ok2 with
    | false =>
      have hch : mm_init true false = none := by
        simp only [mm_init]
        rw [extend_heap_fail]
        rfl
      rw [hch] at h
      exact absurd h (by simp)
    | true =>
      obtain ⟨hinvE, k, hk2, _, _, _, _, _⟩ :=
        extend_heap_inv { blocks := [], epiPrev := true, roots := free_root_init }
          chunksize init_state_inv le_rfl chunksize_ub
      have hch : mm_init true true =
          some (extend_heap { blocks := [], epiPrev := true, roots := free_root_init }
            chunksize true).1 := by
        simp only [mm_init]
        rw [hk2]
        rfl
      rw [hch] at h
      have hse : (extend_heap { blocks := [], epiPrev := true, roots := free_root_init }
          chunksize true).1 = s := by
        injection h
      rw [← hse]
      exact hinvE

theorem applyOp_inv (s : Heap) (op : Op) (hInv : Inv s) : Inv (applyOp s op) := by
  cases op with
  | alloc size ok => exact (malloc_inv s size ok hInv).1
  | release bp =>
    show Inv (if validPayload s bp then free s bp else s)
    by_cases h : validPayload s bp = true
    · rw [if_pos h]
      exact free_inv s bp hInv h
    · rw [if_neg h]
      exact hInv
  | realloc ptr size ok =>
    cases ptr with
    | none =>
      show Inv (realloc s none size ok).1
      by_cases hs0 : size = 0
      · have hch : (realloc s none size ok).1 = s := by
          simp only [realloc]
          rw [if_pos hs0]
          rfl
        rw [hch]
        exact hInv
      · have hch : (realloc s none size ok).1 = (malloc s size ok).1 := by
          simp only [realloc]
          rw [if_neg hs0]
        rw [hch]
        exact (malloc_inv s size ok hInv).1
    | some bp =>
      show Inv (if validPayload s bp then (realloc s (some bp) size ok).1 else s)
      by_cases hv : validPayload s bp = true
      · rw [if_pos hv]
        by_cases hs0 : size = 0
        · have hch : (realloc s (some bp) size ok).1 = free s bp := by
            simp only [realloc]
            rw [if_pos hs0]
            rfl
          rw [hch]
          exact free_inv s bp hInv hv
        · cases hp2 : (malloc s size ok).2 with
          | none =>
            have hch : (realloc s (some bp) size ok).1 = (malloc s size ok).1 := by
              simp only [realloc]
              rw [if_neg hs0, hp2]
            rw [hch]
            exact (malloc_inv s size ok hInv).1
          | some newp =>
            have hch : (realloc s (some bp) size ok).1 = free (malloc s size ok).1 bp := by
              simp only [realloc]
              rw [if_neg hs0, hp2]
            obtain ⟨hminv, hmpres, _⟩ := malloc_inv s size ok hInv
            have hvp2 : validPayload (malloc s size ok).1 bp = true := by
              obtain ⟨j, hj, haddr, hal⟩ := validPayload_iff.mp hv
              obtain ⟨t, ht, haddr2, hal2⟩ := hmpres (addrB s j) ⟨j, hj, rfl, hal⟩
              exact validPayload_iff.mpr ⟨t, ht, by rw [haddr2]; exact haddr, hal2⟩
            rw [hch]
            exact free_inv _ bp hminv hvp2
      · rw [if_neg hv]
        exact hInv
  | calloc elements size ok =>
    show Inv (calloc s elements size ok).1
    by_cases he : elements = 0
    · have hch : (calloc s elements size ok).1 = s := by
        simp only [calloc]
        rw [if_pos he]
      rw [hch]
      exact hInv
    · cases hbe : ((elements * size) % W / elements != size) with
      | true =>
        have hch : (calloc s elements size ok).1 = s := by
          simp only [calloc]
          rw [if_neg he, hbe, if_pos rfl]
        rw [hch]
        exact hInv
      | false =>
        cases hp2 : (malloc s ((elements * size) % W) ok).2 with
        | none =>
          have hch : (calloc s elements size ok).1 =
              (malloc s ((elements * size) % W) ok).1 := by
            simp only [calloc]
            rw [if_neg he, hbe, if_neg (by simp), hp2]
          rw [hch]
          exact (malloc_inv s ((elements * size) % W) ok hInv).1
        | some bp =>
          have hch : (calloc s elements size ok).1 =
              (malloc s ((elements * size) % W) ok).1 := by
            simp only [calloc]
            rw [if_neg he, hbe, if_neg (by simp), hp2]
          rw [hch]
          exact (malloc_inv s ((elements * size) % W) ok hInv).1

theorem reachable_inv {s : Heap} (h : Reachable s) : Inv s := by
  induction h with
  | init ok1 ok2 s hinit => exact mm_init_inv ok1 ok2 s hinit
  | step s op _ ih => exact applyOp_inv s op ih

/-! ### Header-bit helpers for the mini-block pointer encoding -/

theorem testBit_false_of_mod8 {p : Nat} (hp : p % 8 = 0) {i : Nat} (hi : i < 3) :
    p.testBit i = false := by
  rw [Nat.testBit_to_div_mod]
  simp only [decide_eq_false_iff_not]
  interval_cases i <;> omega

theorem maskW_testBit (i : Nat) :
    (W - 8).testBit i = (decide (3 ≤ i) && decide (i < 64)) := by
  have h : W - 8 = (2 ^ 61 - 1) <<< 3 := by norm_num [W, Nat.shiftLeft_eq]
  rw [h, Nat.testBit_shiftLeft, Nat.testBit_two_pow_sub_one]
  rcases Nat.lt_or_ge i 3 with h3 | h3
  · rw [decide_eq_false (by omega : ¬ 3 ≤ i)]
    simp
  · rw [decide_eq_true h3]
    have hiff : (i - 3 < 61) ↔ (i < 64) := by omega
    rw [decide_eq_decide.mpr hiff]

theorem sevenBit_false {i : Nat} (h3 : 3 ≤ i) : (7 : Nat).testBit i = false := by
  apply Nat.testBit_eq_false_of_lt
  calc (7 : Nat) < 2 ^ 3 := by norm_num
    _ ≤ 2 ^ i := Nat.pow_le_pow_right (by norm_num) h3

/-- C5: for every size that is a positive multiple of 16, the bucket
classifier returns clamp(floor(log2(size / 16)), 0, 14), and a block of
exactly the minimum size (16) is classified into bucket 0. -/
theorem get_seglist_ind_clamp_log (size : Nat) (hpos : 0 < size)
    (hmod : size % dsize = 0) :
    get_seglist_ind size = min (Nat.log 2 (size / dsize)) (seglist_length - 1) ∧
    get_seglist_ind min_block_size = 0 := by
  refine ⟨?_, rfl⟩
  unfold get_seglist_ind
  by_cases h16 : size ≤ 16
  · have he : size = 16 := by
      simp only [dsize] at hmod
      omega
    subst he
    norm_num [dsize, seglist_length]
  · simp only [h16, if_false]
    have hge : 32 ≤ size := by
      simp only [dsize] at hmod
      omega
    have hsh : size >>> 4 = size / dsize := by
      rw [Nat.shiftRight_eq_div_pow]
      norm_num [dsize]
    rw [hsh, countIter_eq_log2 (size / dsize)
      (by simp only [dsize]; omega)]
    simp

theorem get_seglist_ind_clamp_log_witness :
    0 < 48 ∧ 48 % dsize = 0 ∧
      (get_seglist_ind 48 = min (Nat.log 2 (48 / dsize)) (seglist_length - 1) ∧
        get_seglist_ind min_block_size = 0) :=
  ⟨by decide, by decide, get_seglist_ind_clamp_log 48 (by decide) (by decide)⟩

/-- C6 counterexample: the mini-block predecessor IS stored in the block's
header word — `set_prev_free` writes the predecessor pointer into the header
bits above the low three and `get_prev_free` reads it straight back, so the
header changes and no scan from the root is involved.  This contradicts the
claim that no predecessor field is stored in the block and that the
predecessor is reconstructed by scanning forward from the bucket's root. -/
theorem mini_prev_stored_counterexample :
    get_prev_free_hdr (set_prev_free_hdr (pack min_block_size false false) 4096) = 4096 ∧
    set_prev_free_hdr (pack min_block_size false false) 4096 ≠
      pack min_block_size false false ∧
    set_prev_free_hdr (pack min_block_size false false) 4096 ≠
      set_prev_free_hdr (pack min_block_size false false) 8192 := by
  decide

/-- C6 (amended): mm.c stores a free mini block's predecessor pointer in the
header bits above the low three (`set_prev_free`: `(header & 0x7) | prev`),
and `get_prev_free` (`header & ~0x7`) recovers exactly that pointer while the
low three status bits are preserved. -/
theorem set_prev_free_stores_pointer (h p : Nat) (hp : p % 8 = 0) (hpw : p < W) :
    get_prev_free_hdr (set_prev_free_hdr h p) = p ∧
    set_prev_free_hdr h p &&& 7 = h &&& 7 := by
  constructor
  · unfold get_prev_free_hdr set_prev_free_hdr
    apply Nat.eq_of_testBit_eq
    intro i
    rw [Nat.testBit_and, Nat.testBit_or, Nat.testBit_and, maskW_testBit]
    rcases Nat.lt_or_ge i 3 with h3 | h3
    · rw [testBit_false_of_mod8 hp h3, decide_eq_false (by omega : ¬ 3 ≤ i)]
      simp
    · rcases Nat.lt_or_ge i 64 with h64 | h64
      · rw [sevenBit_false h3, decide_eq_true h3, decide_eq_true h64]
        simp
      · have hpb : p.testBit i = false := by
          apply Nat.testBit_eq_false_of_lt
          calc p < W := hpw
            _ = 2 ^ 64 := rfl
            _ ≤ 2 ^ i := Nat.pow_le_pow_right (by norm_num) h64
        rw [hpb, decide_eq_false (by omega : ¬ i < 64)]
        simp
  · unfold set_prev_free_hdr
    apply Nat.eq_of_testBit_eq
    intro i
    rw [Nat.testBit_and, Nat.testBit_or, Nat.testBit_and]
    rcases Nat.lt_or_ge i 3 with h3 | h3
    · rw [testBit_false_of_mod8 hp h3]
      cases hb : h.testBit i <;> cases hs : (7 : Nat).testBit i <;> simp
    · rw [sevenBit_false h3]
      simp

theorem set_prev_free_stores_pointer_witness :
    4096 % 8 = 0 ∧ 4096 < W ∧
      (get_prev_free_hdr (set_prev_free_hdr (pack min_block_size false false) 4096) =
          4096 ∧
        set_prev_free_hdr (pack min_block_size false false) 4096 &&& 7 =
          pack min_block_size false false &&& 7) :=
  ⟨by decide, by decide,
    set_prev_free_stores_pointer (pack min_block_size false false) 4096
      (by decide) (by decide)⟩

/-- C10: a header word with the mini bit (bit 2) set always reports the
minimum block size (16) from `get_size`, whatever its size bits hold — in
particular after `set_prev_free` overwrites the upper bits with a predecessor
pointer. -/
theorem get_size_mini_bit (w : Nat) (hm : extract_mini w = true) :
    get_size w = min_block_size ∧
    ∀ p, get_size (set_prev_free_hdr w p) = min_block_size := by
  have hmain : ∀ v : Nat, extract_mini v = true → get_size v = min_block_size := by
    intro v hv
    unfold get_size
    rw [hv, if_pos rfl]
  refine ⟨hmain w hm, ?_⟩
  intro p
  apply hmain
  rw [extract_mini_eq_testBit] at hm ⊢
  unfold set_prev_free_hdr
  rw [Nat.testBit_or, Nat.testBit_and, hm]
  have h7 : (7 : Nat).testBit 2 = true := by decide
  rw [h7]
  simp

theorem get_size_mini_bit_witness :
    extract_mini (pack min_block_size false false) = true ∧
      (get_size (pack min_block_size false false) = min_block_size ∧
        ∀ p, get_size (set_prev_free_hdr (pack min_block_size false false) p) =
          min_block_size) :=
  ⟨by decide, get_size_mini_bit (pack min_block_size false false) (by decide)⟩

/-- C3: every successful `malloc` call on a reachable heap returns a payload
address that is a multiple of 16. -/
theorem malloc_payload_aligned (s : Heap) (size : Nat) (ok : Bool) (bp : Nat)
    (hreach : Reachable s) (hpos : 0 < size)
    (hret : (malloc s size ok).2 = some bp) :
    bp % dsize = 0 :=
  (malloc_inv s size ok (reachable_inv hreach)).2.2 bp hret

theorem malloc_payload_aligned_witness :
    (malloc heap0 10 true).2 = some 16 ∧ (16 : Nat) % dsize = 0 :=
  ⟨by decide, malloc_payload_aligned heap0 10 true 16
    (Reachable.init true true heap0 rfl) (by decide) (by decide)⟩

/-- C1: on every reachable heap state, walking the implicit block list never
finds two consecutive free blocks. -/
theorem reachable_no_adjacent_free (s : Heap) (hreach : Reachable s) :
    noAdjFree s = true := by
  have hNA := (reachable_inv hreach).2.2.2.1
  unfold noAdjFree
  rw [List.all_eq_true]
  intro i hi
  rw [List.mem_range] at hi
  by_cases hlast : i + 1 = s.blocks.length
  · simp [hlast]
  · rcases hNA i (by omega) with h | h
    · simp [h]
    · simp [h]

theorem reachable_no_adjacent_free_witness : noAdjFree heap1 = true :=
  reachable_no_adjacent_free heap1
    (Reachable.step heap0 (Op.alloc 10 true) (Reachable.init true true heap0 rfl))

/-! ### The bucket walk and the implicit walk agree -/

theorem bucket_eq_getElem {s : Heap} {j : Nat} (hj : j < s.roots.length) :
    bucket s j = s.roots[j] := by
  unfold bucket
  rw [List.getD_eq_getElem?_getD, List.getElem?_eq_getElem hj]
  rfl

theorem mem_freeAddrList {s : Heap} {a : Nat} :
    a ∈ freeAddrList s ↔
      ∃ t, t < s.blocks.length ∧ addrB s t = a ∧ (blkAt s t).alloc = false := by
  unfold freeAddrList
  rw [List.mem_map]
  constructor
  · rintro ⟨p, hp, rfl⟩
    rw [List.mem_filter] at hp
    obtain ⟨hpc, hpf⟩ := hp
    obtain ⟨t, ht, h1, h2⟩ := mem_cells.mp hpc
    refine ⟨t, ht, h1.symm, ?_⟩
    rw [h2] at hpf
    simpa using hpf
  · rintro ⟨t, ht, h1, h2⟩
    refine ⟨(addrB s t, blkAt s t), ?_, h1⟩
    rw [List.mem_filter]
    exact ⟨mem_cells.mpr ⟨t, ht, rfl, rfl⟩, by simp [h2]⟩

theorem mem_joinRoots {s : Heap} (hroots : s.roots.length = seglist_length) {a : Nat} :
    a ∈ joinRoots s ↔ ∃ j, j < seglist_length ∧ a ∈ bucket s j := by
  unfold joinRoots
  rw [List.mem_flatten]
  constructor
  · rintro ⟨l, hl, hal⟩
    obtain ⟨j, hj, he⟩ := List.getElem_of_mem hl
    refine ⟨j, by omega, ?_⟩
    rw [bucket_eq_getElem hj, he]
    exact hal
  · rintro ⟨j, hj, haj⟩
    have hjl : j < s.roots.length := by omega
    refine ⟨bucket s j, ?_, haj⟩
    rw [bucket_eq_getElem hjl]
    exact List.getElem_mem hjl

theorem joinRoots_nodup {s : Heap} (hroots : s.roots.length = seglist_length)
    (hsz : SizesOkL s.blocks) (hBF : BucketFine s) (hND : RootsND s) :
    (joinRoots s).Nodup := by
  unfold joinRoots
  rw [List.nodup_flatten]
  constructor
  · intro l hl
    obtain ⟨j, hj, he⟩ := List.getElem_of_mem hl
    rw [← he, ← bucket_eq_getElem hj]
    exact hND j (by omega)
  · rw [List.pairwise_iff_getElem]
    intro i j hi hj hij a hai haj
    rw [← bucket_eq_getElem hi] at hai
    rw [← bucket_eq_getElem hj] at haj
    obtain ⟨t1, ht1, he1, hf1, hg1⟩ := hBF i (by omega) a hai
    obtain ⟨t2, ht2, he2, hf2, hg2⟩ := hBF j (by omega) a haj
    have ht12 : t1 = t2 :=
      addrL_inj hsz (by omega) (by omega) (he1.trans he2.symm)
    rw [ht12, hg2] at hg1
    omega

theorem withAddrs_addr_le : ∀ (l : List Blk) (c : Nat), ∀ q ∈ withAddrs l c, c ≤ q.1 := by
  intro l
  induction l with
  | nil =>
    intro c q hq
    simp [withAddrs] at hq
  | cons b r ih =>
    intro c q hq
    rcases List.mem_cons.mp hq with rfl | hq
    · exact le_rfl
    · exact le_trans (Nat.le_add_right c b.size) (ih (c + b.size) q hq)

theorem withAddrs_pairwise : ∀ (l : List Blk) (c : Nat), (∀ b ∈ l, 0 < b.size) →
    (withAddrs l c).Pairwise (fun p q => p.1 < q.1) := by
  intro l
  induction l with
  | nil =>
    intro c _
    simp [withAddrs]
  | cons b r ih =>
    intro c h
    show List.Pairwise _ ((c, b) :: withAddrs r (c + b.size))
    rw [List.pairwise_cons]
    refine ⟨?_, ih (c + b.size) (fun x hx => h x (by simp [hx]))⟩
    intro q hq
    have h1 := withAddrs_addr_le r (c + b.size) q hq
    have hb := h b (by simp)
    show c < q.1
    omega

theorem freeAddrList_nodup {s : Heap} (hsz : SizesOkL s.blocks) :
    (freeAddrList s).Nodup := by
  unfold freeAddrList
  have hp := withAddrs_pairwise s.blocks heap_start_addr (fun b hb => by
    have := (hsz b hb).1
    simp only [min_block_size] at this
    omega)
  have hf : ((cells s).filter fun p => !p.2.alloc).Pairwise (fun p q => p.1 < q.1) :=
    hp.filter _
  show (((cells s).filter fun p => !p.2.alloc).map Prod.fst).Pairwise (fun a b => a ≠ b)
  rw [List.pairwise_map]
  exact hf.imp (fun h => Nat.ne_of_lt h)

theorem count_free_eq_length (s : Heap) : count_free s = (freeAddrList s).length := by
  unfold count_free freeAddrList cells
  rw [List.length_map]
  have h : ∀ (l : List Blk) (c : Nat),
      ((withAddrs l c).filter fun p => !p.2.alloc).length =
        l.countP (fun b => !b.alloc) := by
    intro l
    induction l with
    | nil =>
      intro c
      simp [withAddrs]
    | cons b r ih =>
      intro c
      show (((c, b) :: withAddrs r (c + b.size)).filter fun p => !p.2.alloc).length = _
      rw [List.filter_cons]
      by_cases hb : (!b.alloc) = true
      · rw [if_pos (show (!(c, b).2.alloc) = true from hb), List.length_cons, ih,
          List.countP_cons_of_pos (fun x => !x.alloc) r hb]
      · rw [if_neg (show ¬ (!(c, b).2.alloc) = true from hb), ih,
          List.countP_cons_of_neg (fun x => !x.alloc) r (by simpa using hb)]
  exact (h s.blocks heap_start_addr).symm

theorem explicit_count_eq_length (s : Heap) :
    explicit_count s = (joinRoots s).length := by
  unfold explicit_count joinRoots
  rw [List.length_flatten]

/-- C2: on every reachable heap state the free count found by walking all
fifteen buckets equals the free count found by walking the implicit list,
and the two walks find the same set of blocks. -/
theorem reachable_free_walks_agree (s : Heap) (hreach : Reachable s) :
    explicit_count s = count_free s ∧ sameFreeSet s = true := by
  obtain ⟨hroots, hsz, hPA, hNA, hBF, hFL, hND⟩ := reachable_inv hreach
  have hmem : ∀ a, a ∈ joinRoots s ↔ a ∈ freeAddrList s := by
    intro a
    rw [mem_joinRoots hroots, mem_freeAddrList]
    constructor
    · rintro ⟨j, hj, haj⟩
      obtain ⟨t, ht, h1, h2, _⟩ := hBF j hj a haj
      exact ⟨t, ht, h1, h2⟩
    · rintro ⟨t, ht, h1, h2⟩
      refine ⟨get_seglist_ind (blkAt s t).size, get_seglist_ind_lt _, ?_⟩
      rw [← h1]
      exact hFL t ht h2
  have hndJ : (joinRoots s).Nodup := joinRoots_nodup hroots hsz hBF hND
  have hndF : (freeAddrList s).Nodup := freeAddrList_nodup hsz
  constructor
  · rw [explicit_count_eq_length, count_free_eq_length]
    have hfin : (joinRoots s).toFinset = (freeAddrList s).toFinset := by
      ext a
      simp only [List.mem_toFinset]
      exact hmem a
    calc (joinRoots s).length = (joinRoots s).toFinset.card :=
          (List.toFinset_card_of_nodup hndJ).symm
      _ = (freeAddrList s).toFinset.card := by rw [hfin]
      _ = (freeAddrList s).length := List.toFinset_card_of_nodup hndF
  · unfold sameFreeSet
    rw [Bool.and_eq_true, List.all_eq_true, List.all_eq_true]
    constructor
    · intro a ha
      exact List.elem_iff.mpr ((hmem a).mp ha)
    · intro a ha
      exact List.elem_iff.mpr ((hmem a).mpr ha)

theorem reachable_free_walks_agree_witness :
    explicit_count heap0 = count_free heap0 ∧ sameFreeSet heap0 = true :=
  reachable_free_walks_agree heap0 (Reachable.init true true heap0 rfl)

/-! ### Completeness of the fit search -/

theorem sizesOk_iff {s : Heap} : sizesOk s = true ↔ SizesOkL s.blocks := by
  unfold sizesOk SizesOkL sizeOkB
  rw [List.all_eq_true]
  constructor
  · intro h b hb
    have := h b hb
    simpa using this
  · intro h b hb
    have := h b hb
    simp [this.1, this.2]

theorem bucketBlocksOk_BucketFine {s : Heap}
    (hbk : bucketBlocksOk s = true) : BucketFine s := by
  intro j hj a ha
  unfold bucketBlocksOk at hbk
  rw [List.all_eq_true] at hbk
  have h1 := hbk j (by rw [List.mem_range]; exact hj)
  rw [List.all_eq_true] at h1
  have h2 := h1 a ha
  rw [List.any_eq_true] at h2
  obtain ⟨p, hp, hcond⟩ := h2
  simp only [Bool.and_eq_true, beq_iff_eq, Bool.not_eq_true'] at hcond
  obtain ⟨⟨hpa, hpal⟩, hpj⟩ := hcond
  obtain ⟨t, ht, h3, h4⟩ := mem_cells.mp hp
  refine ⟨t, ht, ?_, ?_, ?_⟩
  · rw [← h3]
    exact hpa
  · rw [← h4]
    exact hpal
  · rw [← h4]
    exact hpj

theorem findFitLoop_some_preserved (s : Heap) (asize : Nat) :
    ∀ (lst : List Nat) (m0 : Nat) (checked : Nat),
      findFitLoop s asize lst (some m0) checked ≠ none := by
  intro lst
  induction lst with
  | nil =>
    intro m0 checked h
    exact absurd h (by simp [findFitLoop])
  | cons x rest ih =>
    intro m0 checked h
    have h2 : (if asize ≤ sizeAt s x then
        (if 9 < checked then (if sizeAt s x < sizeAt s m0 then some x else some m0)
          else findFitLoop s asize rest
            (if sizeAt s x < sizeAt s m0 then some x else some m0) (checked + 1))
        else findFitLoop s asize rest (some m0) (checked + 1)) = none := h
    by_cases hfit : asize ≤ sizeAt s x
    · rw [if_pos hfit] at h2
      by_cases hchk : 9 < checked
      · rw [if_pos hchk] at h2
        by_cases hlt : sizeAt s x < sizeAt s m0
        · rw [if_pos hlt] at h2
          exact absurd h2 (by simp)
        · rw [if_neg hlt] at h2
          exact absurd h2 (by simp)
      · rw [if_neg hchk] at h2
        by_cases hlt : sizeAt s x < sizeAt s m0
        · rw [if_pos hlt] at h2
          exact ih x (checked + 1) h2
        · rw [if_neg hlt] at h2
          exact ih m0 (checked + 1) h2
    · rw [if_neg hfit] at h2
      exact ih m0 (checked + 1) h2

theorem findFitLoop_none (s : Heap) (asize : Nat) :
    ∀ (lst : List Nat) (checked : Nat),
      findFitLoop s asize lst none checked = none →
      ∀ x ∈ lst, sizeAt s x < asize := by
  intro lst
  induction lst with
  | nil =>
    intro checked _ x hx
    simp at hx
  | cons x rest ih =>
    intro checked hres
    have hres' : (if asize ≤ sizeAt s x then
        (if 9 < checked then some x else findFitLoop s asize rest (some x) (checked + 1))
        else findFitLoop s asize rest none (checked + 1)) = none := hres
    by_cases hfit : asize ≤ sizeAt s x
    · rw [if_pos hfit] at hres'
      by_cases hchk : 9 < checked
      · rw [if_pos hchk] at hres'
        exact absurd hres' (by simp)
      · rw [if_neg hchk] at hres'
        exact absurd hres' (findFitLoop_some_preserved s asize rest x (checked + 1))
    · rw [if_neg hfit] at hres'
      intro y hy
      rcases List.mem_cons.mp hy with rfl | hy
      · omega
      · exact ih (checked + 1) hres' y hy

theorem find_fit_none {s : Heap} {asize : Nat} (hf : find_fit s asize = none) :
    noFitFrom s asize = true := by
  have hf0 : (match findFitLoop s asize (bucket s (get_seglist_ind asize)) none 0 with
      | some a0 => some a0
      | none => (List.range' (get_seglist_ind asize + 1)
          (seglist_length - (get_seglist_ind asize + 1))).findSome?
          (fun j => (bucket s j).head?)) = none := hf
  cases hloop : findFitLoop s asize (bucket s (get_seglist_ind asize)) none 0 with
  | some b =>
    rw [hloop] at hf0
    exact absurd hf0 (by simp)
  | none =>
    rw [hloop] at hf0
    have hempty : ∀ j, j ∈ List.range' (get_seglist_ind asize + 1)
        (seglist_length - (get_seglist_ind asize + 1)) → bucket s j = [] := by
      intro j hj
      rw [List.findSome?_eq_none_iff] at hf0
      exact List.head?_eq_none_iff.mp (hf0 j hj)
    have hhome := findFitLoop_none s asize (bucket s (get_seglist_ind asize)) 0 hloop
    unfold noFitFrom
    rw [List.all_eq_true]
    intro j hj
    rw [List.all_eq_true]
    intro a ha
    rw [List.mem_range'_1] at hj
    by_cases hje : j = get_seglist_ind asize
    · exact decide_eq_true (hhome a (hje ▸ ha))
    · have hji : j ∈ List.range' (get_seglist_ind asize + 1)
          (seglist_length - (get_seglist_ind asize + 1)) := by
        rw [List.mem_range'_1]
        omega
      rw [hempty j hji] at ha
      simp at ha

theorem fitFree_of_block {s : Heap} {asize a t : Nat}
    (ht : t < s.blocks.length) (h1 : addrB s t = a) (h2 : (blkAt s t).alloc = false)
    (h3 : asize ≤ (blkAt s t).size) : fitFree s asize a = true := by
  unfold fitFree
  rw [List.any_eq_true]
  refine ⟨(addrB s t, blkAt s t), mem_cells.mpr ⟨t, ht, rfl, rfl⟩, ?_⟩
  simp only [Bool.and_eq_true, beq_iff_eq, Bool.not_eq_true', decide_eq_true_eq]
  exact ⟨⟨h1, h2⟩, h3⟩

/-- C4: on a heap whose blocks are well-sized and whose buckets hold only
free, correctly classified blocks, `find_fit` returns a free block of at
least the requested adjusted size (also when it falls back to the head of a
larger bucket), and returns none only when no bucket from the home bucket
upward holds a large-enough block. -/
theorem find_fit_correct (s : Heap) (asize : Nat)
    (hbk : bucketBlocksOk s = true) (hso : sizesOk s = true)
    (h16 : min_block_size ≤ asize) (hmod : asize % dsize = 0) :
    find_fit_ok s asize = true := by
  have hsz : SizesOkL s.blocks := sizesOk_iff.mp hso
  have hBF : BucketFine s := bucketBlocksOk_BucketFine hbk
  unfold find_fit_ok
  cases hf : find_fit s asize with
  | some a =>
    obtain ⟨t, ht, h1, h2, h3⟩ := find_fit_sound hsz hBF hf
    exact fitFree_of_block ht h1 h2 h3
  | none =>
    exact find_fit_none hf

theorem find_fit_correct_witness :
    bucketBlocksOk heap0 = true ∧ sizesOk heap0 = true ∧
      min_block_size ≤ 32 ∧ 32 % dsize = 0 ∧ find_fit_ok heap0 32 = true :=
  ⟨by decide, by decide, by decide, by decide,
    find_fit_correct heap0 32 (by decide) (by decide) (by decide) (by decide)⟩

/-- C7 counterexample: with a non-null pointer to a live block and a nonzero
size, `realloc` does NOT always allocate a fresh block, copy and release the
old one — when the fresh allocation fails (no fit and the heap cannot grow)
it returns the no-allocation result, performs no copy, and leaves the old
block allocated. -/
theorem realloc_failure_keeps_block :
    (5000 : Nat) ≠ 0 ∧
    validPayload heap1 16 = true ∧
    (realloc heap1 (some 16) 5000 false).2.1 = none ∧
    (realloc heap1 (some 16) 5000 false).2.2 = none ∧
    validPayload (realloc heap1 (some 16) 5000 false).1 16 = true := by
  refine ⟨by decide, by decide, by decide, by decide, by decide⟩

/-- C7 (amended): `realloc(ptr, 0)` behaves as `free` and returns
no-allocation; `realloc(NULL, size)` behaves as `malloc(size)`; otherwise,
when the fresh allocation fails the call returns no-allocation and changes
nothing else, and when it succeeds the call copies
min(old payload size, size) bytes, releases the old block through `free`,
and returns the new pointer (never resizing in place). -/
theorem realloc_behavior (s : Heap) (size : Nat) (ok : Bool) :
    (∀ ptr, realloc s ptr 0 ok = (release s ptr, none, none)) ∧
    (size ≠ 0 → realloc s none size ok =
      ((malloc s size ok).1, (malloc s size ok).2, none)) ∧
    (∀ bp, size ≠ 0 → (malloc s size ok).2 = none →
      realloc s (some bp) size ok = ((malloc s size ok).1, none, none)) ∧
    (∀ bp newp, size ≠ 0 → (malloc s size ok).2 = some newp →
      realloc s (some bp) size ok =
        (free (malloc s size ok).1 bp, some newp,
          some (min size
            ((blkAt (malloc s size ok).1
              (idxOf (malloc s size ok).1 (payload_to_header bp))).size - wsize)))) := by
  refine ⟨fun ptr => rfl, ?_, ?_, ?_⟩
  · intro hs0
    simp only [realloc]
    rw [if_neg hs0]
  · intro bp hs0 hp2
    simp only [realloc]
    rw [if_neg hs0, hp2]
  · intro bp newp hs0 hp2
    simp only [realloc]
    rw [if_neg hs0, hp2]
    have hmin : ∀ c : Nat, (if size < c then size else c) = min size c := by
      intro c
      rcases Nat.lt_or_ge size c with h | h
      · rw [if_pos h, Nat.min_eq_left (le_of_lt h)]
      · rw [if_neg (by omega), Nat.min_eq_right h]
    rw [hmin]

theorem realloc_behavior_witness :
    realloc heap1 (some 16) 5000 false = ((malloc heap1 5000 false).1, none, none) :=
  (realloc_behavior heap1 5000 false).2.2.1 16 (by decide) (by decide)

/-- C8: `calloc` returns no-allocation when the count is zero or the product
count * size wraps the 64-bit size type, and when it returns a pointer the
payload it wrote is exactly count * size zero bytes. -/
theorem calloc_guard_and_zero_fill (s : Heap) (elements size : Nat) (ok : Bool) :
    (elements = 0 → calloc s elements size ok = (s, none)) ∧
    (elements ≠ 0 → W ≤ elements * size → calloc s elements size ok = (s, none)) ∧
    (∀ bp zs, (calloc s elements size ok).2 = some (bp, zs) →
      zs.length = elements * size ∧ ∀ x ∈ zs, x = 0) := by
  refine ⟨?_, ?_, ?_⟩
  · intro he
    simp only [calloc]
    rw [if_pos he]
  · intro he hov
    have hlt : (elements * size) % W / elements < size := by
      have h1 : (elements * size) % W < W := Nat.mod_lt _ (by norm_num [W])
      rw [Nat.div_lt_iff_lt_mul (by omega)]
      calc (elements * size) % W < W := h1
        _ ≤ elements * size := hov
        _ = size * elements := by ring
    have hbe : ((elements * size) % W / elements != size) = true := by
      simp only [bne_iff_ne, ne_eq]
      omega
    simp only [calloc]
    rw [if_neg he, hbe, if_pos rfl]
  · intro bp zs hsome
    by_cases he : elements = 0
    · have hch : calloc s elements size ok = (s, none) := by
        simp only [calloc]
        rw [if_pos he]
      rw [hch] at hsome
      exact absurd hsome (by simp)
    cases hbe : ((elements * size) % W / elements != size) with
    | true =>
      have hch : calloc s elements size ok = (s, none) := by
        simp only [calloc]
        rw [if_neg he, hbe, if_pos rfl]
      rw [hch] at hsome
      exact absurd hsome (by simp)
    | false =>
      have hdiv : (elements * size) % W / elements = size := by
        simpa using hbe
      have hnov : (elements * size) % W = elements * size := by
        have h1 : ((elements * size) % W / elements) * elements ≤ (elements * size) % W :=
          Nat.div_mul_le_self _ _
        rw [hdiv] at h1
        have h2 : (elements * size) % W ≤ elements * size := Nat.mod_le _ _
        have h3 : size * elements = elements * size := Nat.mul_comm _ _
        omega
      cases hp2 : (malloc s ((elements * size) % W) ok).2 with
      | none =>
        have hch : (calloc s elements size ok).2 = none := by
          simp only [calloc]
          rw [if_neg he, hbe, if_neg (by simp), hp2]
        rw [hch] at hsome
        exact absurd hsome (by simp)
      | some bp2 =>
        have hch : (calloc s elements size ok).2 =
            some (bp2, mem_memset_zero ((elements * size) % W)) := by
          simp only [calloc]
          rw [if_neg he, hbe, if_neg (by simp), hp2]
        rw [hch] at hsome
        injection hsome with hpair
        have hzs : zs = mem_memset_zero ((elements * size) % W) := by
          have := congrArg Prod.snd hpair
          simpa using this.symm
        rw [hzs]
        unfold mem_memset_zero
        refine ⟨?_, ?_⟩
        · rw [List.length_replicate, hnov]
        · intro x hx
          exact List.eq_of_mem_replicate hx

theorem calloc_guard_and_zero_fill_witness :
    (mem_memset_zero 24).length = 3 * 8 ∧ ∀ x ∈ mem_memset_zero 24, x = 0 :=
  (calloc_guard_and_zero_fill heap1 3 8 true).2.2 48 (mem_memset_zero 24) (by decide)

/-- C9: when the heap-growth service fails, `extend_heap` returns the
no-allocation result with the heap state untouched, and `malloc` (finding no
fit) propagates the no-allocation result with the state untouched; when the
growth service succeeds the extension fully completes: the heap end moves by
the rounded request, and the new free block is written and linked into the
bucket its size classifies to. -/
theorem extend_heap_atomic (s : Heap) (hreach : Reachable s) :
    (∀ size, extend_heap s size false = (s, none)) ∧
    (∀ size, size ≠ 0 →
      find_fit s (max (round_up64 ((size + wsize) % W) dsize) min_block_size) = none →
      malloc s size false = (s, none)) ∧
    (∀ size, chunksize ≤ size → size ≤ W - 16 →
      ∃ k, (extend_heap s size true).2 = some k ∧
        k < (extend_heap s size true).1.blocks.length ∧
        (blkAt (extend_heap s size true).1 k).alloc = false ∧
        addrB (extend_heap s size true).1 k ∈
          bucket (extend_heap s size true).1
            (get_seglist_ind (blkAt (extend_heap s size true).1 k).size) ∧
        heapEnd (extend_heap s size true).1 = heapEnd s + round_up64 size dsize) := by
  have hInv := reachable_inv hreach
  refine ⟨fun size => extend_heap_fail s size, ?_, ?_⟩
  · intro size hs0 hff
    simp only [malloc]
    rw [if_neg hs0, hff, extend_heap_fail]
  · intro size hlo hhi
    obtain ⟨hinvE, k, hk2, hklt, hkfree, hksz, hkpres, hkend⟩ :=
      extend_heap_inv s size hInv hlo hhi
    exact ⟨k, hk2, hklt, hkfree, hinvE.2.2.2.2.2.1 k hklt hkfree, hkend⟩

theorem extend_heap_atomic_witness :
    extend_heap heap0 4096 false = (heap0, none) :=
  (extend_heap_atomic heap0 (Reachable.init true true heap0 rfl)).1 4096

end MMAlloc
